import Mathlib

/-!
joinx: interval intersection (`IntersectFull`) and annotation set-up

A shallow embedding of `src/lib/processors/IntersectFull.hpp` and of
`VcfAnnotateCommand::postProcessArguments` / `exec`
(`src/lib/ui/VcfAnnotateCommand.cpp`), followed by the theorems that settle
the specification's statements about them.

Conventions of the embedding

* coordinates are `Nat`; `compare` only tests `==` and `<=` on them, so the
  64-bit width of the C++ fields plays no part;
* a stream is the list of records it still has to deliver: `eof()` is
  "the list is empty", `peek` is the head, `next` removes the head;
* the collector is a state-passing record of functions; every call made on
  it is also appended to a log (`Rc.calls`) so that statements about "which
  callbacks were invoked" can be written down;
* a `throw` is the `error` component of an `Outcome`; the state reached at
  the point of the throw is kept alongside it.
-/

namespace Joinx

/-! ## Records and version-aware chromosome comparison -/

/-- What `IntersectFull` observes of a stream value: `chrom()`, `start()`,
`stop()`, `toString()` and the answer of the free function
`containsInsertions` for it. -/
structure Record where
  chrom : String
  start : Nat
  stop : Nat
  containsInsertions : Bool
  toString : String
  deriving DecidableEq, Repr

/-- The character sequence `chrom().c_str()` hands to `strverscmp`: the
characters up to (not including) the first NUL.  Characters are represented
by their code points; UTF-8 preserves code point order and every byte of a
multi-byte character is a non-digit, so the sign of the comparison is the
one the byte-wise C function returns. -/
def c_str (s : String) : List Nat :=
  (s.toList.map Char.toNat).takeWhile (fun c => c != 0)

/-- The C library's `isdigit` in the "C" locale. -/
def isdigit (c : Nat) : Bool := 48 ≤ c && c ≤ 57

/-- Character classes of `strverscmp`: `x` other, `d` a digit `1..9`,
`z` the digit `0`; the C expression `(c == '0') + (isdigit (c) != 0)`. -/
inductive VClass where
  | x | d | z
  deriving DecidableEq, Repr

/-- Class of a character, `(c == '0') + (isdigit (c) != 0)`. -/
def vclass (c : Nat) : VClass :=
  if c = 48 then VClass.z else if isdigit c then VClass.d else VClass.x

/-- States of `strverscmp`: `S_N` normal, `S_I` integral part, `S_F`
fractional part, `S_Z` fractional part with leading zeroes only. -/
inductive VState where
  | S_N | S_I | S_F | S_Z
  deriving DecidableEq, Repr

/-- The table `next_state[state + class]` of `strverscmp`. -/
def next_state : VState → VClass → VState
  | .S_N, .x => .S_N | .S_N, .d => .S_I | .S_N, .z => .S_Z
  | .S_I, .x => .S_N | .S_I, .d => .S_I | .S_I, .z => .S_I
  | .S_F, .x => .S_N | .S_F, .d => .S_F | .S_F, .z => .S_F
  | .S_Z, .x => .S_N | .S_Z, .d => .S_F | .S_Z, .z => .S_Z

/-- Entries of the table `result_type`: `CMP` (return the difference),
`LEN` (compare the lengths of the digit runs) or a literal `-1` / `+1`. -/
inductive VResult where
  | CMP | LEN | lit (r : Int)
  deriving DecidableEq, Repr

/-- The table `result_type[state * 3 + class c2]` of `strverscmp`, indexed by
the state before the differing characters and the classes of `c1`, `c2`. -/
def result_type : VState → VClass → VClass → VResult
  | .S_N, .d, .d => .LEN
  | .S_N, _, _ => .CMP
  | .S_I, .x, .x => .CMP
  | .S_I, .x, .d => .lit (-1) | .S_I, .x, .z => .lit (-1)
  | .S_I, .d, .x => .lit 1 | .S_I, .z, .x => .lit 1
  | .S_I, _, _ => .LEN
  | .S_F, _, _ => .CMP
  | .S_Z, .x, .x => .CMP
  | .S_Z, .x, .d => .lit 1 | .S_Z, .x, .z => .lit 1
  | .S_Z, .d, .x => .lit (-1) | .S_Z, .z, .x => .lit (-1)
  | .S_Z, _, _ => .CMP

/-- The `LEN` case: `while (isdigit (*p1++)) if (!isdigit (*p2++)) return 1;`
then `return isdigit (*p2) ? -1 : diff`.  The end of a list is the
terminating NUL, which is not a digit. -/
def lenCmp (diff : Int) : List Nat → List Nat → Int
  | c1 :: p1, c2 :: p2 =>
    if isdigit c1 then (if isdigit c2 then lenCmp diff p1 p2 else 1)
    else (if isdigit c2 then -1 else diff)
  | c1 :: _, [] => if isdigit c1 then 1 else diff
  | [], c2 :: _ => if isdigit c2 then -1 else diff
  | [], [] => diff

/-- What `strverscmp` returns once `c1 != c2` has been read in state `st`;
`p1`, `p2` are the characters after `c1`, `c2`. -/
def verResult (st : VState) (c1 c2 : Nat) (p1 p2 : List Nat) : Int :=
  match result_type st (vclass c1) (vclass c2) with
  | .CMP => (c1 : Int) - (c2 : Int)
  | .LEN => lenCmp ((c1 : Int) - (c2 : Int)) p1 p2
  | .lit r => r

/-- The main loop of `strverscmp`, entered in state `st`: equal characters
advance the state, the terminating NUL on both sides returns `0`, the first
difference is resolved by `verResult`. -/
def strverscmpFrom (st : VState) : List Nat → List Nat → Int
  | [], [] => 0
  | [], c2 :: p2 => verResult st 0 c2 [] p2
  | c1 :: p1, [] => verResult st c1 0 p1 []
  | c1 :: p1, c2 :: p2 =>
    if c1 = c2 then strverscmpFrom (next_state st (vclass c1)) p1 p2
    else verResult st c1 c2 p1 p2

/-- Modelled from the spec: the "natural/version-aware string compare" of
chromosome names.  The source calls the C library function
`strverscmp (a.chrom().c_str(), b.chrom().c_str())`, which is not part of the
repository; the definition follows the GNU implementation (state tables
`next_state` / `result_type`). -/
def strverscmp (s t : String) : Int :=
  strverscmpFrom VState.S_N (c_str s) (c_str t)

/-! ## `IntersectFull::compare` -/

namespace IntersectFull

/-- The enum `IntersectFull::Compare`. -/
inductive Compare where
  | BEFORE | INTERSECT | AFTER
  deriving DecidableEq, Repr

/-- `IntersectFull::compareWithAdjacentInsertions`. -/
def compareWithAdjacentInsertions (a b : Record) : Compare :=
  let rv := strverscmp a.chrom b.chrom
  if rv < 0 then Compare.BEFORE
  else if rv > 0 then Compare.AFTER
  else if (a.containsInsertions && (a.stop == b.start || a.start == b.stop)) ||
      (b.containsInsertions && (b.stop == a.start || b.start == a.stop)) then
    Compare.INTERSECT
  else if a.stop ≤ b.start then Compare.BEFORE
  else if b.stop ≤ a.start then Compare.AFTER
  else Compare.INTERSECT

/-- `IntersectFull::compare`; `adjacentInsertions` is the member
`_adjacentInsertions`. -/
def compare (adjacentInsertions : Bool) (a b : Record) : Compare :=
  if adjacentInsertions then compareWithAdjacentInsertions a b
  else
    let rv := strverscmp a.chrom b.chrom
    if rv < 0 then Compare.BEFORE
    else if rv > 0 then Compare.AFTER
    else if a.start == a.stop && b.start == b.stop && a.start == b.start then
      Compare.INTERSECT
    else if a.stop ≤ b.start then Compare.BEFORE
    else if b.stop ≤ a.start then Compare.AFTER
    else Compare.INTERSECT

/-! ## Streams, collector and cache -/

/-- Modelled from the spec: a `RecordStream` ("pull-based typed source of
records; exposes peek/advance and end-of-stream").  The typed stream classes
are not in `src/`; a stream is the list of records it has still to deliver,
`eof()` is `[]`, `peek` yields the head and `next` removes it. -/
abbrev Stream := List Record

/-- The exception `UnsortedDataError`, carrying its message. -/
structure UnsortedDataError where
  message : String
  deriving DecidableEq, Repr

/-- `IntersectFull::CacheEntry`. -/
structure CacheEntry where
  value : Record
  hit : Bool
  deriving DecidableEq, Repr

/-- A call received by the collector. -/
inductive Call where
  | hit (a b : Record)
  | missA (a : Record)
  | missB (b : Record)
  deriving DecidableEq, Repr

/-- Modelled from the spec: the collector interface `hit(a,b)`, `missA(a)`,
`missB(b)`, `wantMissA() -> bool`, `wantMissB() -> bool` (the collector
classes are not in `src/`).  `σ` is the collector's own state; `hit` returns
the `bool` that `execute` reads. -/
structure Collector (σ : Type) where
  hit : σ → Record → Record → Bool × σ
  missA : σ → Record → σ
  missB : σ → Record → σ
  wantMissA : σ → Bool
  wantMissB : σ → Bool

/-- The member `_rc` during a run: the collector's state together with the
log of the calls made on it so far (oldest first). -/
structure Rc (σ : Type) where
  state : σ
  calls : List Call

/-- The call `_rc.hit(a, b)`. -/
def Rc.hit {σ : Type} (C : Collector σ) (rc : Rc σ) (a b : Record) : Bool × Rc σ :=
  ((C.hit rc.state a b).1, ⟨(C.hit rc.state a b).2, rc.calls ++ [Call.hit a b]⟩)

/-- The call `_rc.missA(a)`. -/
def Rc.missA {σ : Type} (C : Collector σ) (rc : Rc σ) (a : Record) : Rc σ :=
  ⟨C.missA rc.state a, rc.calls ++ [Call.missA a]⟩

/-- The call `_rc.missB(b)`. -/
def Rc.missB {σ : Type} (C : Collector σ) (rc : Rc σ) (b : Record) : Rc σ :=
  ⟨C.missB rc.state b, rc.calls ++ [Call.missB b]⟩

/-- The immutable members of an `IntersectFull` object: the names of the two
streams (`_a.name()`, `_b.name()`), the collector's code and
`_adjacentInsertions`. -/
structure Setup (σ : Type) where
  aName : String
  bName : String
  collector : Collector σ
  adjacentInsertions : Bool

/-- The message built by `advanceSorted`:
`"Unsorted data found in stream %1%\n'%2%' follows '%3%'"`. -/
def unsortedMessage (name : String) (peek value : Record) : String :=
  "Unsorted data found in stream " ++ name ++ "\n'" ++ peek.toString ++
    "' follows '" ++ value.toString ++ "'"

/-- `IntersectFull::advanceSorted(stream, value)` on a stream whose next
record is `peek`: throws when `compare(*peek, value) == BEFORE`, otherwise
`stream.next(value)` stores `peek` into `value` (the result) and returns
true.  The callers test `eof()` first; the exhausted stream is the `[]` case
of each loop below. -/
def advanceSorted (adjacentInsertions : Bool) (name : String) (peek value : Record) :
    Except UnsortedDataError Record :=
  if compare adjacentInsertions peek value = Compare.BEFORE then
    Except.error ⟨unsortedMessage name peek value⟩
  else Except.ok peek

/-- `IntersectFull::cacheRemove(iter)` for the entry `e` the iterator points
to; erasing the entry from the list is done by the caller. -/
def cacheRemove {σ : Type} (I : Setup σ) (e : CacheEntry) (rc : Rc σ) : Rc σ :=
  if !e.hit && I.collector.wantMissB rc.state then rc.missB I.collector e.value else rc

/-- The loop `while (!_cache.empty() && compare(valueA, _cache.front().value)
== AFTER) popCache();` of `execute`. -/
def burnCache {σ : Type} (I : Setup σ) (valueA : Record) :
    List CacheEntry → Rc σ → List CacheEntry × Rc σ
  | [], rc => ([], rc)
  | e :: rest, rc =>
    if compare I.adjacentInsertions valueA e.value = Compare.AFTER then
      burnCache I valueA rest (cacheRemove I e rc)
    else (e :: rest, rc)

/-- State of the B side of a run: a pending exception, the records stream B
has still to deliver, the local `valueB`, the running flag `hitA`, the cache
and the collector. -/
structure BSide (σ : Type) where
  error : Option UnsortedDataError
  b : Stream
  valueB : Record
  hitA : Bool
  cache : List CacheEntry
  rc : Rc σ

/-- The look-ahead loop of `execute` (entered when the cache is empty):
`while (!_b.eof() && _b.peek(&peek) && compare(valueA, *peek) == AFTER)
{ advanceSorted(_b, valueB); if (_rc.wantMissB()) _rc.missB(valueB); }`. -/
def burnInput {σ : Type} (I : Setup σ) (valueA : Record) :
    Stream → Record → Rc σ → BSide σ
  | [], valueB, rc => ⟨none, [], valueB, false, [], rc⟩
  | peek :: rest, valueB, rc =>
    if compare I.adjacentInsertions valueA peek = Compare.AFTER then
      match advanceSorted I.adjacentInsertions I.bName peek valueB with
      | Except.error err => ⟨some err, peek :: rest, valueB, false, [], rc⟩
      | Except.ok v =>
        burnInput I valueA rest v
          (if I.collector.wantMissB rc.state then rc.missB I.collector v else rc)
    else ⟨none, peek :: rest, valueB, false, [], rc⟩

/-- `IntersectFull::checkCache(valueA)`: the result `rv`, the cache after the
scan and the collector. -/
def checkCache {σ : Type} (I : Setup σ) (valueA : Record) :
    List CacheEntry → Rc σ → Bool × List CacheEntry × Rc σ
  | [], rc => (false, [], rc)
  | e :: rest, rc =>
    match compare I.adjacentInsertions valueA e.value with
    | Compare.BEFORE => (false, e :: rest, rc)
    | Compare.AFTER => checkCache I valueA rest (cacheRemove I e rc)
    | Compare.INTERSECT =>
      let r := rc.hit I.collector valueA e.value
      let t := checkCache I valueA rest r.2
      (r.1 || t.1, ⟨e.value, e.hit || r.1⟩ :: t.2.1, t.2.2)

/-- The loop `while (!_b.eof() && advanceSorted(_b, valueB)) { ... }` of
`execute` that pulls B-records for the current `valueA`;
`cache(valueB, hit)` is `push_back`. -/
def pullB {σ : Type} (I : Setup σ) (valueA : Record) :
    Stream → Record → Bool → List CacheEntry → Rc σ → BSide σ
  | [], valueB, hitA, cache, rc => ⟨none, [], valueB, hitA, cache, rc⟩
  | peek :: rest, valueB, hitA, cache, rc =>
    match advanceSorted I.adjacentInsertions I.bName peek valueB with
    | Except.error err => ⟨some err, peek :: rest, valueB, hitA, cache, rc⟩
    | Except.ok v =>
      match compare I.adjacentInsertions valueA v with
      | Compare.BEFORE => ⟨none, rest, v, hitA, cache ++ [⟨v, false⟩], rc⟩
      | Compare.AFTER =>
        pullB I valueA rest v hitA cache
          (if I.collector.wantMissB rc.state then rc.missB I.collector v else rc)
      | Compare.INTERSECT =>
        let r := rc.hit I.collector valueA v
        pullB I valueA rest v (hitA || r.1) (cache ++ [⟨v, r.1⟩]) r.2

/-- The loop `while (_rc.wantMissB() && !_cache.empty()) popCache();`. -/
def drainCache {σ : Type} (I : Setup σ) : List CacheEntry → Rc σ → List CacheEntry × Rc σ
  | [], rc => ([], rc)
  | e :: rest, rc =>
    if I.collector.wantMissB rc.state then drainCache I rest (cacheRemove I e rc)
    else (e :: rest, rc)

/-- The loop `while (_rc.wantMissB() && !_b.eof() && advanceSorted(_b, valueB))
_rc.missB(valueB);`. -/
def drainB {σ : Type} (I : Setup σ) : Stream → Record → List CacheEntry → Rc σ → BSide σ
  | [], valueB, cache, rc => ⟨none, [], valueB, false, cache, rc⟩
  | peek :: rest, valueB, cache, rc =>
    if I.collector.wantMissB rc.state then
      match advanceSorted I.adjacentInsertions I.bName peek valueB with
      | Except.error err => ⟨some err, peek :: rest, valueB, false, cache, rc⟩
      | Except.ok v => drainB I rest v cache (rc.missB I.collector v)
    else ⟨none, peek :: rest, valueB, false, cache, rc⟩

/-- The body of the outer loop of `execute` for one record `valueA` of
stream A, from the cache burn to the `missA` report. -/
def processA {σ : Type} (I : Setup σ) (valueA : Record)
    (b : Stream) (valueB : Record) (cache : List CacheEntry) (rc : Rc σ) : BSide σ :=
  let burnt := burnCache I valueA cache rc
  let ahead : BSide σ :=
    if burnt.1.isEmpty then burnInput I valueA b valueB burnt.2
    else ⟨none, b, valueB, false, burnt.1, burnt.2⟩
  match ahead.error with
  | some _ => ahead
  | none =>
    let checked := checkCache I valueA burnt.1 ahead.rc
    let pulled := pullB I valueA ahead.b ahead.valueB checked.1 checked.2.1 checked.2.2
    match pulled.error with
    | some _ => pulled
    | none =>
      if !pulled.hitA && I.collector.wantMissA pulled.rc.state then
        { pulled with rc := pulled.rc.missA I.collector valueA }
      else pulled

/-- What a run of `execute` leaves behind: the exception thrown (if any),
the undelivered parts of both streams, the locals, the cache and the
collector with the log of the calls it received. -/
structure Outcome (σ : Type) where
  error : Option UnsortedDataError
  a : Stream
  b : Stream
  valueA : Record
  valueB : Record
  cache : List CacheEntry
  rc : Rc σ

/-- The outer loop `while (!_a.eof() && advanceSorted(_a, valueA)) { ... }`
of `execute`, followed by the two draining loops once stream A is
exhausted. -/
def executeFrom {σ : Type} (I : Setup σ) :
    Stream → Stream → Record → Record → List CacheEntry → Rc σ → Outcome σ
  | [], b, valueA, valueB, cache, rc =>
    let drained := drainCache I cache rc
    let rest := drainB I b valueB drained.1 drained.2
    ⟨rest.error, [], rest.b, valueA, rest.valueB, rest.cache, rest.rc⟩
  | peek :: a, b, valueA, valueB, cache, rc =>
    match advanceSorted I.adjacentInsertions I.aName peek valueA with
    | Except.error err => ⟨some err, peek :: a, b, valueA, valueB, cache, rc⟩
    | Except.ok v =>
      let s := processA I v b valueB cache rc
      match s.error with
      | some err => ⟨some err, a, s.b, v, s.valueB, s.cache, s.rc⟩
      | none => executeFrom I a s.b v s.valueB s.cache s.rc

/-- `IntersectFull::execute()` on streams `a` and `b`: the cache starts
empty, no call has been made yet, `rc` is the collector's initial state and
`valueA`, `valueB` are the default-constructed locals `TypeA valueA;`
`TypeB valueB;` (the constructors of the record types are not in `src/`). -/
def execute {σ : Type} (I : Setup σ) (a b : Stream) (valueA valueB : Record) (rc : σ) :
    Outcome σ :=
  executeFrom I a b valueA valueB [] ⟨rc, []⟩

/-- The `(a, b)` arguments of the `hit` calls of a log, in order. -/
def hitsOf : List Call → List (Record × Record)
  | [] => []
  | Call.hit a b :: cs => (a, b) :: hitsOf cs
  | _ :: cs => hitsOf cs

/-- The arguments of the `missA` calls of a log, in order. -/
def missAOf : List Call → List Record
  | [] => []
  | Call.missA a :: cs => a :: missAOf cs
  | _ :: cs => missAOf cs

/-- The arguments of the `missB` calls of a log, in order. -/
def missBOf : List Call → List Record
  | [] => []
  | Call.missB b :: cs => b :: missBOf cs
  | _ :: cs => missBOf cs

/-- A collector without state of its own: `hit` returns `hitResult`, and
`wantMissA()`, `wantMissB()` return the two given flags. -/
def constCollector (hitResult wantA wantB : Bool) : Collector Unit where
  hit := fun s _ _ => (hitResult, s)
  missA := fun s _ => s
  missB := fun s _ => s
  wantMissA := fun _ => wantA
  wantMissB := fun _ => wantB

end IntersectFull

/-! ## Specification vocabulary for `IntersectFull` -/

namespace IntersectFull

/-- A property of the collector (state and log) that every call `execute`
can make preserves: `hit` always, `missA` / `missB` when the matching
`wantMiss` query has just answered true. -/
structure CallInvariant {σ : Type} (I : Setup σ) (Inv : Rc σ → Prop) : Prop where
  hit : ∀ rc a b, Inv rc → Inv (rc.hit I.collector a b).2
  missA : ∀ rc a, Inv rc → I.collector.wantMissA rc.state = true → Inv (rc.missA I.collector a)
  missB : ∀ rc b, Inv rc → I.collector.wantMissB rc.state = true → Inv (rc.missB I.collector b)

/-- The exception `e` is the one `advanceSorted` builds for stream `name`
from two consecutive records `value`, `peek` of the sequence `L`, the later
one comparing BEFORE the earlier one. -/
def Unsorted (adj : Bool) (name : String) (L : List Record) (e : UnsortedDataError) : Prop :=
  ∃ value peek, e = ⟨unsortedMessage name peek value⟩ ∧
    compare adj peek value = Compare.BEFORE ∧ ∃ l1 l2, L = l1 ++ value :: peek :: l2

/-- The guard of `advanceSorted` lets `peek` follow `value`. -/
def GuardOk (adj : Bool) (value peek : Record) : Prop :=
  compare adj peek value ≠ Compare.BEFORE

end IntersectFull

/-! ## `VcfAnnotateCommand` -/

namespace Vcf

/-- The enum `Vcf::CustomType::NumberType`; its declaration is not in
`src/`, the command only names `PER_ALLELE`. -/
inductive NumberType where
  | PER_ALLELE
  | other (tag : Nat)
  deriving DecidableEq, Repr

/-- The fields of a `Vcf::CustomType` read by the command: `id()`,
`numberType()`, `number()`, `type()` and `description()`. -/
structure CustomType where
  id : String
  numberType : NumberType
  number : Nat
  type : String
  description : String
  deriving DecidableEq, Repr

end Vcf

/-- The operations of `Vcf::Header` used by the command (the class is not in
`src/`): iteration over `infoTypes()`, the lookup `infoType(id)` (a null
pointer is `none`), `addInfoType` (which may throw), `add(line)`,
`sourceIndex(i)` and the text written by `operator<<`. -/
structure HeaderApi (H : Type) where
  infoTypes : H → List (String × Vcf.CustomType)
  infoType : H → String → Option Vcf.CustomType
  addInfoType : H → Vcf.CustomType → Except String H
  add : H → String → H
  sourceIndex : H → Nat → H
  text : H → String

namespace VcfAnnotateCommand

/-- The struct `InfoTranslation`. -/
structure InfoTranslation where
  newType : Option Vcf.CustomType
  singleToPerAlt : Bool
  deriving DecidableEq, Repr

/-- The members of `VcfAnnotateCommand`. -/
structure Command where
  vcfFile : String
  annoFile : String
  outputFile : String
  infoFields : List String
  noInfo : Bool
  noIdents : Bool
  infoMap : List (String × InfoTranslation)
  deriving DecidableEq, Repr

/-- The assignment `_infoMap[key] = value` on a map kept as a list. -/
def mapSet (m : List (String × InfoTranslation)) (key : String) (value : InfoTranslation) :
    List (String × InfoTranslation) :=
  (key, value) :: m.filter (fun kv => kv.1 != key)

/-- One pass of the loop over `_infoFields` in `postProcessArguments`, for
the specification `spec`; `split` is `Tokenizer<string>::split(spec, "=,", ..)`
(the tokenizer is not in `src/`). -/
def translateField {H : Type} (api : HeaderApi H) (split : String → String → List String)
    (annoHeader : H) (spec : String) (header : H) (infoMap : List (String × InfoTranslation)) :
    Except String (H × List (String × InfoTranslation)) :=
  match split spec "=," with
  | [] => Except.error "Invalid value for info field (null)"
  | tok0 :: more =>
    match api.infoType annoHeader tok0 with
    | none => Except.error ("Unknown info field '" ++ tok0 ++ "' for annotation file")
    | some oldType =>
      let id := match more with
        | [] => oldType.id
        | tok1 :: _ => tok1
      let perAlt : Except String Bool := match more with
        | _ :: tok2 :: _ =>
          if tok2 != "per-alt" then
            Except.error ("Invalid syntax for info field specification: '" ++ spec ++ "'")
          else Except.ok true
        | _ => Except.ok false
      match perAlt with
      | Except.error e => Except.error e
      | Except.ok singleToPerAlt =>
        let newType : Vcf.CustomType :=
          ⟨id, if singleToPerAlt then Vcf.NumberType.PER_ALLELE else oldType.numberType,
            if singleToPerAlt then 0 else oldType.number, oldType.type, oldType.description⟩
        match api.addInfoType header newType with
        | Except.error e => Except.error e
        | Except.ok header' =>
          Except.ok (header', mapSet infoMap oldType.id ⟨api.infoType header' id, singleToPerAlt⟩)

/-- The loop `for (auto iter = _infoFields.begin(); ...)` of
`postProcessArguments`. -/
def translateFields {H : Type} (api : HeaderApi H) (split : String → String → List String)
    (annoHeader : H) :
    List String → H → List (String × InfoTranslation) →
      Except String (H × List (String × InfoTranslation))
  | [], header, infoMap => Except.ok (header, infoMap)
  | spec :: rest, header, infoMap =>
    match translateField api split annoHeader spec header infoMap with
    | Except.error e => Except.error e
    | Except.ok r => translateFields api split annoHeader rest r.1 r.2

/-- `VcfAnnotateCommand::postProcessArguments(header, annoHeader)`: the
command and the header after the call, or the message of the
`runtime_error` thrown. -/
def postProcessArguments {H : Type} (api : HeaderApi H)
    (split : String → String → List String) (cmd : Command) (header annoHeader : H) :
    Except String (Command × H) :=
  let infoFields :=
    if cmd.noInfo then []
    else if cmd.infoFields.isEmpty then (api.infoTypes annoHeader).map (fun kv => kv.1)
    else cmd.infoFields
  match translateFields api split annoHeader infoFields header cmd.infoMap with
  | Except.error e => Except.error e
  | Except.ok r => Except.ok ({ cmd with infoFields := infoFields, infoMap := r.2 }, r.1)

/-- What `exec` finds when it opens its two inputs: the headers of the two
readers, the number of references to stdin, and the text the grouping
pipeline (`pump.execute(); initialGrouper.flush();`, not in `src/`) writes
for a given command and header. -/
structure Inputs (H : Type) where
  header : H
  annoHeader : H
  cinReferences : Nat
  pipeline : Command → H → List String

/-- Result of `exec`: everything written to `*out`, in order, and the
message of the exception that ended the run, if any. -/
structure ExecResult where
  output : List String
  error : Option String
  deriving DecidableEq, Repr

/-- `VcfAnnotateCommand::exec()`. -/
def exec {H : Type} (api : HeaderApi H) (split : String → String → List String)
    (cmd : Command) (inp : Inputs H) : ExecResult :=
  if inp.cinReferences > 1 then ⟨[], some "stdin listed more than once!"⟩
  else
    let header := api.sourceIndex inp.header 0
    let annoHeader := api.sourceIndex inp.annoHeader 1
    let header := api.add header ("##annotation=" ++ cmd.annoFile)
    match postProcessArguments api split cmd header annoHeader with
    | Except.error e => ⟨[], some e⟩
    | Except.ok r => ⟨api.text r.2 :: inp.pipeline r.1 r.2, none⟩

/-- A header kept as the list of its info types and its extra lines;
`addInfoType` appends and never throws. -/
structure ListHeader where
  info : List Vcf.CustomType
  lines : List String
  deriving DecidableEq, Repr

/-- The header operations on `ListHeader`. -/
def listApi : HeaderApi ListHeader where
  infoTypes := fun h => h.info.map (fun t => (t.id, t))
  infoType := fun h id => h.info.find? (fun t => t.id == id)
  addInfoType := fun h t => Except.ok { h with info := h.info ++ [t] }
  add := fun h l => { h with lines := h.lines ++ [l] }
  sourceIndex := fun h _ => h
  text := fun h => String.intercalate "\n" (h.lines ++ h.info.map (fun t => t.id))

/-- Fields of a character list separated by any of the characters `delims`;
`cur` holds the characters of the field being read, in reverse. -/
def splitChars (delims : List Char) : List Char → List Char → List String
  | [], cur => [String.mk cur.reverse]
  | c :: cs, cur =>
    if delims.contains c then String.mk cur.reverse :: splitChars delims cs []
    else splitChars delims cs (c :: cur)

/-- A tokenizer for the examples: the fields of `s` separated by any
character of `delims`; the empty string has no field. -/
def splitFields (s delims : String) : List String :=
  if s.toList.isEmpty then [] else splitChars delims.toList s.toList []

end VcfAnnotateCommand

namespace VcfAnnotateCommand

/-- The specification `spec` names (as its first token) an info field the
annotation header does not define, or has a third token other than
"per-alt". -/
def BadSpec {H : Type} (api : HeaderApi H) (split : String → String → List String)
    (annoHeader : H) (spec : String) : Prop :=
  (∃ tok0 more, split spec "=," = tok0 :: more ∧ api.infoType annoHeader tok0 = none) ∨
    (∃ tok0 tok1 tok2 more, split spec "=," = tok0 :: tok1 :: tok2 :: more ∧ tok2 ≠ "per-alt")

end VcfAnnotateCommand

/-! ## Vocabulary for the order induced by `strverscmp` -/

/-- Length of the run of digits at the head of a character list. -/
def digitRun : List Nat → Nat
  | [] => 0
  | c :: p => if isdigit c then digitRun p + 1 else 0

/-- Rank of a character `c` followed by `rest` when it is the first
differing character read in state `st`: `strverscmp` orders two different
characters by the lexicographic order of their ranks. -/
def verKey (st : VState) (c : Nat) (rest : List Nat) : Nat × Nat × Nat :=
  match st with
  | .S_N =>
    if c < 49 then (0, 0, c)
    else if c ≤ 57 then (1, digitRun rest, c)
    else (2, 0, c)
  | .S_I => if isdigit c then (1, digitRun rest, c) else (0, 0, c)
  | .S_F => (0, 0, c)
  | .S_Z => if isdigit c then (0, 0, c) else (1, 0, c)

/-- Strict lexicographic order on rank triples. -/
def keyLt (k1 k2 : Nat × Nat × Nat) : Prop :=
  k1.1 < k2.1 ∨ (k1.1 = k2.1 ∧ (k1.2.1 < k2.2.1 ∨ (k1.2.1 = k2.2.1 ∧ k1.2.2 < k2.2.2)))

/-! ## Reference semantics of one run (collector answering `hit` with true) -/

namespace IntersectFull

/-- The calls a view keeps: every `hit`, the `missA` calls when `wa`, the
`missB` calls when `wb`. -/
def keep (wa wb : Bool) : Call → Bool
  | Call.hit _ _ => true
  | Call.missA _ => wa
  | Call.missB _ => wb

/-- A log restricted to the calls of a view. -/
def view (wa wb : Bool) (calls : List Call) : List Call :=
  calls.filter (keep wa wb)

/-- The collector answers every `hit` with true, and the miss reports that a
view keeps are always requested. -/
structure Faithful {σ : Type} (I : Setup σ) (wa wb : Bool) : Prop where
  hit : ∀ s a b, (I.collector.hit s a b).1 = true
  wantA : wa = true → ∀ s, I.collector.wantMissA s = true
  wantB : wb = true → ∀ s, I.collector.wantMissB s = true

/-- Records of stream B not yet pulled, seen as cache entries without a hit. -/
def fresh (b : List Record) : List CacheEntry :=
  b.map (fun v => ⟨v, false⟩)

/-- The `missB` report due when an entry leaves the cache. -/
def evict (e : CacheEntry) : List Call :=
  if e.hit then [] else [Call.missB e.value]

/-- Entries left after record `a` has scanned the pending entries: entries
AFTER `a` are dropped, entries that INTERSECT are marked hit, the scan stops
at the first entry BEFORE. -/
def scanKeep (adj : Bool) (a : Record) : List CacheEntry → List CacheEntry
  | [] => []
  | e :: rest =>
    match compare adj a e.value with
    | Compare.BEFORE => e :: rest
    | Compare.AFTER => scanKeep adj a rest
    | Compare.INTERSECT => ⟨e.value, true⟩ :: scanKeep adj a rest

/-- Calls made while record `a` scans the pending entries (all miss reports
requested). -/
def scanCalls (adj : Bool) (a : Record) : List CacheEntry → List Call
  | [] => []
  | e :: rest =>
    match compare adj a e.value with
    | Compare.BEFORE => []
    | Compare.AFTER => evict e ++ scanCalls adj a rest
    | Compare.INTERSECT => Call.hit a e.value :: scanCalls adj a rest

/-- Whether the scan of record `a` meets an entry that INTERSECTs. -/
def scanHit (adj : Bool) (a : Record) : List CacheEntry → Bool
  | [] => false
  | e :: rest =>
    match compare adj a e.value with
    | Compare.BEFORE => false
    | Compare.AFTER => scanHit adj a rest
    | Compare.INTERSECT => true

/-- Calls of a whole run over the records `A` with pending entries `U`, all
miss reports requested: each record scans, reports `missA` when it met no
INTERSECT, and the entries left at the end are evicted. -/
def refCalls (adj : Bool) : List Record → List CacheEntry → List Call
  | [], U => U.flatMap evict
  | a :: rest, U =>
    scanCalls adj a U ++ (if scanHit adj a U then [] else [Call.missA a]) ++
      refCalls adj rest (scanKeep adj a U)

/-- Once an entry is BEFORE `a`, so is every later entry. -/
def BeforeClosed (adj : Bool) (a : Record) (U : List Record) : Prop :=
  List.Pairwise (fun x y => compare adj a x = Compare.BEFORE → compare adj a y = Compare.BEFORE) U

end IntersectFull

namespace IntersectFull

/-- What the scan of record `a` does with one pending entry. -/
def keepEntry (adj : Bool) (a : Record) (e : CacheEntry) : Option CacheEntry :=
  match compare adj a e.value with
  | Compare.BEFORE => some e
  | Compare.AFTER => none
  | Compare.INTERSECT => some ⟨e.value, true⟩

/-- The calls the scan of record `a` makes for one pending entry. -/
def entryCalls (adj : Bool) (a : Record) (e : CacheEntry) : List Call :=
  match compare adj a e.value with
  | Compare.BEFORE => []
  | Compare.AFTER => evict e
  | Compare.INTERSECT => [Call.hit a e.value]

/-- Whether `compare(a, x)` is INTERSECT. -/
def intersects (adj : Bool) (a x : Record) : Bool :=
  decide (compare adj a x = Compare.INTERSECT)

/-- Whether `compare(a, x)` is AFTER. -/
def isAfter (adj : Bool) (a x : Record) : Bool :=
  decide (compare adj a x = Compare.AFTER)

/-- Once a record of `A` finds `x` AFTER, so does every later record. -/
def AfterClosed (adj : Bool) (A : List Record) (x : Record) : Prop :=
  List.Pairwise (fun a a' => compare adj a x = Compare.AFTER → compare adj a' x = Compare.AFTER) A

/-- The order conditions under which the scan of the pending entries agrees
with an exhaustive comparison. -/
def Ordered (adj : Bool) (A : List Record) (U : List Record) : Prop :=
  (∀ a ∈ A, BeforeClosed adj a U) ∧ (∀ x ∈ U, AfterClosed adj A x)

/-- The value of an entry if `p` holds for it. -/
def pick (p : CacheEntry → Bool) (e : CacheEntry) : List Record :=
  if p e then [e.value] else []

/-- An entry is reported through `missB` at the end of a run over `A`: it
has no hit yet and no record of `A` intersects it. -/
def unmatched (adj : Bool) (A : List Record) (e : CacheEntry) : Bool :=
  !e.hit && A.all (fun a => !intersects adj a e.value)

end IntersectFull

namespace IntersectFull

/-- Ascending order by (chromosome, start, stop): the chromosome names by
`strverscmp`, then the start, then the stop. -/
def recLE (x y : Record) : Prop :=
  strverscmp x.chrom y.chrom < 0 ∨
    (strverscmp x.chrom y.chrom = 0 ∧
      (x.start < y.start ∨ (x.start = y.start ∧ x.stop ≤ y.stop)))

/-- Well-formed records: `start <= stop` (the invariant of the data model)
and, when `adjacentInsertions` is set, `containsInsertions` holds exactly for
the zero-length records (the insertion points). -/
def WellFormed (adj : Bool) (r : Record) : Prop :=
  r.start ≤ r.stop ∧ (adj = true → (r.containsInsertions = true ↔ r.start = r.stop))

instance : DecidableRel recLE :=
  fun x y => inferInstanceAs (Decidable
    (strverscmp x.chrom y.chrom < 0 ∨
      (strverscmp x.chrom y.chrom = 0 ∧
        (x.start < y.start ∨ (x.start = y.start ∧ x.stop ≤ y.stop)))))

/-- A stream is sorted ascending by (chromosome, start, stop): each record
is followed by one that is not lower. -/
def SortedAsc : List Record → Prop
  | [] => True
  | [_] => True
  | x :: y :: l => recLE x y ∧ SortedAsc (y :: l)

instance decidableSortedAsc : (l : List Record) → Decidable (SortedAsc l)
  | [] => isTrue trivial
  | [_] => isTrue trivial
  | x :: y :: l =>
    haveI := decidableSortedAsc (y :: l)
    inferInstanceAs (Decidable (recLE x y ∧ SortedAsc (y :: l)))

instance (adj : Bool) (r : Record) : Decidable (WellFormed adj r) :=
  inferInstanceAs (Decidable
    (r.start ≤ r.stop ∧ (adj = true → (r.containsInsertions = true ↔ r.start = r.stop))))

/-- Modelled from the spec: a default-constructed record, the initial value
of the locals `valueA` and `valueB` of `execute` (the constructors of the
record types are not in `src/`): an `Interval` with empty chromosome at
`[0,0)`, zero-length and hence an insertion point, with empty string form. -/
def Record.initial : Record := ⟨"", 0, 0, true, ""⟩

end IntersectFull

/-! ## Decimal numerals inside chromosome names -/

/-- Value of a list of digit characters read as a decimal numeral, most
significant digit first, continuing from the value `v` read so far. -/
def decVal (v : Nat) (l : List Nat) : Nat :=
  l.foldl (fun v c => 10 * v + (c - 48)) v

namespace IntersectFull

/-- The outer loop `while (!_a.eof() && advanceSorted(_a, valueA)) { ... }`
of `execute` without the draining loops that follow it: the state in which
the loop is left, that is, the state after the last record of stream A has
been processed. -/
def loopA {σ : Type} (I : Setup σ) :
    Stream → Stream → Record → Record → List CacheEntry → Rc σ → Outcome σ
  | [], b, valueA, valueB, cache, rc => ⟨none, [], b, valueA, valueB, cache, rc⟩
  | peek :: a, b, valueA, valueB, cache, rc =>
    match advanceSorted I.adjacentInsertions I.aName peek valueA with
    | Except.error err => ⟨some err, peek :: a, b, valueA, valueB, cache, rc⟩
    | Except.ok v =>
      let s := processA I v b valueB cache rc
      match s.error with
      | some err => ⟨some err, a, s.b, v, s.valueB, s.cache, s.rc⟩
      | none => loopA I a s.b v s.valueB s.cache s.rc

/-- The draining loops of `execute`, entered from the state `o` in which
the outer loop ended. -/
def drain {σ : Type} (I : Setup σ) (o : Outcome σ) : Outcome σ :=
  let drained := drainCache I o.cache o.rc
  let rest := drainB I o.b o.valueB drained.1 drained.2
  ⟨rest.error, [], rest.b, o.valueA, rest.valueB, rest.cache, rest.rc⟩

end IntersectFull

/-! ## `AltNormalizer` -/

namespace AltNormalizer

/-- Modelled from the spec: part of `AltNormalizer` (not in `src/`).
Removes the longest common prefix of two allele strings. -/
def stripCommon : List Char → List Char → List Char × List Char
  | x :: xs, y :: ys => if x = y then stripCommon xs ys else (x :: xs, y :: ys)
  | [], ys => ([], ys)
  | xs, [] => (xs, [])

/-- Modelled from the spec: part of `AltNormalizer` (not in `src/`).
Step 1 of the normalization ("trim common trailing bases shared by ref
and alt"): removes the longest common suffix of the two alleles. -/
def rightTrim (r a : List Char) : List Char × List Char :=
  ((stripCommon r.reverse a.reverse).1.reverse, (stripCommon r.reverse a.reverse).2.reverse)

/-- Modelled from the spec: part of `AltNormalizer` (not in `src/`).
The spec's `Variant` without the chromosome: a primitive substitution or
indel `ref -> alt` at the 1-based position `pos`. -/
structure RawVariant where
  pos : Nat
  ref : List Char
  alt : List Char
  deriving DecidableEq, Repr

/-- Modelled from the spec: part of `AltNormalizer` (not in `src/`).
The extension of a variant that is blocked on its left: the base that
follows the alleles is appended to both of them, as the test `indelAtPos1`
expects (nothing changes when the lookup fails). -/
def padRight (look : Nat → Option Char) (pos : Nat) (r a : List Char) : RawVariant :=
  match look (pos + r.length) with
  | some c => ⟨pos, r ++ [c], a ++ [c]⟩
  | none => ⟨pos, r, a⟩

/-- Modelled from the spec: part of `AltNormalizer` (not in `src/`).
Step 3 of the normalization, entered with an empty allele at position
`pos`: the base preceding the position is prepended to both alleles, the
position decremented and the right-trim repeated, until the right-trim
removes nothing (the prepended base then stays as the anchor of the indel)
or the extension is blocked by the start of the sequence (no base precedes
position 1; the alleles are then extended to the right instead). -/
def shiftLeft (look : Nat → Option Char) : Nat → List Char → List Char → RawVariant
  | 0, r, a => ⟨0, r, a⟩
  | pos + 1, r, a =>
    match look pos with
    | none => padRight look (pos + 1) r a
    | some c =>
      if (rightTrim (c :: r) (c :: a)).1.isEmpty || (rightTrim (c :: r) (c :: a)).2.isEmpty then
        shiftLeft look pos (rightTrim (c :: r) (c :: a)).1 (rightTrim (c :: r) (c :: a)).2
      else ⟨pos, (rightTrim (c :: r) (c :: a)).1, (rightTrim (c :: r) (c :: a)).2⟩

/-- Modelled from the spec: part of `AltNormalizer` (not in `src/`).
The normalization of one alt allele against `ref` at position `pos`:
right-trim, left-trim (the position advances by the number of bases
trimmed), then the left extension when an allele has become empty.  An alt
identical to `ref` is no variant (`none`). -/
def normalizeAlt (look : Nat → Option Char) (pos : Nat) (ref alt : List Char) :
    Option RawVariant :=
  let t := rightTrim ref alt
  let l := stripCommon t.1 t.2
  let pos' := pos + (t.1.length - l.1.length)
  if l.1.isEmpty && l.2.isEmpty then none
  else if l.1.isEmpty || l.2.isEmpty then some (shiftLeft look pos' l.1 l.2)
  else some ⟨pos', l.1, l.2⟩

/-- Modelled from the spec: part of `AltNormalizer` (not in `src/`).
The part of a VCF entry that normalization reads and writes: the 1-based
position, the reference allele, the alternate alleles, and for each sample
the allele indices of its genotype call (0 is the reference allele, `i` the
`i`-th alt). -/
structure Entry where
  pos : Nat
  ref : List Char
  alt : List (List Char)
  genotypes : List (List Nat)
  deriving DecidableEq, Repr

/-- Modelled from the spec: part of `AltNormalizer` (not in `src/`).
The base at the 1-based position `p` as the normalization of entry `e`
sees it: inside the span of the entry its own REF, elsewhere the reference
sequence `seq` (`sequence(chrom, p, 1)`); nothing at position 0 or past the
end of the sequence. -/
def baseAt (seq : List Char) (e : Entry) (p : Nat) : Option Char :=
  if e.pos ≤ p ∧ p < e.pos + e.ref.length then e.ref.get? (p - e.pos)
  else if p = 0 then none
  else seq.get? (p - 1)

/-- Modelled from the spec: part of `AltNormalizer` (not in `src/`).
The bases at the positions `start`, ..., `start + len - 1`. -/
def slice (look : Nat → Option Char) (start len : Nat) : List Char :=
  (List.range len).filterMap (fun i => look (start + i))

/-- Modelled from the spec: part of `AltNormalizer` (not in `src/`).
The variants of the alts of an entry, in the order of the alts. -/
def variants (seq : List Char) (e : Entry) : List (Option RawVariant) :=
  e.alt.map (normalizeAlt (baseAt seq e) e.pos e.ref)

/-- Modelled from the spec: part of `AltNormalizer` (not in `src/`).
The leftmost position required by any alt (the position of the entry
when no alt is a variant). -/
def newPos (seq : List Char) (e : Entry) : Nat :=
  match (variants seq e).filterMap id with
  | [] => e.pos
  | v :: vs => vs.foldl (fun m w => min m w.pos) v.pos

/-- Modelled from the spec: part of `AltNormalizer` (not in `src/`).
The position after the rightmost reference base required by any alt. -/
def newEnd (seq : List Char) (e : Entry) : Nat :=
  match (variants seq e).filterMap id with
  | [] => e.pos + e.ref.length
  | v :: vs => vs.foldl (fun m w => max m (w.pos + w.ref.length)) (v.pos + v.ref.length)

/-- Modelled from the spec: part of `AltNormalizer` (not in `src/`).
The common reference allele of the normalized entry. -/
def newRef (seq : List Char) (e : Entry) : List Char :=
  slice (baseAt seq e) (newPos seq e) (newEnd seq e - newPos seq e)

/-- Modelled from the spec: part of `AltNormalizer` (not in `src/`).
An alt re-expressed relative to the common reference allele; an alt that
is no variant is the reference allele itself. -/
def express (seq : List Char) (e : Entry) : Option RawVariant → List Char
  | none => newRef seq e
  | some v =>
    slice (baseAt seq e) (newPos seq e) (v.pos - newPos seq e) ++ v.alt ++
      slice (baseAt seq e) (v.pos + v.ref.length) (newEnd seq e - (v.pos + v.ref.length))

/-- Modelled from the spec: part of `AltNormalizer` (not in `src/`).
The normalized allele string of each alt, in the order of the alts. -/
def normalizedAlts (seq : List Char) (e : Entry) : List (List Char) :=
  (variants seq e).map (express seq e)

/-- Modelled from the spec: part of `AltNormalizer` (not in `src/`).
The distinct elements of a list in the order of their first occurrence. -/
def uniq : List (List Char) → List (List Char)
  | [] => []
  | x :: xs => x :: (uniq xs).filter (fun y => decide (y ≠ x))

/-- Modelled from the spec: part of `AltNormalizer` (not in `src/`).
The surviving alts: the distinct normalized alleles other than the
reference allele. -/
def newAlts (seq : List Char) (e : Entry) : List (List Char) :=
  uniq ((normalizedAlts seq e).filter (fun s => decide (s ≠ newRef seq e)))

/-- Modelled from the spec: part of `AltNormalizer` (not in `src/`).
The index of the first occurrence of `s` in a list of alleles (the length of
the list when there is none). -/
def indexIn (s : List Char) : List (List Char) → Nat
  | [] => 0
  | x :: xs => if x = s then 0 else indexIn s xs + 1

/-- Modelled from the spec: part of `AltNormalizer` (not in `src/`).
The allele index of the normalized entry that stands for the allele
index `i` of the original entry. -/
def remap (seq : List Char) (e : Entry) (i : Nat) : Nat :=
  if i = 0 then 0
  else
    match (normalizedAlts seq e).get? (i - 1) with
    | none => i
    | some s => if s = newRef seq e then 0 else indexIn s (newAlts seq e) + 1

/-- Modelled from the spec: `AltNormalizer::normalize`, which is not in
`src/` (only its test `TestVcfAltNormalizer.cpp` is).  `seq` is the reference
sequence of the chromosome of the entry.  Each alt is normalized on its own
(`normalizeAlt`), the entry moves to the leftmost position required by any
alt with the common reference allele, every alt is re-expressed relative to
it, identical results collapse to one alt and the genotype indices are
remapped.  Where the spec leaves the order of the steps open it is fixed by
the expected values of the tests. -/
def normalize (seq : List Char) (e : Entry) : Entry :=
  ⟨newPos seq e, newRef seq e, newAlts seq e, e.genotypes.map (List.map (remap seq e))⟩

/-- The sequence that a variant spells: `seq` with the bases of `ref` at the
1-based position `pos` replaced by `alt`. -/
def applyVariant (seq : List Char) (pos : Nat) (ref alt : List Char) : List Char :=
  seq.take (pos - 1) ++ alt ++ seq.drop (pos - 1 + ref.length)

/-- The allele that index `i` denotes in an entry: the reference allele for
0, the `i`-th alt otherwise. -/
def allele (e : Entry) (i : Nat) : Option (List Char) :=
  if i = 0 then some e.ref else e.alt.get? (i - 1)

/-- The variant `v` is a representation, against the reference sequence
`seq`, of the altered sequence `H`: `seq` reads `pre ++ v.ref ++ suf` with
`v.ref` at the 1-based position `v.pos`, and `H` is `pre ++ v.alt ++ suf`. -/
def Spells (seq H : List Char) (v : RawVariant) : Prop :=
  ∃ pre suf, seq = pre ++ v.ref ++ suf ∧ v.pos = pre.length + 1 ∧ H = pre ++ v.alt ++ suf

end AltNormalizer

/-! ## `MergeSorted` -/

namespace MergeSorted

open IntersectFull

/-- Modelled from the spec: part of `MergeSorted` (not in `src/`).
The records that input stream `i` has still to deliver (none for an index
that names no stream). -/
def streamAt : List (List Record) → Nat → List Record
  | [], _ => []
  | s :: _, 0 => s
  | _ :: rest, i + 1 => streamAt rest i

/-- Modelled from the spec: part of `MergeSorted` (not in `src/`).
The selection among the lookahead slots (the head of every stream that is
not at its end): the source index and the record of the globally minimum
lookahead in the order (chrom, start, stop), ties broken by ascending
source-stream index. -/
def pick : List (List Record) → Option (Nat × Record)
  | [] => none
  | [] :: rest => (pick rest).map (fun m => (m.1 + 1, m.2))
  | (h :: _) :: rest =>
    match pick rest with
    | none => some (0, h)
    | some m => if recLE h m.2 then some (0, h) else some (m.1 + 1, m.2)

/-- Modelled from the spec: part of `MergeSorted` (not in `src/`).
Consumes the lookahead of stream `i` from its origin stream. -/
def advance : Nat → List (List Record) → List (List Record)
  | _, [] => []
  | 0, s :: rest => s.tail :: rest
  | i + 1, s :: rest => s :: advance i rest

/-- Modelled from the spec: part of `MergeSorted` (not in `src/`).
Stream `i` "violates local order" at its head: the record that refills the
slot is lower than the record consumed from it. -/
def disorder (i : Nat) (streams : List (List Record)) : Bool :=
  match streamAt streams i with
  | r :: h :: _ => !decide (recLE r h)
  | _ => false

/-- Modelled from the spec: part of `MergeSorted` (not in `src/`).
At most `fuel` calls of `next()`: each call selects the minimum lookahead,
emits it tagged with its source index, consumes it and refills the slot;
`none` stands for the `UnsortedDataError` thrown when the refilled slot is
out of order; the output ends when all inputs are exhausted. -/
def merge : Nat → List (List Record) → Option (List (Nat × Record))
  | 0, _ => some []
  | fuel + 1, streams =>
    match pick streams with
    | none => some []
    | some m =>
      if disorder m.1 streams then none
      else (merge fuel (advance m.1 streams)).map (fun out => m :: out)

/-- Modelled from the spec: `MergeSorted`, which is not in `src/` (only its
use in `VcfAnnotateCommand::exec` is): the merge of N record streams into
one stream in ascending (chrom, start, stop) order, every emitted record
tagged with its source stream index.  `next()` is called once for every
record of the inputs. -/
def mergeSorted (streams : List (List Record)) : Option (List (Nat × Record)) :=
  merge (streams.map List.length).sum streams

end MergeSorted

/-! ## `GroupOverlapping` -/

namespace GroupOverlapping

open IntersectFull

/-- Modelled from the spec: part of `GroupOverlapping` (not in `src/`).
An open group: its records in arrival order, the chromosome and start of
its first record, and its trailing boundary (the maximum `stop` seen so far
in the group). -/
structure Group where
  records : List Record
  chrom : String
  start : Nat
  boundary : Nat

/-- Modelled from the spec: part of `GroupOverlapping` (not in `src/`).
The interval that a group spans, from its start to its trailing boundary. -/
def Group.region (g : Group) : Record := ⟨g.chrom, g.start, g.boundary, false, ""⟩

/-- Modelled from the spec: part of `GroupOverlapping` (not in `src/`).
The group that a record opens. -/
def Group.opened (r : Record) : Group := ⟨[r], r.chrom, r.start, r.stop⟩

/-- Modelled from the spec: part of `GroupOverlapping` (not in `src/`).
A group extended by a record. -/
def Group.extend (g : Group) (r : Record) : Group :=
  ⟨g.records ++ [r], g.chrom, g.start, max g.boundary r.stop⟩

/-- Modelled from the spec: part of `GroupOverlapping` (not in `src/`).
The record overlaps the group ("interval comparison as in 4.3, without the
cache"). -/
def overlaps (g : Group) (r : Record) : Bool :=
  decide (compare false g.region r = Compare.INTERSECT)

/-- Modelled from the spec: part of `GroupOverlapping` (not in `src/`).
The record starts past the trailing boundary of the group: the group lies
wholly before the record. -/
def passed (g : Group) (r : Record) : Bool :=
  decide (compare false g.region r = Compare.BEFORE)

/-- Modelled from the spec: part of `GroupOverlapping` (not in `src/`).
The open groups after the record has extended the first group that it
overlaps; `none` if it overlaps none. -/
def extendFirst (r : Record) : List Group → Option (List Group)
  | [] => none
  | g :: gs =>
    if overlaps g r then some (g.extend r :: gs)
    else (extendFirst r gs).map (fun gs' => g :: gs')

/-- Modelled from the spec: part of `GroupOverlapping` (not in `src/`).
The open groups, oldest first, and the groups flushed to the downstream
consumer so far, in the order of their flush. -/
structure State where
  pending : List Group
  flushed : List (List Record)

/-- Modelled from the spec: part of `GroupOverlapping` (not in `src/`).
The arrival of one record: the open groups are closed (flushed) when the
record starts past the trailing boundary of every one of them; the record
then extends the group that it overlaps, or opens a new group if it overlaps
none. -/
def push (s : State) (r : Record) : State :=
  let s1 : State :=
    if s.pending.all (fun g => passed g r) then
      ⟨[], s.flushed ++ s.pending.map Group.records⟩
    else s
  match extendFirst r s1.pending with
  | some gs => ⟨gs, s1.flushed⟩
  | none => ⟨s1.pending ++ [Group.opened r], s1.flushed⟩

/-- Modelled from the spec: `GroupOverlapping`, which is not in `src/` (only
its use in `VcfAnnotateCommand::exec` is): the groups flushed to the
downstream consumer for the records `rs`, in the order of their flush; the
groups still open at the end of the input are flushed last. -/
def groupOverlapping (rs : List Record) : List (List Record) :=
  (rs.foldl push ⟨[], []⟩).flushed ++ (rs.foldl push ⟨[], []⟩).pending.map Group.records

/-- The interval spanned by the records of a group: from the start of the
first record to the maximum `stop`. -/
def span : List Record → Record
  | [] => ⟨"", 0, 0, false, ""⟩
  | x :: xs => ⟨x.chrom, x.start, xs.foldl (fun m y => max m y.stop) x.stop, false, ""⟩

/-- Every record of a group but the first overlaps the span of the records
before it. -/
def Linked (g : List Record) : Prop :=
  ∀ pre r post, g = pre ++ r :: post → pre ≠ [] →
    compare false (span pre) r = Compare.INTERSECT

/-- The first record of each group but the first lies wholly after the
span of the group before it, at or past its trailing boundary. -/
def Separated (gs : List (List Record)) : Prop :=
  List.Chain' (fun g1 g2 => ∀ r, g2.head? = some r →
    compare false (span g1) r = Compare.BEFORE ∧ (span g1).stop ≤ r.start) gs

end GroupOverlapping

/-! ## `Tokenizer` -/

/-- Modelled from the spec: the class `Tokenizer`, which is not in `src/`
(only its test `TestTokenizer.cpp` is; the spec treats the tokenizing of
delimited text as an external collaborator).  A tokenizer over the text
`input` with the delimiter `delim`; `rest` is the unread text from the
start of the current field on, `none` once the last field has been consumed
(`eof()`). -/
structure Tokenizer where
  input : List Char
  delim : Char
  rest : Option (List Char)
  deriving DecidableEq, Repr

namespace Tokenizer

/-- Modelled from the spec: part of `Tokenizer` (not in `src/`).
The constructor `Tokenizer(input, delim)`, positioned at the first field. -/
def make (input : List Char) (delim : Char) : Tokenizer := ⟨input, delim, some input⟩

/-- Modelled from the spec: part of `Tokenizer` (not in `src/`).
The current field: the unread text up to the next delimiter. -/
def field (d : Char) (l : List Char) : List Char := l.takeWhile (fun c => c != d)

/-- Modelled from the spec: part of `Tokenizer` (not in `src/`).
The unread text after the current field and its delimiter; `none` when the
current field is the last one. -/
def afterField (d : Char) (l : List Char) : Option (List Char) :=
  match l.dropWhile (fun c => c != d) with
  | [] => none
  | _ :: tl => some tl

/-- Modelled from the spec: part of `Tokenizer` (not in `src/`).  `eof()`. -/
def eof (t : Tokenizer) : Bool := t.rest.isNone

/-- Modelled from the spec: part of `Tokenizer` (not in `src/`).
`advance()`: the current field is consumed. -/
def advance (t : Tokenizer) : Tokenizer :=
  match t.rest with
  | none => t
  | some l => { t with rest := afterField t.delim l }

/-- Modelled from the spec: part of `Tokenizer` (not in `src/`).
`rewind()`. -/
def rewind (t : Tokenizer) : Tokenizer := { t with rest := some t.input }

/-- Modelled from the spec: part of `Tokenizer` (not in `src/`).
`extract(std::string&)`: the value extracted (`none` when `extract` returns
false) and the tokenizer afterwards. -/
def extractString (t : Tokenizer) : Option (List Char) × Tokenizer :=
  match t.rest with
  | none => (none, t)
  | some l => (some (field t.delim l), t.advance)

/-- Modelled from the spec: part of `Tokenizer` (not in `src/`).
The conversion loop of a decimal number: reads digits from the text, adding
them to the value `v` read so far, and stops at the first character that is
not a digit; the result is the value and the text left unread. -/
def scanDigits : Nat → List Char → Nat × List Char
  | v, [] => (v, [])
  | v, c :: cs =>
    if isdigit c.toNat then scanDigits (10 * v + (c.toNat - 48)) cs else (v, c :: cs)

/-- Modelled from the spec: part of `Tokenizer` (not in `src/`).
The conversion of a field into an unsigned integer of `bits` bits: it
succeeds when the field is not empty, the conversion loop reads the field to
its end, and the value fits the type. -/
def parseUnsigned (bits : Nat) (f : List Char) : Option Nat :=
  if f.isEmpty then none
  else if (scanDigits 0 f).2.isEmpty && decide ((scanDigits 0 f).1 < 2 ^ bits) then
    some (scanDigits 0 f).1
  else none

/-- Modelled from the spec: part of `Tokenizer` (not in `src/`).
The conversion of a field into a signed integer of `bits` bits: an optional
`-` followed by a decimal number, the value fitting the type. -/
def parseSigned (bits : Nat) (f : List Char) : Option Int :=
  match f with
  | '-' :: ds =>
    if ds.isEmpty then none
    else if (scanDigits 0 ds).2.isEmpty && decide ((scanDigits 0 ds).1 ≤ 2 ^ (bits - 1)) then
      some (-((scanDigits 0 ds).1 : Int))
    else none
  | ds =>
    if ds.isEmpty then none
    else if (scanDigits 0 ds).2.isEmpty && decide ((scanDigits 0 ds).1 < 2 ^ (bits - 1)) then
      some ((scanDigits 0 ds).1 : Int)
    else none

/-- Modelled from the spec: part of `Tokenizer` (not in `src/`).
`extract` into an unsigned integer type of `bits` bits: the value extracted
(`none` when `extract` returns false) and the tokenizer afterwards; the
field is consumed only when the conversion succeeds. -/
def extractUnsigned (bits : Nat) (t : Tokenizer) : Option Nat × Tokenizer :=
  match t.rest with
  | none => (none, t)
  | some l =>
    match parseUnsigned bits (field t.delim l) with
    | none => (none, t)
    | some v => (some v, t.advance)

/-- Modelled from the spec: part of `Tokenizer` (not in `src/`).
`extract` into a signed integer type of `bits` bits. -/
def extractSigned (bits : Nat) (t : Tokenizer) : Option Int × Tokenizer :=
  match t.rest with
  | none => (none, t)
  | some l =>
    match parseSigned bits (field t.delim l) with
    | none => (none, t)
    | some v => (some v, t.advance)

/-- A field is a valid unsigned number of `bits` bits: a non-empty string
of decimal digits whose value is below `2 ^ bits`. -/
def ValidUnsigned (bits : Nat) (f : List Char) : Prop :=
  f ≠ [] ∧ (∀ c ∈ f, isdigit c.toNat = true) ∧ decVal 0 (f.map Char.toNat) < 2 ^ bits

/-- A field is a valid signed number of `bits` bits: a non-empty string of
decimal digits whose value is below `2 ^ (bits - 1)`, or `-` followed by
such a string whose value is at most `2 ^ (bits - 1)`. -/
def ValidSigned (bits : Nat) (f : List Char) : Prop :=
  (f ≠ [] ∧ (∀ c ∈ f, isdigit c.toNat = true) ∧
      decVal 0 (f.map Char.toNat) < 2 ^ (bits - 1)) ∨
    ∃ ds, f = '-' :: ds ∧ ds ≠ [] ∧ (∀ c ∈ ds, isdigit c.toNat = true) ∧
      decVal 0 (ds.map Char.toNat) ≤ 2 ^ (bits - 1)

end Tokenizer

/-! ## `GenotypeComparator` -/

namespace GenotypeComparator

/-- Modelled from the spec: part of `GenotypeComparator` (not in `src/`).
The spec's `Variant` without the chromosome: one alt allele of a record
together with the position and the reference allele of the record. -/
structure Variant where
  pos : Nat
  ref : List Char
  alt : List Char
  deriving DecidableEq, Repr

/-- Modelled from the spec: part of `GenotypeComparator` (not in `src/`).
A genotype-bearing record as it is pushed: the index of its source stream,
its position, reference allele and alt alleles, and for every sample the
allele indices of its genotype call (0 is the reference allele). -/
structure Entry where
  stream : Nat
  pos : Nat
  ref : List Char
  alt : List (List Char)
  genotypes : List (List Nat)
  deriving DecidableEq, Repr

/-- Modelled from the spec: part of `GenotypeComparator` (not in `src/`).
The variant that allele index `i` of an entry references; none for the
reference allele and for an index without alt. -/
def variantOf (e : Entry) (i : Nat) : Option Variant :=
  if i = 0 then none else (e.alt.get? (i - 1)).map (fun a => ⟨e.pos, e.ref, a⟩)

/-- Modelled from the spec: part of `GenotypeComparator` (not in `src/`).
The pairs (sample index, variant) called by the genotypes `gs` of the
samples `s`, `s + 1`, ... of an entry. -/
def callsFrom (e : Entry) : Nat → List (List Nat) → List (Nat × Variant)
  | _, [] => []
  | s, g :: gs =>
    g.filterMap (fun i => (variantOf e i).map (fun v => (s, v))) ++ callsFrom e (s + 1) gs

/-- Modelled from the spec: part of `GenotypeComparator` (not in `src/`).
The pairs (sample index, variant) that the genotype calls of an entry
reference. -/
def calls (e : Entry) : List (Nat × Variant) := callsFrom e 0 e.genotypes

/-- Modelled from the spec: part of `GenotypeComparator` (not in `src/`).
The source stream `st` is added to the set kept for the key `k` (a sample
and a variant); a key not yet present is opened with the set `{st}`. -/
def record (st : Nat) : List ((Nat × Variant) × List Nat) → Nat × Variant →
    List ((Nat × Variant) × List Nat)
  | [], k => [(k, [st])]
  | (k', S) :: rest, k =>
    if k' = k then (k', if st ∈ S then S else S ++ [st]) :: rest
    else (k', S) :: record st rest k

/-- Modelled from the spec: part of `GenotypeComparator` (not in `src/`).
The open keys of the current window with their sets of source streams, and
the reports made to the collector so far (sample and variant, set of source
stream indices), in the order of the calls. -/
structure State where
  window : List ((Nat × Variant) × List Nat)
  reports : List ((Nat × Variant) × List Nat)

/-- Modelled from the spec: part of `GenotypeComparator` (not in `src/`).
`push(entry)`: the window is closed, and its keys reported to the
collector, when the entry lies past the position of every open key; the
calls of the entry are then recorded in the window. -/
def push (s : State) (e : Entry) : State :=
  let s1 : State :=
    if s.window.all (fun kv => decide (kv.1.2.pos < e.pos)) then
      ⟨[], s.reports ++ s.window⟩
    else s
  ⟨(calls e).foldl (record e.stream) s1.window, s1.reports⟩

/-- Modelled from the spec: `GenotypeComparator`, which is not in `src/`
(only its test `TestVcfGenotypeComparator.cpp` is): the reports that the
collector has received after the entries `es` have been pushed and
`finalize()` has closed the last window. -/
def run (es : List Entry) : List ((Nat × Variant) × List Nat) :=
  (es.foldl push ⟨[], []⟩).reports ++ (es.foldl push ⟨[], []⟩).window

/-- The calls of a sequence of entries, each with the source stream of its
entry. -/
def events (es : List Entry) : List (Nat × (Nat × Variant)) :=
  es.flatMap (fun e => (calls e).map (fun k => (e.stream, k)))

/-- The table of keys and stream sets after the calls `evs`, starting from
the table `T`. -/
def recordAll (T : List ((Nat × Variant) × List Nat))
    (evs : List (Nat × (Nat × Variant))) : List ((Nat × Variant) × List Nat) :=
  evs.foldl (fun T ev => record ev.1 T ev.2) T

/-- The table `T` holds exactly the calls `P`: no key occurs twice, the set
kept for a key consists of the source streams of the calls with that key,
and every call has its key in the table. -/
def Exact (T : List ((Nat × Variant) × List Nat)) (P : List (Nat × (Nat × Variant))) : Prop :=
  (T.map Prod.fst).Nodup ∧ (∀ k S, (k, S) ∈ T → ∀ st, st ∈ S ↔ (st, k) ∈ P) ∧
    (∀ st k, (st, k) ∈ P → k ∈ T.map Prod.fst)

end GenotypeComparator

/-! # Theorems -/

/-! ## Properties of the version-aware comparison -/

theorem c_str_ne_zero (s : String) : ∀ c ∈ c_str s, c ≠ 0 := by
  intro c hc
  have h := List.mem_takeWhile_imp hc
  simpa using h

theorem lenCmp_neg (d : Int) (p1 p2 : List Nat) :
    lenCmp (-d) p2 p1 = - lenCmp d p1 p2 := by
  induction p1 generalizing p2 with
  | nil =>
    cases p2 with
    | nil => simp [lenCmp]
    | cons c2 p2 => simp only [lenCmp]; split <;> simp
  | cons c1 p1 ih =>
    cases p2 with
    | nil => simp only [lenCmp]; split <;> simp
    | cons c2 p2 =>
      simp only [lenCmp]
      by_cases h1 : isdigit c1 = true <;> by_cases h2 : isdigit c2 = true <;> simp [h1, h2, ih]

theorem result_type_swap (st : VState) (k1 k2 : VClass) :
    result_type st k2 k1 =
      match result_type st k1 k2 with
      | .CMP => .CMP
      | .LEN => .LEN
      | .lit r => .lit (-r) := by
  cases st <;> cases k1 <;> cases k2 <;> rfl

theorem verResult_neg (st : VState) (c1 c2 : Nat) (p1 p2 : List Nat) :
    verResult st c2 c1 p2 p1 = - verResult st c1 c2 p1 p2 := by
  unfold verResult
  rw [result_type_swap st (vclass c1) (vclass c2)]
  cases result_type st (vclass c1) (vclass c2) with
  | CMP => simp
  | LEN =>
    have := lenCmp_neg ((c1 : Int) - c2) p1 p2
    simp only [neg_sub] at this
    simpa using this
  | lit r => simp

theorem strverscmpFrom_neg (st : VState) (l1 l2 : List Nat) :
    strverscmpFrom st l2 l1 = - strverscmpFrom st l1 l2 := by
  induction l1 generalizing st l2 with
  | nil =>
    cases l2 with
    | nil => simp [strverscmpFrom]
    | cons c2 p2 => simp only [strverscmpFrom]; exact verResult_neg st 0 c2 [] p2
  | cons c1 p1 ih =>
    cases l2 with
    | nil => simp only [strverscmpFrom]; exact verResult_neg st c1 0 p1 []
    | cons c2 p2 =>
      simp only [strverscmpFrom]
      by_cases h : c1 = c2
      · subst h; simp [ih]
      · have h' : ¬ c2 = c1 := fun e => h e.symm
        simp only [h, h', if_false]
        exact verResult_neg st c1 c2 p1 p2

theorem strverscmp_neg (s t : String) : strverscmp t s = - strverscmp s t :=
  strverscmpFrom_neg _ _ _

theorem strverscmpFrom_self (st : VState) (l : List Nat) : strverscmpFrom st l l = 0 := by
  induction l generalizing st with
  | nil => simp [strverscmpFrom]
  | cons c p ih => simp [strverscmpFrom, ih]

theorem strverscmp_self (s : String) : strverscmp s s = 0 := strverscmpFrom_self _ _

theorem lenCmp_ne_zero (d : Int) (hd : d ≠ 0) (p1 p2 : List Nat) : lenCmp d p1 p2 ≠ 0 := by
  induction p1 generalizing p2 with
  | nil =>
    cases p2 with
    | nil => simpa [lenCmp] using hd
    | cons c2 p2 => simp only [lenCmp]; split <;> simp [hd]
  | cons c1 p1 ih =>
    cases p2 with
    | nil => simp only [lenCmp]; split <;> simp [hd]
    | cons c2 p2 =>
      simp only [lenCmp]
      by_cases h1 : isdigit c1 = true <;> by_cases h2 : isdigit c2 = true <;> simp [h1, h2, ih, hd]

theorem result_type_lit (st : VState) (k1 k2 : VClass) (r : Int)
    (h : result_type st k1 k2 = .lit r) : r = 1 ∨ r = -1 := by
  cases st <;> cases k1 <;> cases k2 <;> simp [result_type] at h <;> omega

theorem verResult_ne_zero (st : VState) (c1 c2 : Nat) (h : c1 ≠ c2) (p1 p2 : List Nat) :
    verResult st c1 c2 p1 p2 ≠ 0 := by
  have hd : ((c1 : Int) - c2) ≠ 0 := by omega
  unfold verResult
  split
  · exact hd
  · exact lenCmp_ne_zero _ hd _ _
  · next r hr =>
    rcases result_type_lit _ _ _ _ hr with h | h <;> simp [h]

theorem strverscmpFrom_eq_zero (st : VState) (l1 l2 : List Nat)
    (h1 : ∀ c ∈ l1, c ≠ 0) (h2 : ∀ c ∈ l2, c ≠ 0)
    (h : strverscmpFrom st l1 l2 = 0) : l1 = l2 := by
  induction l1 generalizing st l2 with
  | nil =>
    cases l2 with
    | nil => rfl
    | cons c2 p2 =>
      simp only [strverscmpFrom] at h
      exact absurd h (verResult_ne_zero st 0 c2 (by
        have := h2 c2 (by simp); omega) _ _)
  | cons c1 p1 ih =>
    cases l2 with
    | nil =>
      simp only [strverscmpFrom] at h
      exact absurd h (verResult_ne_zero st c1 0 (h1 c1 (by simp)) _ _)
    | cons c2 p2 =>
      simp only [strverscmpFrom] at h
      by_cases e : c1 = c2
      · subst e
        simp only [if_true] at h
        rw [ih _ p2 (fun c hc => h1 c (by simp [hc])) (fun c hc => h2 c (by simp [hc])) h]
      · simp only [e, if_false] at h
        exact absurd h (verResult_ne_zero st c1 c2 e _ _)

theorem strverscmp_eq_zero_iff (s t : String) : strverscmp s t = 0 ↔ c_str s = c_str t := by
  constructor
  · exact strverscmpFrom_eq_zero _ _ _ (c_str_ne_zero s) (c_str_ne_zero t)
  · intro h
    unfold strverscmp
    rw [h]
    exact strverscmpFrom_self _ _

/-! ## Properties of `compare` -/

namespace IntersectFull

theorem compare_false_of_eq (a b : Record) (h : strverscmp a.chrom b.chrom = 0) :
    compare false a b =
      if a.start = a.stop ∧ b.start = b.stop ∧ a.start = b.start then Compare.INTERSECT
      else if a.stop ≤ b.start then Compare.BEFORE
      else if b.stop ≤ a.start then Compare.AFTER
      else Compare.INTERSECT := by
  simp only [compare, h, lt_self_iff_false, gt_iff_lt, if_false, Bool.false_eq_true,
    Bool.and_eq_true, beq_iff_eq, and_assoc]

theorem compare_true_of_eq (a b : Record) (h : strverscmp a.chrom b.chrom = 0) :
    compare true a b =
      if (a.containsInsertions = true ∧ (a.stop = b.start ∨ a.start = b.stop)) ∨
          (b.containsInsertions = true ∧ (b.stop = a.start ∨ b.start = a.stop)) then
        Compare.INTERSECT
      else if a.stop ≤ b.start then Compare.BEFORE
      else if b.stop ≤ a.start then Compare.AFTER
      else Compare.INTERSECT := by
  simp only [compare, compareWithAdjacentInsertions, h, lt_self_iff_false, gt_iff_lt, if_false,
    if_true, Bool.or_eq_true, Bool.and_eq_true, beq_iff_eq]

theorem compare_of_lt (adj : Bool) (a b : Record) (h : strverscmp a.chrom b.chrom < 0) :
    compare adj a b = Compare.BEFORE := by
  cases adj <;> simp [compare, compareWithAdjacentInsertions, h]

theorem compare_of_gt (adj : Bool) (a b : Record) (h : 0 < strverscmp a.chrom b.chrom) :
    compare adj a b = Compare.AFTER := by
  have h' : ¬ strverscmp a.chrom b.chrom < 0 := by omega
  cases adj <;> simp [compare, compareWithAdjacentInsertions, h, h']

/-- C4. With `adjacentInsertions = false`, for two records on the same
chromosome with `start <= stop`: `compare` is INTERSECT exactly when both
are zero-length at the same position or the half-open intervals overlap;
otherwise it is BEFORE exactly when `a.stop <= b.start` and AFTER exactly
when `b.stop <= a.start`. -/
theorem compare_same_chrom (a b : Record) (hc : a.chrom = b.chrom)
    (ha : a.start ≤ a.stop) (hb : b.start ≤ b.stop) :
    (compare false a b = Compare.INTERSECT ↔
        ((a.start = a.stop ∧ b.start = b.stop ∧ a.start = b.start) ∨
          (a.start < b.stop ∧ b.start < a.stop))) ∧
      (compare false a b = Compare.BEFORE ↔
        (¬ ((a.start = a.stop ∧ b.start = b.stop ∧ a.start = b.start) ∨
            (a.start < b.stop ∧ b.start < a.stop)) ∧ a.stop ≤ b.start)) ∧
      (compare false a b = Compare.AFTER ↔
        (¬ ((a.start = a.stop ∧ b.start = b.stop ∧ a.start = b.start) ∨
            (a.start < b.stop ∧ b.start < a.stop)) ∧ b.stop ≤ a.start)) := by
  have h0 : strverscmp a.chrom b.chrom = 0 := by rw [hc]; exact strverscmp_self _
  rw [compare_false_of_eq a b h0]
  split_ifs with h1 h2 h3 <;>
    simp only [reduceCtorEq, ne_eq, not_true_eq_false, not_false_eq_true, true_and, false_and,
      true_iff, false_iff, iff_true, iff_false, and_true] <;>
    omega

/-- C4, at the records `[5,5)` and `[3,5)` of one chromosome: they only
touch, so the result is AFTER in this order, BEFORE in the other, and not
INTERSECT. -/
theorem compare_same_chrom_witness :
    (5 ≤ 5 ∧ 3 ≤ 5) ∧
      compare false ⟨"1", 5, 5, true, "ins"⟩ ⟨"1", 3, 5, false, "del"⟩ = Compare.AFTER :=
  ⟨by decide,
    (compare_same_chrom ⟨"1", 5, 5, true, "ins"⟩ ⟨"1", 3, 5, false, "del"⟩ rfl
      (by decide) (by decide)).2.2.2 (by decide)⟩

/-- C5. With `adjacentInsertions = true`, when one of two records on the
same chromosome is a zero-length insertion (`containsInsertions` holds for
it) and the two touch (`a.stop == b.start` or `a.start == b.stop`),
`compare` is INTERSECT in both argument orders. -/
theorem compare_adjacent_insertion (a b : Record) (hc : a.chrom = b.chrom)
    (hins : (a.containsInsertions = true ∧ a.start = a.stop) ∨
      (b.containsInsertions = true ∧ b.start = b.stop))
    (htouch : a.stop = b.start ∨ a.start = b.stop) :
    compare true a b = Compare.INTERSECT ∧ compare true b a = Compare.INTERSECT := by
  have h0 : strverscmp a.chrom b.chrom = 0 := by rw [hc]; exact strverscmp_self _
  have h0' : strverscmp b.chrom a.chrom = 0 := by rw [hc]; exact strverscmp_self _
  rw [compare_true_of_eq a b h0, compare_true_of_eq b a h0']
  constructor
  · rw [if_pos]
    rcases hins with ⟨hi, hz⟩ | ⟨hi, hz⟩
    · exact Or.inl ⟨hi, htouch⟩
    · exact Or.inr ⟨hi, by omega⟩
  · rw [if_pos]
    rcases hins with ⟨hi, hz⟩ | ⟨hi, hz⟩
    · exact Or.inr ⟨hi, htouch⟩
    · exact Or.inl ⟨hi, by omega⟩

/-- C5, at the insertion `[5,5)` against `[3,5)`. -/
theorem compare_adjacent_insertion_witness :
    compare true ⟨"1", 5, 5, true, "ins"⟩ ⟨"1", 3, 5, false, "del"⟩ = Compare.INTERSECT ∧
      compare true ⟨"1", 3, 5, false, "del"⟩ ⟨"1", 5, 5, true, "ins"⟩ = Compare.INTERSECT :=
  compare_adjacent_insertion ⟨"1", 5, 5, true, "ins"⟩ ⟨"1", 3, 5, false, "del"⟩ rfl
    (Or.inl ⟨rfl, rfl⟩) (Or.inr rfl)

/-- C7. For two records on different chromosomes, in both modes and whatever
the coordinates, `compare(a,b) = BEFORE` if and only if
`compare(b,a) = AFTER`. -/
theorem compare_antisymm_of_chrom_ne (adj : Bool) (a b : Record)
    (h : c_str a.chrom ≠ c_str b.chrom) :
    compare adj a b = Compare.BEFORE ↔ compare adj b a = Compare.AFTER := by
  have hne : strverscmp a.chrom b.chrom ≠ 0 := fun e => h ((strverscmp_eq_zero_iff _ _).1 e)
  have hneg := strverscmp_neg a.chrom b.chrom
  rcases lt_or_gt_of_ne hne with hlt | hgt
  · rw [compare_of_lt adj a b hlt, compare_of_gt adj b a (by omega)]
    simp
  · rw [compare_of_gt adj a b hgt, compare_of_lt adj b a (by omega)]
    simp

/-- C7, at chromosomes "2" and "10" with arbitrary coordinates. -/
theorem compare_antisymm_of_chrom_ne_witness :
    c_str "2" ≠ c_str "10" ∧
      (compare true ⟨"2", 9, 4, false, "x"⟩ ⟨"10", 1, 7, true, "y"⟩ = Compare.BEFORE ↔
        compare true ⟨"10", 1, 7, true, "y"⟩ ⟨"2", 9, 4, false, "x"⟩ = Compare.AFTER) :=
  ⟨by decide,
    compare_antisymm_of_chrom_ne true ⟨"2", 9, 4, false, "x"⟩ ⟨"10", 1, 7, true, "y"⟩
      (by decide)⟩

end IntersectFull

/-! ## Log projections and invariants of the collector log -/

namespace IntersectFull

theorem hitsOf_append (l1 l2 : List Call) : hitsOf (l1 ++ l2) = hitsOf l1 ++ hitsOf l2 := by
  induction l1 with
  | nil => rfl
  | cons c l1 ih => cases c <;> simp [hitsOf, ih]

theorem missAOf_append (l1 l2 : List Call) : missAOf (l1 ++ l2) = missAOf l1 ++ missAOf l2 := by
  induction l1 with
  | nil => rfl
  | cons c l1 ih => cases c <;> simp [missAOf, ih]

theorem missBOf_append (l1 l2 : List Call) : missBOf (l1 ++ l2) = missBOf l1 ++ missBOf l2 := by
  induction l1 with
  | nil => rfl
  | cons c l1 ih => cases c <;> simp [missBOf, ih]

section Invariant

variable {σ : Type} {I : Setup σ} {Inv : Rc σ → Prop} (hI : CallInvariant I Inv)
include hI

theorem cacheRemove_inv (e : CacheEntry) (rc : Rc σ) (h : Inv rc) : Inv (cacheRemove I e rc) := by
  unfold cacheRemove
  split
  · next hc =>
    simp only [Bool.and_eq_true] at hc
    exact hI.missB _ _ h hc.2
  · exact h

theorem wantMissB_inv (v : Record) (rc : Rc σ) (h : Inv rc) :
    Inv (if I.collector.wantMissB rc.state then rc.missB I.collector v else rc) := by
  split
  · next hc => exact hI.missB _ _ h hc
  · exact h

theorem burnCache_inv (valueA : Record) (cache : List CacheEntry) (rc : Rc σ) (h : Inv rc) :
    Inv (burnCache I valueA cache rc).2 := by
  induction cache generalizing rc with
  | nil => exact h
  | cons e rest ih =>
    simp only [burnCache]
    split
    · exact ih _ (cacheRemove_inv hI e rc h)
    · exact h

theorem burnInput_inv (valueA : Record) (b : Stream) (valueB : Record) (rc : Rc σ)
    (h : Inv rc) : Inv (burnInput I valueA b valueB rc).rc := by
  induction b generalizing valueB rc with
  | nil => exact h
  | cons peek rest ih =>
    simp only [burnInput]
    split
    · split
      · exact h
      · exact ih _ _ (wantMissB_inv hI _ rc h)
    · exact h

theorem checkCache_inv (valueA : Record) (cache : List CacheEntry) (rc : Rc σ) (h : Inv rc) :
    Inv (checkCache I valueA cache rc).2.2 := by
  induction cache generalizing rc with
  | nil => exact h
  | cons e rest ih =>
    simp only [checkCache]
    split
    · exact h
    · exact ih _ (cacheRemove_inv hI e rc h)
    · exact ih _ (hI.hit _ _ _ h)

theorem pullB_inv (valueA : Record) (b : Stream) (valueB : Record) (hitA : Bool)
    (cache : List CacheEntry) (rc : Rc σ) (h : Inv rc) :
    Inv (pullB I valueA b valueB hitA cache rc).rc := by
  induction b generalizing valueB hitA cache rc with
  | nil => exact h
  | cons peek rest ih =>
    simp only [pullB]
    split
    · exact h
    · split
      · exact h
      · exact ih _ _ _ _ (wantMissB_inv hI _ rc h)
      · exact ih _ _ _ _ (hI.hit _ _ _ h)

theorem drainCache_inv (cache : List CacheEntry) (rc : Rc σ) (h : Inv rc) :
    Inv (drainCache I cache rc).2 := by
  induction cache generalizing rc with
  | nil => exact h
  | cons e rest ih =>
    simp only [drainCache]
    split
    · exact ih _ (cacheRemove_inv hI e rc h)
    · exact h

theorem drainB_inv (b : Stream) (valueB : Record) (cache : List CacheEntry) (rc : Rc σ)
    (h : Inv rc) : Inv (drainB I b valueB cache rc).rc := by
  induction b generalizing valueB rc with
  | nil => exact h
  | cons peek rest ih =>
    simp only [drainB]
    split
    · next hw =>
      split
      · exact h
      · exact ih _ _ (hI.missB _ _ h hw)
    · exact h

theorem processA_inv (valueA : Record) (b : Stream) (valueB : Record)
    (cache : List CacheEntry) (rc : Rc σ) (h : Inv rc) :
    Inv (processA I valueA b valueB cache rc).rc := by
  have h1 := burnCache_inv hI valueA cache rc h
  unfold processA
  simp only
  generalize hah : (if (burnCache I valueA cache rc).1.isEmpty = true then
      burnInput I valueA b valueB (burnCache I valueA cache rc).2
    else (⟨none, b, valueB, false, (burnCache I valueA cache rc).1,
      (burnCache I valueA cache rc).2⟩ : BSide σ)) = ahead
  have h2 : Inv ahead.rc := by
    rw [← hah]
    split
    · exact burnInput_inv hI _ _ _ _ h1
    · exact h1
  split
  · exact h2
  · have h3 := checkCache_inv hI valueA (burnCache I valueA cache rc).1 ahead.rc h2
    split
    · exact pullB_inv hI _ _ _ _ _ _ h3
    · split
      · next hc =>
        simp only [Bool.and_eq_true] at hc
        exact hI.missA _ _ (pullB_inv hI _ _ _ _ _ _ h3) hc.2
      · exact pullB_inv hI _ _ _ _ _ _ h3

theorem executeFrom_inv (a b : Stream) (valueA valueB : Record) (cache : List CacheEntry)
    (rc : Rc σ) (h : Inv rc) : Inv (executeFrom I a b valueA valueB cache rc).rc := by
  induction a generalizing b valueA valueB cache rc with
  | nil =>
    simp only [executeFrom]
    exact drainB_inv hI _ _ _ _ (drainCache_inv hI _ _ h)
  | cons peek rest ih =>
    simp only [executeFrom]
    split
    · exact h
    · next v _ =>
      have h1 := processA_inv hI v b valueB cache rc h
      split
      · exact h1
      · exact ih _ _ _ _ _ h1

end Invariant

/-- C9. Whatever the input, a collector whose `wantMissB()` always returns
false receives no `missB` call during `execute`, and a collector whose
`wantMissA()` always returns false receives no `missA` call. -/
theorem execute_no_unwanted_miss {σ : Type} (I : Setup σ) (a b : Stream)
    (valueA valueB : Record) (rc : σ) :
    ((∀ s, I.collector.wantMissB s = false) →
        missBOf (execute I a b valueA valueB rc).rc.calls = []) ∧
      ((∀ s, I.collector.wantMissA s = false) →
        missAOf (execute I a b valueA valueB rc).rc.calls = []) := by
  constructor
  · intro hw
    have hI : CallInvariant I (fun rc => missBOf rc.calls = []) :=
      { hit := fun rc a b h => by simpa [Rc.hit, missBOf_append, missBOf] using h
        missA := fun rc a h _ => by simpa [Rc.missA, missBOf_append, missBOf] using h
        missB := fun rc b _ hb => by simp [hw] at hb }
    exact executeFrom_inv hI a b valueA valueB [] ⟨rc, []⟩ rfl
  · intro hw
    have hI : CallInvariant I (fun rc => missAOf rc.calls = []) :=
      { hit := fun rc a b h => by simpa [Rc.hit, missAOf_append, missAOf] using h
        missA := fun rc a _ ha => by simp [hw] at ha
        missB := fun rc b h _ => by simpa [Rc.missB, missAOf_append, missAOf] using h }
    exact executeFrom_inv hI a b valueA valueB [] ⟨rc, []⟩ rfl

/-- C9, on disjoint streams `[3,6)` and `[7,10)` with a collector that asks
for neither kind of miss. -/
theorem execute_no_unwanted_miss_witness :
    ((∀ s, (constCollector true false false).wantMissB s = false) ∧
        (∀ s, (constCollector true false false).wantMissA s = false)) ∧
      missBOf (execute ⟨"A", "B", constCollector true false false, false⟩
        [⟨"1", 3, 6, false, "a"⟩] [⟨"1", 7, 10, false, "b"⟩]
        ⟨"", 0, 0, false, ""⟩ ⟨"", 0, 0, false, ""⟩ ()).rc.calls = [] ∧
      missAOf (execute ⟨"A", "B", constCollector true false false, false⟩
        [⟨"1", 3, 6, false, "a"⟩] [⟨"1", 7, 10, false, "b"⟩]
        ⟨"", 0, 0, false, ""⟩ ⟨"", 0, 0, false, ""⟩ ()).rc.calls = [] :=
  ⟨⟨fun _ => rfl, fun _ => rfl⟩,
    (execute_no_unwanted_miss ⟨"A", "B", constCollector true false false, false⟩
      [⟨"1", 3, 6, false, "a"⟩] [⟨"1", 7, 10, false, "b"⟩]
      ⟨"", 0, 0, false, ""⟩ ⟨"", 0, 0, false, ""⟩ ()).1 (fun _ => rfl),
    (execute_no_unwanted_miss ⟨"A", "B", constCollector true false false, false⟩
      [⟨"1", 3, 6, false, "a"⟩] [⟨"1", 7, 10, false, "b"⟩]
      ⟨"", 0, 0, false, ""⟩ ⟨"", 0, 0, false, ""⟩ ()).2 (fun _ => rfl)⟩

end IntersectFull

/-! ## The sortedness guard -/

namespace IntersectFull

theorem advanceSorted_ok {adj : Bool} {name : String} {peek value v : Record}
    (h : advanceSorted adj name peek value = Except.ok v) :
    v = peek ∧ GuardOk adj value peek := by
  unfold advanceSorted at h
  split at h
  · cases h
  · next hc => exact ⟨by cases h; rfl, hc⟩

theorem advanceSorted_error {adj : Bool} {name : String} {peek value : Record}
    {e : UnsortedDataError} (h : advanceSorted adj name peek value = Except.error e) :
    e = ⟨unsortedMessage name peek value⟩ ∧ compare adj peek value = Compare.BEFORE := by
  unfold advanceSorted at h
  split at h
  · next hc => exact ⟨by cases h; rfl, hc⟩
  · cases h

theorem unsorted_of_suffix {adj : Bool} {name : String} {L rest : List Record}
    {peek value : Record} {e : UnsortedDataError}
    (hs : (value :: peek :: rest) <:+ L)
    (h : advanceSorted adj name peek value = Except.error e) : Unsorted adj name L e := by
  obtain ⟨l1, hl⟩ := hs
  exact ⟨value, peek, (advanceSorted_error h).1, (advanceSorted_error h).2, l1, rest, hl.symm⟩

theorem suffix_tail {L rest : List Record} {peek value : Record}
    (hs : (value :: peek :: rest) <:+ L) : (peek :: rest) <:+ L :=
  (List.suffix_cons value (peek :: rest)).trans hs

section Guard

variable {σ : Type} (I : Setup σ)

theorem burnInput_guard (valueA : Record) (L : List Record) (b : Stream) (valueB : Record)
    (rc : Rc σ) (hs : (valueB :: b) <:+ L) :
    ((burnInput I valueA b valueB rc).valueB :: (burnInput I valueA b valueB rc).b) <:+ L ∧
      (∀ e, (burnInput I valueA b valueB rc).error = some e →
        Unsorted I.adjacentInsertions I.bName L e) ∧
      ((burnInput I valueA b valueB rc).error = none →
        List.Chain (GuardOk I.adjacentInsertions) (burnInput I valueA b valueB rc).valueB
          (burnInput I valueA b valueB rc).b →
        List.Chain (GuardOk I.adjacentInsertions) valueB b) := by
  induction b generalizing valueB rc with
  | nil => exact ⟨hs, by simp [burnInput], fun _ h => h⟩
  | cons peek rest ih =>
    simp only [burnInput]
    split
    · split
      · next err herr =>
        refine ⟨hs, ?_, by simp⟩
        intro e he
        cases he
        exact unsorted_of_suffix hs herr
      · next v hv =>
        obtain ⟨rfl, hg⟩ := advanceSorted_ok hv
        exact ⟨(ih v _ (suffix_tail hs)).1, (ih v _ (suffix_tail hs)).2.1,
          fun h1 h2 => List.Chain.cons hg ((ih v _ (suffix_tail hs)).2.2 h1 h2)⟩
    · exact ⟨hs, by simp, fun _ h => h⟩

theorem pullB_guard (valueA : Record) (L : List Record) (b : Stream) (valueB : Record)
    (hitA : Bool) (cache : List CacheEntry) (rc : Rc σ) (hs : (valueB :: b) <:+ L) :
    ((pullB I valueA b valueB hitA cache rc).valueB ::
        (pullB I valueA b valueB hitA cache rc).b) <:+ L ∧
      (∀ e, (pullB I valueA b valueB hitA cache rc).error = some e →
        Unsorted I.adjacentInsertions I.bName L e) ∧
      ((pullB I valueA b valueB hitA cache rc).error = none →
        List.Chain (GuardOk I.adjacentInsertions) (pullB I valueA b valueB hitA cache rc).valueB
          (pullB I valueA b valueB hitA cache rc).b →
        List.Chain (GuardOk I.adjacentInsertions) valueB b) := by
  induction b generalizing valueB hitA cache rc with
  | nil => exact ⟨hs, by simp [pullB], fun _ h => h⟩
  | cons peek rest ih =>
    simp only [pullB]
    split
    · next err herr =>
      refine ⟨hs, ?_, by simp⟩
      intro e he
      cases he
      exact unsorted_of_suffix hs herr
    · next v hv =>
      obtain ⟨rfl, hg⟩ := advanceSorted_ok hv
      split
      · exact ⟨suffix_tail hs, by simp, fun _ h => List.Chain.cons hg h⟩
      · exact ⟨(ih v hitA cache _ (suffix_tail hs)).1, (ih v hitA cache _ (suffix_tail hs)).2.1,
          fun h1 h2 => List.Chain.cons hg ((ih v hitA cache _ (suffix_tail hs)).2.2 h1 h2)⟩
      · exact ⟨(ih v _ _ _ (suffix_tail hs)).1, (ih v _ _ _ (suffix_tail hs)).2.1,
          fun h1 h2 => List.Chain.cons hg ((ih v _ _ _ (suffix_tail hs)).2.2 h1 h2)⟩

theorem drainB_guard (L : List Record) (b : Stream) (valueB : Record)
    (cache : List CacheEntry) (rc : Rc σ) (hs : (valueB :: b) <:+ L) :
    (∀ e, (drainB I b valueB cache rc).error = some e →
        Unsorted I.adjacentInsertions I.bName L e) ∧
      ((drainB I b valueB cache rc).error = none →
        (∀ s, I.collector.wantMissB s = true) →
        List.Chain (GuardOk I.adjacentInsertions) valueB b) := by
  induction b generalizing valueB rc with
  | nil => exact ⟨by simp [drainB], fun _ _ => List.Chain.nil⟩
  | cons peek rest ih =>
    simp only [drainB]
    split
    · split
      · next err herr =>
        refine ⟨?_, by simp⟩
        intro e he
        cases he
        exact unsorted_of_suffix hs herr
      · next v hv =>
        obtain ⟨rfl, hg⟩ := advanceSorted_ok hv
        exact ⟨(ih v _ (suffix_tail hs)).1,
          fun h1 h2 => List.Chain.cons hg ((ih v _ (suffix_tail hs)).2 h1 h2)⟩
    · next hw =>
      refine ⟨by simp, fun _ h => ?_⟩
      exact absurd (h rc.state) hw

theorem processA_guard (valueA : Record) (L : List Record) (b : Stream) (valueB : Record)
    (cache : List CacheEntry) (rc : Rc σ) (hs : (valueB :: b) <:+ L) :
    ((processA I valueA b valueB cache rc).valueB ::
        (processA I valueA b valueB cache rc).b) <:+ L ∧
      (∀ e, (processA I valueA b valueB cache rc).error = some e →
        Unsorted I.adjacentInsertions I.bName L e) ∧
      ((processA I valueA b valueB cache rc).error = none →
        List.Chain (GuardOk I.adjacentInsertions) (processA I valueA b valueB cache rc).valueB
          (processA I valueA b valueB cache rc).b →
        List.Chain (GuardOk I.adjacentInsertions) valueB b) := by
  unfold processA
  simp only
  generalize hah : (if (burnCache I valueA cache rc).1.isEmpty = true then
      burnInput I valueA b valueB (burnCache I valueA cache rc).2
    else (⟨none, b, valueB, false, (burnCache I valueA cache rc).1,
      (burnCache I valueA cache rc).2⟩ : BSide σ)) = ahead
  have h2 : (ahead.valueB :: ahead.b) <:+ L ∧
      (∀ e, ahead.error = some e → Unsorted I.adjacentInsertions I.bName L e) ∧
      (ahead.error = none →
        List.Chain (GuardOk I.adjacentInsertions) ahead.valueB ahead.b →
        List.Chain (GuardOk I.adjacentInsertions) valueB b) := by
    rw [← hah]
    split
    · exact burnInput_guard I valueA L b valueB _ hs
    · exact ⟨hs, by simp, fun _ h => h⟩
  split
  · next err herr =>
    refine ⟨h2.1, h2.2.1, fun h => ?_⟩
    rw [herr] at h
    cases h
  · next hnone =>
    have h3 := pullB_guard I valueA L ahead.b ahead.valueB
      (checkCache I valueA (burnCache I valueA cache rc).1 ahead.rc).1
      (checkCache I valueA (burnCache I valueA cache rc).1 ahead.rc).2.1
      (checkCache I valueA (burnCache I valueA cache rc).1 ahead.rc).2.2 h2.1
    split
    · next err herr =>
      refine ⟨h3.1, h3.2.1, fun h => ?_⟩
      rw [herr] at h
      cases h
    · next hn2 =>
      split
      · exact ⟨h3.1, fun e he => h3.2.1 e he, fun h1 hc => h2.2.2 hnone (h3.2.2 hn2 hc)⟩
      · exact ⟨h3.1, h3.2.1, fun h1 hc => h2.2.2 hnone (h3.2.2 hn2 hc)⟩

theorem executeFrom_guard (LA LB : List Record) (a b : Stream) (valueA valueB : Record)
    (cache : List CacheEntry) (rc : Rc σ)
    (hsa : (valueA :: a) <:+ LA) (hsb : (valueB :: b) <:+ LB) :
    (∀ e, (executeFrom I a b valueA valueB cache rc).error = some e →
        Unsorted I.adjacentInsertions I.aName LA e ∨
          Unsorted I.adjacentInsertions I.bName LB e) ∧
      ((executeFrom I a b valueA valueB cache rc).error = none →
        List.Chain (GuardOk I.adjacentInsertions) valueA a ∧
          ((∀ s, I.collector.wantMissB s = true) →
            List.Chain (GuardOk I.adjacentInsertions) valueB b)) := by
  induction a generalizing b valueA valueB cache rc with
  | nil =>
    simp only [executeFrom]
    have := drainB_guard I LB b valueB (drainCache I cache rc).1 (drainCache I cache rc).2 hsb
    exact ⟨fun e he => Or.inr (this.1 e he), fun h => ⟨List.Chain.nil, this.2 h⟩⟩
  | cons peek rest ih =>
    simp only [executeFrom]
    split
    · next err herr =>
      refine ⟨?_, by simp⟩
      intro e he
      cases he
      exact Or.inl (unsorted_of_suffix hsa herr)
    · next v hv =>
      obtain ⟨rfl, hg⟩ := advanceSorted_ok hv
      have hp := processA_guard I v LB b valueB cache rc hsb
      split
      · next err herr =>
        refine ⟨?_, by simp⟩
        intro e he
        cases he
        exact Or.inr (hp.2.1 _ herr)
      · next hnone =>
        refine ⟨(ih _ v _ _ _ (suffix_tail hsa) hp.1).1, fun h =>
          ⟨List.Chain.cons hg ((ih _ v _ _ _ (suffix_tail hsa) hp.1).2 h).1, fun hw => ?_⟩⟩
        exact hp.2.2 hnone (((ih _ v _ _ _ (suffix_tail hsa) hp.1).2 h).2 hw)

end Guard

theorem chain_guard_consecutive {adj : Bool} {v : Record} {l : List Record}
    (h : List.Chain (GuardOk adj) v l) {x y : Record} {l1 l2 : List Record}
    (hl : v :: l = l1 ++ x :: y :: l2) : compare adj y x ≠ Compare.BEFORE := by
  induction l1 generalizing v l with
  | nil =>
    simp only [List.nil_append, List.cons.injEq] at hl
    obtain ⟨rfl, rfl⟩ := hl
    exact (List.chain_cons.1 h).1
  | cons z l1 ih =>
    simp only [List.cons_append, List.cons.injEq] at hl
    obtain ⟨rfl, rfl⟩ := hl
    cases l1 with
    | nil => exact ih (List.chain_cons.1 h).2 rfl
    | cons w l1 => exact ih (List.chain_cons.1 h).2 rfl

/-- C6 (amended). An `UnsortedDataError` raised by `execute` is the one
`advanceSorted` builds: its message names stream A or stream B and carries
the string forms of two consecutive records of that stream (the sequence
starting with the initial value of the local), the later of which compares
BEFORE the earlier.  `execute` does fail when stream A contains such a pair,
and also when stream B contains one and `wantMissB()` is always true (all of
B is then read). -/
theorem execute_unsorted {σ : Type} (I : Setup σ) (a b : Stream)
    (valueA valueB : Record) (rc : σ) :
    (∀ e, (execute I a b valueA valueB rc).error = some e →
        Unsorted I.adjacentInsertions I.aName (valueA :: a) e ∨
          Unsorted I.adjacentInsertions I.bName (valueB :: b) e) ∧
      ((∃ x y l1 l2, valueA :: a = l1 ++ x :: y :: l2 ∧
          compare I.adjacentInsertions y x = Compare.BEFORE) →
        (execute I a b valueA valueB rc).error ≠ none) ∧
      ((∀ s, I.collector.wantMissB s = true) →
        (∃ x y l1 l2, valueB :: b = l1 ++ x :: y :: l2 ∧
          compare I.adjacentInsertions y x = Compare.BEFORE) →
        (execute I a b valueA valueB rc).error ≠ none) := by
  have h := executeFrom_guard I (valueA :: a) (valueB :: b) a b valueA valueB [] ⟨rc, []⟩
    (List.suffix_refl _) (List.suffix_refl _)
  refine ⟨h.1, ?_, ?_⟩
  · rintro ⟨x, y, l1, l2, hl, hc⟩ hnone
    exact chain_guard_consecutive (h.2 hnone).1 hl hc
  · rintro hw ⟨x, y, l1, l2, hl, hc⟩ hnone
    exact chain_guard_consecutive ((h.2 hnone).2 hw) hl hc

/-- C6 (amended), on stream A = `[5,10)`, `[3,4)`: the second record lies
wholly before the first and the run fails. -/
theorem execute_unsorted_witness :
    (∃ x y l1 l2, (⟨"", 0, 0, false, ""⟩ : Record) ::
          [⟨"1", 5, 10, false, "a1"⟩, ⟨"1", 3, 4, false, "a2"⟩] = l1 ++ x :: y :: l2 ∧
        compare false y x = Compare.BEFORE) ∧
      (execute ⟨"A", "B", constCollector true true true, false⟩
        [⟨"1", 5, 10, false, "a1"⟩, ⟨"1", 3, 4, false, "a2"⟩] [⟨"1", 7, 10, false, "b"⟩]
        ⟨"", 0, 0, false, ""⟩ ⟨"", 0, 0, false, ""⟩ ()).error ≠ none :=
  ⟨⟨⟨"1", 5, 10, false, "a1"⟩, ⟨"1", 3, 4, false, "a2"⟩, [⟨"", 0, 0, false, ""⟩], [], rfl,
      by decide⟩,
    (execute_unsorted ⟨"A", "B", constCollector true true true, false⟩
      [⟨"1", 5, 10, false, "a1"⟩, ⟨"1", 3, 4, false, "a2"⟩] [⟨"1", 7, 10, false, "b"⟩]
      ⟨"", 0, 0, false, ""⟩ ⟨"", 0, 0, false, ""⟩ ()).2.1
      ⟨⟨"1", 5, 10, false, "a1"⟩, ⟨"1", 3, 4, false, "a2"⟩, [⟨"", 0, 0, false, ""⟩], [], rfl,
        by decide⟩⟩

/-- C6, refuted as stated: in stream A the record `[3,7)` follows `[5,10)`
on the same chromosome with a lower start, and `execute` ends without an
exception (the two records overlap, so `compare` is not BEFORE). -/
theorem execute_unsorted_counterexample :
    strverscmp "1" "1" = 0 ∧ (3 : Nat) < 5 ∧
      (execute ⟨"A", "B", constCollector true true true, false⟩
        [⟨"1", 5, 10, false, "a1"⟩, ⟨"1", 3, 7, false, "a2"⟩] [⟨"1", 7, 10, false, "b"⟩]
        ⟨"", 0, 0, false, ""⟩ ⟨"", 0, 0, false, ""⟩ ()).error = none := by
  decide

end IntersectFull

/-! ## `VcfAnnotateCommand::postProcessArguments` -/

namespace VcfAnnotateCommand

theorem translateField_bad {H : Type} (api : HeaderApi H)
    (split : String → String → List String) (annoHeader : H) (spec : String) (header : H)
    (infoMap : List (String × InfoTranslation)) (hbad : BadSpec api split annoHeader spec) :
    ∃ e, translateField api split annoHeader spec header infoMap = Except.error e := by
  unfold translateField
  rcases hbad with ⟨tok0, more, hs, hnone⟩ | ⟨tok0, tok1, tok2, more, hs, hne⟩
  · rw [hs]
    simp only [hnone]
    exact ⟨_, rfl⟩
  · rw [hs]
    simp only
    cases hty : api.infoType annoHeader tok0 with
    | none => exact ⟨_, rfl⟩
    | some oldType =>
      have h2 : (tok2 != "per-alt") = true := by simpa using hne
      simp only [h2, if_true]
      exact ⟨_, rfl⟩

theorem translateFields_bad {H : Type} (api : HeaderApi H)
    (split : String → String → List String) (annoHeader : H) (specs : List String)
    (header : H) (infoMap : List (String × InfoTranslation))
    (hbad : ∃ spec ∈ specs, BadSpec api split annoHeader spec) :
    ∃ e, translateFields api split annoHeader specs header infoMap = Except.error e := by
  induction specs generalizing header infoMap with
  | nil =>
    obtain ⟨spec, hmem, _⟩ := hbad
    cases hmem
  | cons s rest ih =>
    simp only [translateFields]
    cases hs : translateField api split annoHeader s header infoMap with
    | error e => exact ⟨e, rfl⟩
    | ok r =>
      simp only
      apply ih
      obtain ⟨spec, hmem, hb⟩ := hbad
      rcases List.mem_cons.1 hmem with rfl | hmem
      · obtain ⟨e, he⟩ := translateField_bad api split annoHeader spec header infoMap hb
        rw [he] at hs
        cases hs
      · exact ⟨spec, hmem, hb⟩

/-- C10 (amended). When `--no-info` is not set, `postProcessArguments`
fails whenever one of the given specifications names an info field that the
annotation header does not define or has a third token other than
"per-alt"; and whenever `postProcessArguments` fails inside `exec`, `exec`
ends with that error having written nothing to the output stream. -/
theorem postProcessArguments_fails {H : Type} (api : HeaderApi H)
    (split : String → String → List String) (cmd : Command) (header annoHeader : H)
    (inp : Inputs H) :
    (cmd.noInfo = false →
        (∃ spec ∈ cmd.infoFields, BadSpec api split annoHeader spec) →
        ∃ e, postProcessArguments api split cmd header annoHeader = Except.error e) ∧
      (∀ e, postProcessArguments api split cmd
          (api.add (api.sourceIndex inp.header 0) ("##annotation=" ++ cmd.annoFile))
          (api.sourceIndex inp.annoHeader 1) = Except.error e →
        (exec api split cmd inp).output = [] ∧
          (inp.cinReferences ≤ 1 → (exec api split cmd inp).error = some e)) := by
  constructor
  · intro hno hbad
    have hne : cmd.infoFields.isEmpty = false := by
      obtain ⟨spec, hmem, _⟩ := hbad
      cases hl : cmd.infoFields with
      | nil => rw [hl] at hmem; cases hmem
      | cons x xs => rfl
    obtain ⟨e, he⟩ := translateFields_bad api split annoHeader cmd.infoFields header
      cmd.infoMap hbad
    refine ⟨e, ?_⟩
    simp only [postProcessArguments, hno, hne, Bool.false_eq_true, if_false, he]
  · intro e he
    unfold exec
    split
    · exact ⟨rfl, fun h => by omega⟩
    · simp only
      rw [he]
      exact ⟨rfl, fun _ => rfl⟩

/-- C10 (amended), for the specification "NOPE" against an annotation header
that only defines "AF": `postProcessArguments` fails, and `exec` ends with
that error and an empty output. -/
theorem postProcessArguments_fails_witness :
    ((⟨"in.vcf", "anno.vcf", "-", ["AF", "NOPE"], false, false, []⟩ : Command).noInfo = false ∧
        ∃ spec ∈ (⟨"in.vcf", "anno.vcf", "-", ["AF", "NOPE"], false, false, []⟩ :
            Command).infoFields,
          BadSpec listApi splitFields ⟨[⟨"AF", Vcf.NumberType.other 1, 1, "Float", "freq"⟩], []⟩
            spec) ∧
      (∃ e, postProcessArguments listApi splitFields
        ⟨"in.vcf", "anno.vcf", "-", ["AF", "NOPE"], false, false, []⟩ ⟨[], []⟩
        ⟨[⟨"AF", Vcf.NumberType.other 1, 1, "Float", "freq"⟩], []⟩ = Except.error e) ∧
      (exec listApi splitFields ⟨"in.vcf", "anno.vcf", "-", ["AF", "NOPE"], false, false, []⟩
        ⟨⟨[], []⟩, ⟨[⟨"AF", Vcf.NumberType.other 1, 1, "Float", "freq"⟩], []⟩, 0,
          fun _ _ => ["records"]⟩).output = [] :=
  ⟨⟨rfl, "NOPE", by decide, Or.inl ⟨"NOPE", [], by decide, by decide⟩⟩,
    (postProcessArguments_fails listApi splitFields
      ⟨"in.vcf", "anno.vcf", "-", ["AF", "NOPE"], false, false, []⟩ ⟨[], []⟩
      ⟨[⟨"AF", Vcf.NumberType.other 1, 1, "Float", "freq"⟩], []⟩
      ⟨⟨[], []⟩, ⟨[], []⟩, 0, fun _ _ => []⟩).1 rfl
      ⟨"NOPE", by decide, Or.inl ⟨"NOPE", [], by decide, by decide⟩⟩,
    ((postProcessArguments_fails listApi splitFields
      ⟨"in.vcf", "anno.vcf", "-", ["AF", "NOPE"], false, false, []⟩ ⟨[], []⟩
      ⟨[⟨"AF", Vcf.NumberType.other 1, 1, "Float", "freq"⟩], []⟩
      ⟨⟨[], []⟩, ⟨[⟨"AF", Vcf.NumberType.other 1, 1, "Float", "freq"⟩], []⟩, 0,
        fun _ _ => ["records"]⟩).2
      "Unknown info field 'NOPE' for annotation file" rfl).1⟩

/-- C10, refuted as stated: with `--no-info` set, the given specification
"NOPE" (not an info field of the annotation header, which only defines
"AF") is discarded and `postProcessArguments` returns normally. -/
theorem postProcessArguments_counterexample :
    splitFields "NOPE" "=," = ["NOPE"] ∧
      listApi.infoType ⟨[⟨"AF", Vcf.NumberType.other 1, 1, "Float", "freq"⟩], []⟩ "NOPE" =
        none ∧
      postProcessArguments listApi splitFields
        ⟨"in.vcf", "anno.vcf", "-", ["NOPE"], true, false, []⟩ ⟨[], []⟩
        ⟨[⟨"AF", Vcf.NumberType.other 1, 1, "Float", "freq"⟩], []⟩ =
        Except.ok (⟨"in.vcf", "anno.vcf", "-", [], true, false, []⟩, ⟨[], []⟩) :=
  ⟨by decide, by decide, rfl⟩

end VcfAnnotateCommand

/-! ## `strverscmp` is a strict weak order -/

theorem lenCmp_eq (d : Int) (p1 p2 : List Nat) :
    lenCmp d p1 p2 =
      if digitRun p2 < digitRun p1 then 1
      else if digitRun p1 < digitRun p2 then -1 else d := by
  induction p1 generalizing p2 with
  | nil =>
    cases p2 with
    | nil => simp [lenCmp, digitRun]
    | cons c2 p2 =>
      simp only [lenCmp, digitRun]
      by_cases h2 : isdigit c2 = true <;> simp [h2]
  | cons c1 p1 ih =>
    cases p2 with
    | nil =>
      simp only [lenCmp, digitRun]
      by_cases h1 : isdigit c1 = true <;> simp [h1]
    | cons c2 p2 =>
      simp only [lenCmp, digitRun]
      by_cases h1 : isdigit c1 = true <;> by_cases h2 : isdigit c2 = true <;>
        simp [h1, h2, ih]

theorem verResult_lt_iff (st : VState) (c1 c2 : Nat) (p1 p2 : List Nat) :
    verResult st c1 c2 p1 p2 < 0 ↔ keyLt (verKey st c1 p1) (verKey st c2 p2) := by
  unfold verResult vclass
  cases st <;>
    by_cases h1 : c1 = 48 <;> by_cases h2 : c2 = 48 <;>
    by_cases h3 : isdigit c1 = true <;> by_cases h4 : isdigit c2 = true <;>
    simp only [h1, h2, h3, h4, if_true, if_false, result_type, verKey, keyLt, lenCmp_eq,
      Bool.false_eq_true] <;>
    simp only [isdigit, Bool.and_eq_true, decide_eq_true_eq, not_and, not_le] at h3 h4 ⊢ <;>
    (try split_ifs) <;>
    (try simp only [true_and, false_and, and_true, and_false, or_false, false_or, or_true,
      true_or, lt_self_iff_false, iff_true, iff_false, true_iff, false_iff]) <;>
    (try omega)

theorem keyLt_mk (a1 b1 c1 a2 b2 c2 : Nat) :
    keyLt (a1, b1, c1) (a2, b2, c2) ↔
      a1 < a2 ∨ (a1 = a2 ∧ (b1 < b2 ∨ (b1 = b2 ∧ c1 < c2))) := Iff.rfl

theorem keyLt_trans {k1 k2 k3 : Nat × Nat × Nat} (h12 : keyLt k1 k2) (h23 : keyLt k2 k3) :
    keyLt k1 k3 := by
  unfold keyLt at *
  omega

theorem keyLt_irrefl (k : Nat × Nat × Nat) : ¬ keyLt k k := by
  unfold keyLt
  omega

theorem strverscmpFrom_lt_of_digitRun_lt (s t : List Nat) (h : digitRun s < digitRun t) :
    strverscmpFrom VState.S_I s t < 0 := by
  induction s generalizing t with
  | nil =>
    cases t with
    | nil => simp [digitRun] at h
    | cons c2 p2 =>
      simp only [strverscmpFrom]
      rw [verResult_lt_iff]
      by_cases h2 : isdigit c2 = true
      · have h0 : isdigit 0 = false := rfl
        simp only [verKey, h2, h0, if_true, keyLt_mk, Bool.false_eq_true, if_false]
        omega
      · simp [digitRun, h2] at h
  | cons c1 p1 ih =>
    cases t with
    | nil => simp [digitRun] at h
    | cons c2 p2 =>
      have h2 : isdigit c2 = true := by
        by_contra h2
        simp [digitRun, h2] at h
      simp only [strverscmpFrom]
      by_cases e : c1 = c2
      · subst e
        simp only [if_true]
        have hst : next_state VState.S_I (vclass c1) = VState.S_I := by
          unfold vclass
          split
          · rfl
          · simp [h2, next_state]
        rw [hst]
        apply ih
        simpa [digitRun, h2] using h
      · simp only [e, if_false]
        rw [verResult_lt_iff]
        by_cases h1 : isdigit c1 = true
        · simp only [digitRun, h1, h2, if_true] at h
          simp only [verKey, keyLt_mk, h1, h2, if_true, true_and, lt_self_iff_false, false_or]
          omega
        · simp only [verKey, keyLt_mk, h1, h2, if_true, if_false, Bool.false_eq_true]
          omega

theorem digitRun_le_of_strverscmpFrom_lt (s t : List Nat)
    (h : strverscmpFrom VState.S_I s t < 0) : digitRun s ≤ digitRun t := by
  by_contra hc
  have := strverscmpFrom_lt_of_digitRun_lt t s (by omega)
  rw [strverscmpFrom_neg] at this
  omega

/-- Keys of the same character only grow with the remainder of the string. -/
theorem verKey_mono (st : VState) (c : Nat) (p q : List Nat)
    (h : strverscmpFrom (next_state st (vclass c)) p q < 0) :
    verKey st c p = verKey st c q ∨ keyLt (verKey st c p) (verKey st c q) := by
  cases st
  · -- S_N
    by_cases h1 : c < 49
    · left; simp [verKey, h1]
    · by_cases h2 : c ≤ 57
      · have hst : next_state VState.S_N (vclass c) = VState.S_I := by
          have hd : isdigit c = true := by simp [isdigit]; omega
          have hz : ¬ c = 48 := by omega
          simp [vclass, hd, hz, next_state]
        rw [hst] at h
        have := digitRun_le_of_strverscmpFrom_lt p q h
        simp only [verKey, h1, h2, if_true, if_false, keyLt_mk]
        rcases Nat.lt_or_ge (digitRun p) (digitRun q) with hlt | hge
        · right
          simp only [true_and, lt_self_iff_false, false_or]
          exact Or.inl hlt
        · left
          have : digitRun p = digitRun q := by omega
          rw [this]
      · left; simp [verKey, h1, h2]
  · -- S_I
    by_cases hd : isdigit c = true
    · have hst : next_state VState.S_I (vclass c) = VState.S_I := by
        unfold vclass
        split
        · rfl
        · simp [hd, next_state]
      rw [hst] at h
      have := digitRun_le_of_strverscmpFrom_lt p q h
      simp only [verKey, hd, if_true, keyLt_mk]
      rcases Nat.lt_or_ge (digitRun p) (digitRun q) with hlt | hge
      · right
        simp only [true_and, lt_self_iff_false, false_or]
        exact Or.inl hlt
      · left
        have : digitRun p = digitRun q := by omega
        rw [this]
    · left; simp [verKey, hd]
  · left; simp [verKey]
  · left
    by_cases hd : isdigit c = true <;> simp [verKey, hd]

/-- A strict inequality between keys of one character comes from the digit
runs of an integral part. -/
theorem strverscmpFrom_lt_of_verKey_lt (st : VState) (c : Nat) (p q : List Nat)
    (h : keyLt (verKey st c p) (verKey st c q)) :
    strverscmpFrom (next_state st (vclass c)) p q < 0 := by
  cases st
  · by_cases h1 : c < 49
    · simp [verKey, h1, keyLt_mk] at h
    · by_cases h2 : c ≤ 57
      · have hst : next_state VState.S_N (vclass c) = VState.S_I := by
          have hd : isdigit c = true := by simp [isdigit]; omega
          have hz : ¬ c = 48 := by omega
          simp [vclass, hd, hz, next_state]
        rw [hst]
        apply strverscmpFrom_lt_of_digitRun_lt
        simp only [verKey, h1, h2, if_true, if_false, keyLt_mk] at h
        omega
      · simp [verKey, h1, h2, keyLt_mk] at h
  · by_cases hd : isdigit c = true
    · have hst : next_state VState.S_I (vclass c) = VState.S_I := by
        unfold vclass
        split
        · rfl
        · simp [hd, next_state]
      rw [hst]
      apply strverscmpFrom_lt_of_digitRun_lt
      simp only [verKey, hd, if_true, keyLt_mk] at h
      omega
    · simp [verKey, hd, keyLt_mk] at h
  · simp [verKey, keyLt_mk] at h
  · by_cases hd : isdigit c = true <;> simp [verKey, hd, keyLt_mk] at h

theorem keyLt_of_lt_of_le {k1 k2 k3 : Nat × Nat × Nat} (h12 : keyLt k1 k2)
    (h23 : k2 = k3 ∨ keyLt k2 k3) : keyLt k1 k3 := by
  rcases h23 with rfl | h
  · exact h12
  · exact keyLt_trans h12 h

theorem keyLt_of_le_of_lt {k1 k2 k3 : Nat × Nat × Nat} (h12 : k1 = k2 ∨ keyLt k1 k2)
    (h23 : keyLt k2 k3) : keyLt k1 k3 := by
  rcases h12 with rfl | h
  · exact h23
  · exact keyLt_trans h h23

/-- The loop of `strverscmp` defines a transitive strict order. -/
theorem strverscmpFrom_trans (st : VState) (s t u : List Nat)
    (h1 : strverscmpFrom st s t < 0) (h2 : strverscmpFrom st t u < 0) :
    strverscmpFrom st s u < 0 := by
  induction s generalizing st t u with
  | nil =>
    cases t with
    | nil => simp [strverscmpFrom] at h1
    | cons c2 p2 =>
      simp only [strverscmpFrom, verResult_lt_iff] at h1
      cases u with
      | nil =>
        simp only [strverscmpFrom, verResult_lt_iff] at h2
        exact absurd (keyLt_trans h1 h2) (keyLt_irrefl _)
      | cons c3 p3 =>
        simp only [strverscmpFrom, verResult_lt_iff]
        simp only [strverscmpFrom] at h2
        by_cases e : c2 = c3
        · subst e
          simp only [if_true] at h2
          exact keyLt_of_lt_of_le h1 (verKey_mono st c2 p2 p3 h2)
        · simp only [e, if_false, verResult_lt_iff] at h2
          exact keyLt_trans h1 h2
  | cons c1 p1 ih =>
    cases t with
    | nil =>
      simp only [strverscmpFrom, verResult_lt_iff] at h1
      cases u with
      | nil => simp [strverscmpFrom] at h2
      | cons c3 p3 =>
        simp only [strverscmpFrom, verResult_lt_iff] at h2
        simp only [strverscmpFrom]
        by_cases e : c1 = c3
        · subst e
          simp only [if_true]
          exact strverscmpFrom_lt_of_verKey_lt st c1 p1 p3 (keyLt_trans h1 h2)
        · simp only [e, if_false, verResult_lt_iff]
          exact keyLt_trans h1 h2
    | cons c2 p2 =>
      simp only [strverscmpFrom] at h1
      cases u with
      | nil =>
        simp only [strverscmpFrom, verResult_lt_iff] at h2
        simp only [strverscmpFrom, verResult_lt_iff]
        by_cases e : c1 = c2
        · subst e
          simp only [if_true] at h1
          exact keyLt_of_le_of_lt (verKey_mono st c1 p1 p2 h1) h2
        · simp only [e, if_false, verResult_lt_iff] at h1
          exact keyLt_trans h1 h2
      | cons c3 p3 =>
        simp only [strverscmpFrom] at h2
        simp only [strverscmpFrom]
        by_cases e12 : c1 = c2
        · subst e12
          simp only [if_true] at h1
          by_cases e23 : c1 = c3
          · subst e23
            simp only [if_true] at h2 ⊢
            exact ih _ _ _ h1 h2
          · simp only [e23, if_false, verResult_lt_iff] at h2 ⊢
            exact keyLt_of_le_of_lt (verKey_mono st c1 p1 p2 h1) h2
        · simp only [e12, if_false, verResult_lt_iff] at h1
          by_cases e23 : c2 = c3
          · subst e23
            simp only [if_true] at h2
            simp only [e12, if_false, verResult_lt_iff]
            exact keyLt_of_lt_of_le h1 (verKey_mono st c2 p2 p3 h2)
          · simp only [e23, if_false, verResult_lt_iff] at h2
            by_cases e13 : c1 = c3
            · subst e13
              simp only [if_true]
              exact strverscmpFrom_lt_of_verKey_lt st c1 p1 p3 (keyLt_trans h1 h2)
            · simp only [e13, if_false, verResult_lt_iff]
              exact keyLt_trans h1 h2

theorem strverscmp_trans {s t u : String} (h1 : strverscmp s t < 0) (h2 : strverscmp t u < 0) :
    strverscmp s u < 0 :=
  strverscmpFrom_trans _ _ _ _ h1 h2

theorem strverscmp_congr_left {s t : String} (h : strverscmp s t = 0) (u : String) :
    strverscmp s u = strverscmp t u := by
  unfold strverscmp
  rw [(strverscmp_eq_zero_iff s t).1 h]

theorem strverscmp_congr_right {s t : String} (h : strverscmp s t = 0) (u : String) :
    strverscmp u s = strverscmp u t := by
  unfold strverscmp
  rw [(strverscmp_eq_zero_iff s t).1 h]

theorem strverscmp_le_trans {s t u : String} (h1 : strverscmp s t ≤ 0)
    (h2 : strverscmp t u ≤ 0) : strverscmp s u ≤ 0 := by
  rcases lt_or_eq_of_le h1 with h1 | h1
  · rcases lt_or_eq_of_le h2 with h2 | h2
    · exact le_of_lt (strverscmp_trans h1 h2)
    · rw [← strverscmp_congr_right h2]; exact le_of_lt h1
  · rw [strverscmp_congr_left h1]; exact h2

theorem strverscmp_lt_of_lt_of_le {s t u : String} (h1 : strverscmp s t < 0)
    (h2 : strverscmp t u ≤ 0) : strverscmp s u < 0 := by
  rcases lt_or_eq_of_le h2 with h2 | h2
  · exact strverscmp_trans h1 h2
  · rw [← strverscmp_congr_right h2]; exact h1

theorem strverscmp_lt_of_le_of_lt {s t u : String} (h1 : strverscmp s t ≤ 0)
    (h2 : strverscmp t u < 0) : strverscmp s u < 0 := by
  rcases lt_or_eq_of_le h1 with h1 | h1
  · exact strverscmp_trans h1 h2
  · rw [strverscmp_congr_left h1]; exact h2

/-! ## One record of stream A: `processA` is the cache scan followed by the pull loop -/

namespace IntersectFull

section Normal

variable {σ : Type} (I : Setup σ)

theorem checkCache_burnCache (valueA : Record) (cache : List CacheEntry) (rc : Rc σ) :
    checkCache I valueA (burnCache I valueA cache rc).1 (burnCache I valueA cache rc).2 =
      checkCache I valueA cache rc := by
  induction cache generalizing rc with
  | nil => rfl
  | cons e rest ih =>
    simp only [burnCache]
    split
    · next h =>
      rw [ih]
      simp only [checkCache, h]
    · rfl

theorem checkCache_of_burnCache_nil (valueA : Record) (cache : List CacheEntry) (rc : Rc σ)
    (h : (burnCache I valueA cache rc).1 = []) :
    checkCache I valueA cache rc = (false, [], (burnCache I valueA cache rc).2) := by
  rw [← checkCache_burnCache, h]
  rfl

theorem burnInput_fields (valueA : Record) (b : Stream) (valueB : Record) (rc : Rc σ) :
    (burnInput I valueA b valueB rc).hitA = false ∧
      (burnInput I valueA b valueB rc).cache = [] := by
  induction b generalizing valueB rc with
  | nil => exact ⟨rfl, rfl⟩
  | cons peek rest ih =>
    simp only [burnInput]
    split
    · split
      · exact ⟨rfl, rfl⟩
      · exact ih _ _
    · exact ⟨rfl, rfl⟩

theorem pullB_burnInput (valueA : Record) (b : Stream) (valueB : Record) (rc : Rc σ) :
    pullB I valueA b valueB false [] rc =
      match (burnInput I valueA b valueB rc).error with
      | some _ => burnInput I valueA b valueB rc
      | none =>
        pullB I valueA (burnInput I valueA b valueB rc).b
          (burnInput I valueA b valueB rc).valueB false []
          (burnInput I valueA b valueB rc).rc := by
  induction b generalizing valueB rc with
  | nil => rfl
  | cons peek rest ih =>
    by_cases hc : compare I.adjacentInsertions valueA peek = Compare.AFTER
    · cases hadv : advanceSorted I.adjacentInsertions I.bName peek valueB with
      | error err => simp only [burnInput, hc, if_true, pullB, hadv]
      | ok v =>
        obtain ⟨rfl, _⟩ := advanceSorted_ok hadv
        simp only [burnInput, hc, if_true, hadv]
        rw [← ih]
        simp only [pullB, hadv, hc]
    · simp only [burnInput, hc, if_false]

/-- The body of the outer loop without the two look-ahead loops. -/
theorem processA_eq (valueA : Record) (b : Stream) (valueB : Record)
    (cache : List CacheEntry) (rc : Rc σ) :
    processA I valueA b valueB cache rc =
      match (pullB I valueA b valueB (checkCache I valueA cache rc).1
          (checkCache I valueA cache rc).2.1 (checkCache I valueA cache rc).2.2).error with
      | some _ =>
        pullB I valueA b valueB (checkCache I valueA cache rc).1
          (checkCache I valueA cache rc).2.1 (checkCache I valueA cache rc).2.2
      | none =>
        if !(pullB I valueA b valueB (checkCache I valueA cache rc).1
              (checkCache I valueA cache rc).2.1 (checkCache I valueA cache rc).2.2).hitA &&
            I.collector.wantMissA (pullB I valueA b valueB (checkCache I valueA cache rc).1
              (checkCache I valueA cache rc).2.1 (checkCache I valueA cache rc).2.2).rc.state
        then
          { pullB I valueA b valueB (checkCache I valueA cache rc).1
              (checkCache I valueA cache rc).2.1 (checkCache I valueA cache rc).2.2 with
            rc := (pullB I valueA b valueB (checkCache I valueA cache rc).1
              (checkCache I valueA cache rc).2.1
              (checkCache I valueA cache rc).2.2).rc.missA I.collector valueA }
        else
          pullB I valueA b valueB (checkCache I valueA cache rc).1
            (checkCache I valueA cache rc).2.1 (checkCache I valueA cache rc).2.2 := by
  unfold processA
  simp only
  by_cases hb : (burnCache I valueA cache rc).1.isEmpty = true
  · have hnil : (burnCache I valueA cache rc).1 = [] := List.isEmpty_iff.1 hb
    rw [checkCache_of_burnCache_nil I valueA cache rc hnil]
    simp only [hb, if_true]
    rw [pullB_burnInput I valueA b valueB (burnCache I valueA cache rc).2]
    cases he : (burnInput I valueA b valueB (burnCache I valueA cache rc).2).error with
    | some err => simp only [he]
    | none =>
      simp only [hnil]
      rfl
  · simp only [hb, Bool.false_eq_true, if_false]
    rw [checkCache_burnCache]

end Normal

end IntersectFull

/-! ## The run against its reference semantics -/

namespace IntersectFull

theorem view_append (wa wb : Bool) (l1 l2 : List Call) :
    view wa wb (l1 ++ l2) = view wa wb l1 ++ view wa wb l2 := by
  simp [view]

theorem view_flatMap_evict (wa : Bool) (l : List CacheEntry) :
    view wa false (l.flatMap evict) = [] := by
  induction l with
  | nil => rfl
  | cons e rest ih =>
    simp only [List.flatMap_cons, view_append, ih, List.append_nil]
    unfold evict
    split <;> rfl

theorem fresh_cons (v : Record) (l : List Record) : fresh (v :: l) = ⟨v, false⟩ :: fresh l :=
  rfl

theorem fresh_nil : fresh [] = [] := rfl

section Ref

variable {σ : Type} {I : Setup σ} {wa wb : Bool} (F : Faithful I wa wb)
include F

theorem wantMissB_view (v : Record) (rc : Rc σ) :
    view wa wb (if I.collector.wantMissB rc.state then rc.missB I.collector v else rc).calls =
      view wa wb rc.calls ++ view wa wb [Call.missB v] := by
  cases hw : I.collector.wantMissB rc.state with
  | true => simp [Rc.missB, view_append]
  | false =>
    have hwb : wb = false := by
      cases hb : wb with
      | false => rfl
      | true => rw [F.wantB hb rc.state] at hw; cases hw
    subst hwb
    simp [view, keep]

theorem cacheRemove_view (e : CacheEntry) (rc : Rc σ) :
    view wa wb (cacheRemove I e rc).calls = view wa wb rc.calls ++ view wa wb (evict e) := by
  unfold cacheRemove evict
  cases he : e.hit with
  | true => simp [view]
  | false =>
    simp only [Bool.not_false, Bool.true_and, Bool.false_eq_true, if_false]
    exact wantMissB_view F e.value rc

theorem hit_view (a b : Record) (rc : Rc σ) :
    (rc.hit I.collector a b).1 = true ∧
      view wa wb (rc.hit I.collector a b).2.calls = view wa wb rc.calls ++ [Call.hit a b] := by
  refine ⟨F.hit _ _ _, ?_⟩
  simp [Rc.hit, view_append, view, keep]

theorem checkCache_ref (a : Record) (cache : List CacheEntry) (rc : Rc σ) :
    (checkCache I a cache rc).1 = scanHit I.adjacentInsertions a cache ∧
      (checkCache I a cache rc).2.1 = scanKeep I.adjacentInsertions a cache ∧
      view wa wb (checkCache I a cache rc).2.2.calls =
        view wa wb rc.calls ++ view wa wb (scanCalls I.adjacentInsertions a cache) := by
  induction cache generalizing rc with
  | nil => simp [checkCache, scanHit, scanKeep, scanCalls, view]
  | cons e rest ih =>
    simp only [checkCache, scanHit, scanKeep, scanCalls]
    cases hc : compare I.adjacentInsertions a e.value with
    | BEFORE => simp [view]
    | AFTER =>
      simp only
      refine ⟨(ih _).1, (ih _).2.1, ?_⟩
      rw [(ih _).2.2, cacheRemove_view F, view_append, List.append_assoc]
    | INTERSECT =>
      simp only
      have hh := hit_view F a e.value rc
      refine ⟨by simp [hh.1], by simp [hh.1, (ih _).2.1], ?_⟩
      rw [(ih _).2.2, hh.2, List.append_assoc]
      rfl

theorem pullB_ref (a : Record) (b : Stream) (valueB : Record) (hitA : Bool)
    (cache : List CacheEntry) (rc : Rc σ)
    (hg : List.Chain (GuardOk I.adjacentInsertions) valueB b) :
    (pullB I a b valueB hitA cache rc).error = none ∧
      List.Chain (GuardOk I.adjacentInsertions) (pullB I a b valueB hitA cache rc).valueB
        (pullB I a b valueB hitA cache rc).b ∧
      (pullB I a b valueB hitA cache rc).hitA =
        (hitA || scanHit I.adjacentInsertions a (fresh b)) ∧
      (pullB I a b valueB hitA cache rc).cache ++ fresh (pullB I a b valueB hitA cache rc).b =
        cache ++ scanKeep I.adjacentInsertions a (fresh b) ∧
      view wa wb (pullB I a b valueB hitA cache rc).rc.calls =
        view wa wb rc.calls ++ view wa wb (scanCalls I.adjacentInsertions a (fresh b)) := by
  induction b generalizing valueB hitA cache rc with
  | nil => simp [pullB, fresh_nil, scanHit, scanKeep, scanCalls, view]
  | cons peek rest ih =>
    obtain ⟨hg1, hg2⟩ := List.chain_cons.1 hg
    have hadv : advanceSorted I.adjacentInsertions I.bName peek valueB = Except.ok peek := by
      unfold advanceSorted
      rw [if_neg hg1]
    rw [fresh_cons]
    simp only [pullB, hadv, scanHit, scanKeep, scanCalls]
    cases hc : compare I.adjacentInsertions a peek with
    | BEFORE => simp [hg2, view, fresh_cons]
    | AFTER =>
      simp only
      have := ih peek hitA cache
        (if I.collector.wantMissB rc.state then rc.missB I.collector peek else rc) hg2
      refine ⟨this.1, this.2.1, this.2.2.1, this.2.2.2.1, ?_⟩
      rw [this.2.2.2.2, wantMissB_view F, view_append, List.append_assoc]
      rfl
    | INTERSECT =>
      simp only
      have hh := hit_view F a peek rc
      have := ih peek (hitA || (rc.hit I.collector a peek).1)
        (cache ++ [⟨peek, (rc.hit I.collector a peek).1⟩]) (rc.hit I.collector a peek).2 hg2
      refine ⟨this.1, this.2.1, ?_, ?_, ?_⟩
      · rw [this.2.2.1, hh.1]; simp
      · rw [this.2.2.2.1, hh.1]; simp
      · rw [this.2.2.2.2, hh.2, List.append_assoc]
        rfl

theorem drainCache_ref (cache : List CacheEntry) (rc : Rc σ) :
    view wa wb (drainCache I cache rc).2.calls =
      view wa wb rc.calls ++ view wa wb (cache.flatMap evict) := by
  induction cache generalizing rc with
  | nil => simp [drainCache, view]
  | cons e rest ih =>
    simp only [drainCache]
    cases hw : I.collector.wantMissB rc.state with
    | true =>
      simp only [if_true]
      rw [ih, cacheRemove_view F, List.flatMap_cons, view_append, List.append_assoc]
    | false =>
      have hwb : wb = false := by
        cases hb : wb with
        | false => rfl
        | true => rw [F.wantB hb rc.state] at hw; cases hw
      subst hwb
      simp only [Bool.false_eq_true, if_false]
      rw [view_flatMap_evict wa (e :: rest), List.append_nil]

theorem drainB_ref (b : Stream) (valueB : Record) (cache : List CacheEntry) (rc : Rc σ)
    (hg : List.Chain (GuardOk I.adjacentInsertions) valueB b) :
    (drainB I b valueB cache rc).error = none ∧
      view wa wb (drainB I b valueB cache rc).rc.calls =
        view wa wb rc.calls ++ view wa wb ((fresh b).flatMap evict) := by
  induction b generalizing valueB rc with
  | nil => simp [drainB, fresh_nil, view]
  | cons peek rest ih =>
    obtain ⟨hg1, hg2⟩ := List.chain_cons.1 hg
    have hadv : advanceSorted I.adjacentInsertions I.bName peek valueB = Except.ok peek := by
      unfold advanceSorted
      rw [if_neg hg1]
    rw [fresh_cons]
    simp only [drainB, hadv]
    cases hw : I.collector.wantMissB rc.state with
    | true =>
      simp only [if_true]
      refine ⟨(ih peek _ hg2).1, ?_⟩
      rw [(ih peek _ hg2).2]
      simp only [Rc.missB, view_append, evict, List.flatMap_cons, Bool.false_eq_true, if_false,
        List.append_assoc]
    | false =>
      have hwb : wb = false := by
        cases hb : wb with
        | false => rfl
        | true => rw [F.wantB hb rc.state] at hw; cases hw
      subst hwb
      simp only [Bool.false_eq_true, if_false]
      rw [← fresh_cons, view_flatMap_evict wa (fresh (peek :: rest)), List.append_nil]
      exact ⟨trivial, rfl⟩

end Ref

end IntersectFull

namespace IntersectFull

theorem scan_of_all_before (adj : Bool) (a : Record) (l : List CacheEntry)
    (h : ∀ x ∈ l, compare adj a x.value = Compare.BEFORE) :
    scanKeep adj a l = l ∧ scanCalls adj a l = [] ∧ scanHit adj a l = false := by
  cases l with
  | nil => exact ⟨rfl, rfl, rfl⟩
  | cons e rest =>
    have he := h e (by simp)
    simp [scanKeep, scanCalls, scanHit, he]

theorem scan_append (adj : Bool) (a : Record) (l1 l2 : List CacheEntry)
    (h : ∀ e ∈ l1, ∀ x ∈ l2, compare adj a e.value = Compare.BEFORE →
      compare adj a x.value = Compare.BEFORE) :
    scanKeep adj a (l1 ++ l2) = scanKeep adj a l1 ++ scanKeep adj a l2 ∧
      scanCalls adj a (l1 ++ l2) = scanCalls adj a l1 ++ scanCalls adj a l2 ∧
      scanHit adj a (l1 ++ l2) = (scanHit adj a l1 || scanHit adj a l2) := by
  induction l1 with
  | nil => simp [scanKeep, scanCalls, scanHit]
  | cons e rest ih =>
    have ih' := ih (fun e' he' => h e' (by simp [he']))
    simp only [List.cons_append, scanKeep, scanCalls, scanHit]
    cases hc : compare adj a e.value with
    | BEFORE =>
      have := scan_of_all_before adj a l2 (fun x hx => h e (by simp) x hx hc)
      simp [this.1, this.2.1, this.2.2]
    | AFTER => simp [ih'.1, ih'.2.1, ih'.2.2]
    | INTERSECT => simp [ih'.1, ih'.2.1]

theorem scanKeep_sublist (adj : Bool) (a : Record) (U : List CacheEntry) :
    ((scanKeep adj a U).map CacheEntry.value).Sublist (U.map CacheEntry.value) := by
  induction U with
  | nil => simp [scanKeep]
  | cons e rest ih =>
    simp only [scanKeep]
    cases hc : compare adj a e.value with
    | BEFORE => simp
    | AFTER => simpa using List.Sublist.cons e.value ih
    | INTERSECT => simpa using List.Sublist.cons₂ e.value ih

theorem BeforeClosed.scanKeep {adj : Bool} {a' : Record} {U : List CacheEntry}
    (h : BeforeClosed adj a' (U.map CacheEntry.value)) (a : Record) :
    BeforeClosed adj a' ((scanKeep adj a U).map CacheEntry.value) :=
  List.Pairwise.sublist (scanKeep_sublist adj a U) h

section Ref

variable {σ : Type} {I : Setup σ} {wa wb : Bool} (F : Faithful I wa wb)
include F

theorem wantMissA_view (a : Record) (hitA : Bool) (rc : Rc σ) :
    view wa wb (if !hitA && I.collector.wantMissA rc.state then rc.missA I.collector a
        else rc).calls =
      view wa wb rc.calls ++ view wa wb (if hitA then [] else [Call.missA a]) := by
  cases hitA with
  | true => simp [view]
  | false =>
    simp only [Bool.not_false, Bool.true_and, Bool.false_eq_true, if_false]
    cases hw : I.collector.wantMissA rc.state with
    | true => simp [Rc.missA, view_append]
    | false =>
      have hwa : wa = false := by
        cases ha : wa with
        | false => rfl
        | true => rw [F.wantA ha rc.state] at hw; cases hw
      subst hwa
      simp [view, keep]

theorem processA_ref (a : Record) (b : Stream) (valueB : Record) (cache : List CacheEntry)
    (rc : Rc σ) (hg : List.Chain (GuardOk I.adjacentInsertions) valueB b)
    (hBC : BeforeClosed I.adjacentInsertions a ((cache ++ fresh b).map CacheEntry.value)) :
    (processA I a b valueB cache rc).error = none ∧
      List.Chain (GuardOk I.adjacentInsertions) (processA I a b valueB cache rc).valueB
        (processA I a b valueB cache rc).b ∧
      (processA I a b valueB cache rc).cache ++ fresh (processA I a b valueB cache rc).b =
        scanKeep I.adjacentInsertions a (cache ++ fresh b) ∧
      view wa wb (processA I a b valueB cache rc).rc.calls =
        view wa wb rc.calls ++
          view wa wb (scanCalls I.adjacentInsertions a (cache ++ fresh b) ++
            (if scanHit I.adjacentInsertions a (cache ++ fresh b) then []
              else [Call.missA a])) := by
  have hsplit : ∀ e ∈ cache, ∀ x ∈ fresh b,
      compare I.adjacentInsertions a e.value = Compare.BEFORE →
        compare I.adjacentInsertions a x.value = Compare.BEFORE := by
    intro e he x hx
    unfold BeforeClosed at hBC
    rw [List.map_append, List.pairwise_append] at hBC
    exact hBC.2.2 e.value (List.mem_map_of_mem _ he) x.value (List.mem_map_of_mem _ hx)
  have hs := scan_append I.adjacentInsertions a cache (fresh b) hsplit
  have hcc := checkCache_ref F a cache rc
  have hp := pullB_ref F a b valueB (checkCache I a cache rc).1 (checkCache I a cache rc).2.1
    (checkCache I a cache rc).2.2 hg
  rw [processA_eq]
  generalize pullB I a b valueB (checkCache I a cache rc).1 (checkCache I a cache rc).2.1
    (checkCache I a cache rc).2.2 = pulled at hp ⊢
  obtain ⟨hp1, hp2, hp3, hp4, hp5⟩ := hp
  rw [hp1]
  simp only
  have hhit : pulled.hitA = scanHit I.adjacentInsertions a (cache ++ fresh b) := by
    rw [hp3, hcc.1, hs.2.2]
  have hcalls := wantMissA_view F a pulled.hitA pulled.rc
  split
  · next hcond =>
    refine ⟨hp1, hp2, ?_, ?_⟩
    · rw [hs.1, ← hcc.2.1]; exact hp4
    · rw [if_pos hcond] at hcalls
      simp only
      rw [hcalls, hp5, hcc.2.2, hs.2.1, hhit]
      simp only [view_append, List.append_assoc]
  · next hcond =>
    refine ⟨hp1, hp2, ?_, ?_⟩
    · rw [hs.1, ← hcc.2.1]; exact hp4
    · rw [if_neg hcond] at hcalls
      rw [hcalls, hp5, hcc.2.2, hs.2.1, hhit]
      simp only [view_append, List.append_assoc]

theorem executeFrom_ref (A b : Stream) (valueA valueB : Record) (cache : List CacheEntry)
    (rc : Rc σ) (hgA : List.Chain (GuardOk I.adjacentInsertions) valueA A)
    (hgB : List.Chain (GuardOk I.adjacentInsertions) valueB b)
    (hBC : ∀ a ∈ A,
      BeforeClosed I.adjacentInsertions a ((cache ++ fresh b).map CacheEntry.value)) :
    (executeFrom I A b valueA valueB cache rc).error = none ∧
      (executeFrom I A b valueA valueB cache rc).a = [] ∧
      view wa wb (executeFrom I A b valueA valueB cache rc).rc.calls =
        view wa wb rc.calls ++
          view wa wb (refCalls I.adjacentInsertions A (cache ++ fresh b)) := by
  induction A generalizing b valueA valueB cache rc with
  | nil =>
    simp only [executeFrom, refCalls]
    have h1 := drainCache_ref F cache rc
    have h2 := drainB_ref F b valueB (drainCache I cache rc).1 (drainCache I cache rc).2 hgB
    refine ⟨h2.1, trivial, ?_⟩
    rw [h2.2, h1, List.flatMap_append, view_append, List.append_assoc]
  | cons a rest ih =>
    obtain ⟨hg1, hg2⟩ := List.chain_cons.1 hgA
    have hadv : advanceSorted I.adjacentInsertions I.aName a valueA = Except.ok a := by
      unfold advanceSorted
      rw [if_neg hg1]
    have hp := processA_ref F a b valueB cache rc hgB (hBC a (by simp))
    simp only [executeFrom, hadv, refCalls]
    generalize processA I a b valueB cache rc = s at hp ⊢
    obtain ⟨hp1, hp2, hp3, hp4⟩ := hp
    rw [hp1]
    simp only
    have hBC' : ∀ a' ∈ rest, BeforeClosed I.adjacentInsertions a'
        ((s.cache ++ fresh s.b).map CacheEntry.value) := by
      intro a' ha'
      rw [hp3]
      exact (hBC a' (by simp [ha'])).scanKeep a
    have := ih s.b a s.valueB s.cache s.rc hg2 hp2 hBC'
    refine ⟨this.1, this.2.1, ?_⟩
    rw [this.2.2, hp4, hp3]
    simp only [view_append, List.append_assoc]

end Ref

end IntersectFull

/-! ## The reference semantics under the order conditions -/

namespace IntersectFull

theorem Compare.cases3 (c : Compare) :
    c = Compare.BEFORE ∨ c = Compare.AFTER ∨ c = Compare.INTERSECT := by
  cases c <;> simp

theorem any_intersects_eq (adj : Bool) (a : Record) (U : List CacheEntry) :
    (U.any fun e => intersects adj a e.value) =
      !(U.map CacheEntry.value).all (fun x => !intersects adj a x) := by
  induction U with
  | nil => rfl
  | cons e l ihl => simp [List.any_cons, List.all_cons, Bool.not_and, ihl]

theorem scan_full (adj : Bool) (a : Record) (U : List CacheEntry)
    (h : BeforeClosed adj a (U.map CacheEntry.value)) :
    scanKeep adj a U = U.filterMap (keepEntry adj a) ∧
      scanCalls adj a U = U.flatMap (entryCalls adj a) ∧
      scanHit adj a U = U.any (fun e => intersects adj a e.value) := by
  induction U with
  | nil => exact ⟨rfl, rfl, rfl⟩
  | cons e rest ih =>
    unfold BeforeClosed at h
    rw [List.map_cons, List.pairwise_cons] at h
    have ih' := ih h.2
    simp only [scanKeep, scanCalls, scanHit, List.filterMap_cons, List.flatMap_cons,
      List.any_cons, keepEntry, entryCalls, intersects]
    cases hc : compare adj a e.value with
    | BEFORE =>
      have hall : ∀ x ∈ rest, compare adj a x.value = Compare.BEFORE :=
        fun x hx => h.1 x.value (List.mem_map_of_mem _ hx) hc
      have h1 : rest.filterMap (keepEntry adj a) = rest := by
        rw [← ih'.1]; exact (scan_of_all_before adj a rest hall).1
      have h2 : rest.flatMap (entryCalls adj a) = [] := by
        rw [← ih'.2.1]; exact (scan_of_all_before adj a rest hall).2.1
      have h3 : rest.any (fun e => intersects adj a e.value) = false := by
        rw [← ih'.2.2]; exact (scan_of_all_before adj a rest hall).2.2
      simp only [intersects] at h3
      simp [h1, h2, h3]
    | AFTER =>
      simp only [intersects] at ih'
      simp [ih'.1, ih'.2.1, ih'.2.2]
    | INTERSECT =>
      simp [ih'.1, ih'.2.1]

theorem keepEntry_values (adj : Bool) (a : Record) (U : List CacheEntry) :
    (U.filterMap (keepEntry adj a)).map CacheEntry.value =
      (U.map CacheEntry.value).filter (fun x => !isAfter adj a x) := by
  induction U with
  | nil => rfl
  | cons e rest ih =>
    simp only [List.filterMap_cons, List.map_cons, List.filter_cons, keepEntry, isAfter]
    rcases Compare.cases3 (compare adj a e.value) with hc | hc | hc <;>
      simp [hc, ih, isAfter]

theorem hitsOf_entryCalls (adj : Bool) (a : Record) (U : List CacheEntry) :
    hitsOf (U.flatMap (entryCalls adj a)) =
      ((U.map CacheEntry.value).filter (intersects adj a)).map (fun x => (a, x)) := by
  induction U with
  | nil => rfl
  | cons e rest ih =>
    simp only [List.flatMap_cons, hitsOf_append, ih, List.map_cons, List.filter_cons,
      entryCalls, intersects]
    have hev : hitsOf (evict e) = [] := by unfold evict; split <;> rfl
    rcases Compare.cases3 (compare adj a e.value) with hc | hc | hc <;>
      simp [hc, hitsOf, hev]

theorem missAOf_entryCalls (adj : Bool) (a : Record) (U : List CacheEntry) :
    missAOf (U.flatMap (entryCalls adj a)) = [] := by
  induction U with
  | nil => rfl
  | cons e rest ih =>
    simp only [List.flatMap_cons, missAOf_append, ih, entryCalls]
    have hev : missAOf (evict e) = [] := by unfold evict; split <;> rfl
    rcases Compare.cases3 (compare adj a e.value) with hc | hc | hc <;>
      simp [hc, missAOf, hev]

theorem missBOf_entryCalls (adj : Bool) (a : Record) (U : List CacheEntry) :
    missBOf (U.flatMap (entryCalls adj a)) =
      U.flatMap (pick (fun e => isAfter adj a e.value && !e.hit)) := by
  induction U with
  | nil => rfl
  | cons e rest ih =>
    simp only [List.flatMap_cons, missBOf_append, ih, entryCalls, pick, isAfter]
    rcases Compare.cases3 (compare adj a e.value) with hc | hc | hc
    · simp [hc, missBOf]
    · unfold evict
      by_cases hh : e.hit = true <;> simp [hc, hh, missBOf]
    · simp [hc, missBOf]

theorem hitsOf_flatMap_evict (U : List CacheEntry) : hitsOf (U.flatMap evict) = [] := by
  induction U with
  | nil => rfl
  | cons e rest ih =>
    simp only [List.flatMap_cons, hitsOf_append, ih, List.append_nil]
    unfold evict; split <;> rfl

theorem missAOf_flatMap_evict (U : List CacheEntry) : missAOf (U.flatMap evict) = [] := by
  induction U with
  | nil => rfl
  | cons e rest ih =>
    simp only [List.flatMap_cons, missAOf_append, ih, List.append_nil]
    unfold evict; split <;> rfl

theorem missBOf_flatMap_evict (U : List CacheEntry) :
    missBOf (U.flatMap evict) = U.flatMap (pick (fun e => !e.hit)) := by
  induction U with
  | nil => rfl
  | cons e rest ih =>
    simp only [List.flatMap_cons, missBOf_append, ih, pick]
    unfold evict
    by_cases hh : e.hit = true <;> simp [hh, missBOf]

theorem Ordered.tail {adj : Bool} {a : Record} {A U : List Record}
    (h : Ordered adj (a :: A) U) (V : List Record) (hV : V.Sublist U) : Ordered adj A V := by
  refine ⟨fun a' ha' => List.Pairwise.sublist hV (h.1 a' (by simp [ha'])), fun x hx => ?_⟩
  have := h.2 x (hV.subset hx)
  unfold AfterClosed at this ⊢
  exact (List.pairwise_cons.1 this).2

theorem Ordered.after {adj : Bool} {a : Record} {A U : List Record}
    (h : Ordered adj (a :: A) U) {x : Record} (hx : x ∈ U)
    (hc : compare adj a x = Compare.AFTER) : ∀ a' ∈ A, compare adj a' x = Compare.AFTER := by
  have := h.2 x hx
  unfold AfterClosed at this
  exact fun a' ha' => (List.pairwise_cons.1 this).1 a' ha' hc

theorem filter_intersects_after {adj : Bool} {a : Record} {A U : List Record}
    (h : Ordered adj (a :: A) U) {a' : Record} (ha' : a' ∈ A) :
    (U.filter (fun x => !isAfter adj a x)).filter (intersects adj a') =
      U.filter (intersects adj a') := by
  rw [List.filter_filter]
  apply List.filter_congr
  intro x hx
  cases hi : intersects adj a' x with
  | false => rfl
  | true =>
    simp only [Bool.true_and, Bool.not_eq_true', isAfter, decide_eq_false_iff_not]
    intro hc
    have := h.after hx hc a' ha'
    simp [intersects, this] at hi

/-- Hits of the reference run: every record of `A` against every pending
value it intersects, in order. -/
theorem hitsOf_refCalls (adj : Bool) (A : List Record) (U : List CacheEntry)
    (h : Ordered adj A (U.map CacheEntry.value)) :
    hitsOf (refCalls adj A U) =
      A.flatMap (fun a => ((U.map CacheEntry.value).filter (intersects adj a)).map
        (fun x => (a, x))) := by
  induction A generalizing U with
  | nil => simp [refCalls, hitsOf_flatMap_evict]
  | cons a rest ih =>
    have hs := scan_full adj a U (h.1 a (by simp))
    have hsub : ((scanKeep adj a U).map CacheEntry.value).Sublist (U.map CacheEntry.value) :=
      scanKeep_sublist adj a U
    have ih' := ih (scanKeep adj a U) (h.tail _ hsub)
    simp only [refCalls, hitsOf_append, List.flatMap_cons]
    rw [ih', hs.2.1, hitsOf_entryCalls]
    have hmid : hitsOf (if scanHit adj a U = true then [] else [Call.missA a]) = [] := by
      split <;> rfl
    rw [hmid, List.append_nil]
    congr 1
    apply List.flatMap_congr
    intro a' ha'
    rw [hs.1, keepEntry_values, filter_intersects_after h ha']

theorem all_not_intersects_after {adj : Bool} {a : Record} {A U : List Record}
    (h : Ordered adj (a :: A) U) {a' : Record} (ha' : a' ∈ A) :
    (U.filter (fun x => !isAfter adj a x)).all (fun x => !intersects adj a' x) =
      U.all (fun x => !intersects adj a' x) := by
  have := filter_intersects_after h ha'
  rw [Bool.eq_iff_iff]
  simp only [List.all_eq_true, List.mem_filter, Bool.not_eq_true', and_imp]
  constructor
  · intro hall x hx
    by_contra hi
    have hi' : intersects adj a' x = true := by simpa using hi
    have hmem : x ∈ U.filter (intersects adj a') := List.mem_filter.2 ⟨hx, hi'⟩
    rw [← this] at hmem
    have hmem' := (List.mem_filter.1 hmem).1
    have := hall x (List.mem_filter.1 hmem').1 (by simpa using (List.mem_filter.1 hmem').2)
    rw [this] at hi'
    cases hi'
  · intro hall x hx _
    exact hall x hx

/-- `missA` reports of the reference run: the records of `A` that intersect
no pending value, in order. -/
theorem missAOf_refCalls (adj : Bool) (A : List Record) (U : List CacheEntry)
    (h : Ordered adj A (U.map CacheEntry.value)) :
    missAOf (refCalls adj A U) =
      A.filter (fun a => (U.map CacheEntry.value).all (fun x => !intersects adj a x)) := by
  induction A generalizing U with
  | nil => simp [refCalls, missAOf_flatMap_evict]
  | cons a rest ih =>
    have hs := scan_full adj a U (h.1 a (by simp))
    have hsub : ((scanKeep adj a U).map CacheEntry.value).Sublist (U.map CacheEntry.value) :=
      scanKeep_sublist adj a U
    have ih' := ih (scanKeep adj a U) (h.tail _ hsub)
    simp only [refCalls, missAOf_append]
    rw [ih', hs.2.1, missAOf_entryCalls, List.nil_append, hs.2.2, hs.1, keepEntry_values]
    have hrest : rest.filter (fun a' => ((U.map CacheEntry.value).filter
          (fun x => !isAfter adj a x)).all (fun x => !intersects adj a' x)) =
        rest.filter (fun a' => (U.map CacheEntry.value).all (fun x => !intersects adj a' x)) := by
      apply List.filter_congr
      intro a' ha'
      exact all_not_intersects_after h ha'
    rw [hrest, List.filter_cons]
    rw [any_intersects_eq]
    by_cases hall : (U.map CacheEntry.value).all (fun x => !intersects adj a x) = true
    · rw [hall]
      simp [missAOf]
    · rw [Bool.not_eq_true] at hall
      rw [hall]
      simp [missAOf]

end IntersectFull

namespace IntersectFull

theorem flatMap_filterMap_entries (g : CacheEntry → Option CacheEntry)
    (f : CacheEntry → List Record) (U : List CacheEntry) :
    (U.filterMap g).flatMap f =
      U.flatMap (fun e => match g e with
        | none => []
        | some e' => f e') := by
  induction U with
  | nil => rfl
  | cons e rest ih =>
    simp only [List.filterMap_cons, List.flatMap_cons]
    cases hg : g e with
    | none => simpa using ih
    | some e' => simp [ih]

theorem flatMap_pick (p : CacheEntry → Bool) (U : List CacheEntry) :
    U.flatMap (pick p) = (U.filter p).map CacheEntry.value := by
  induction U with
  | nil => rfl
  | cons e rest ih =>
    simp only [List.flatMap_cons, ih, pick, List.filter_cons]
    by_cases hp : p e = true <;> simp [hp]

theorem pick_unmatched_cons {adj : Bool} {a : Record} {A : List Record} {U : List CacheEntry}
    (h : Ordered adj (a :: A) (U.map CacheEntry.value)) {e : CacheEntry} (he : e ∈ U) :
    pick (fun e => isAfter adj a e.value && !e.hit) e ++
        (match keepEntry adj a e with
          | none => []
          | some e' => pick (unmatched adj A) e') =
      pick (unmatched adj (a :: A)) e := by
  unfold keepEntry pick unmatched isAfter
  simp only [List.all_cons]
  rcases Compare.cases3 (compare adj a e.value) with hc | hc | hc
  · simp [hc, intersects]
  · have hall : ∀ x ∈ A, ¬ compare adj x e.value = Compare.INTERSECT := by
      intro a' ha'
      have := h.after (List.mem_map_of_mem _ he) hc a' ha'
      simp [this]
    simp only [hc, intersects, decide_True, decide_False, Bool.true_and, Bool.not_eq_true',
      reduceCtorEq, Bool.not_false, Bool.and_eq_true, List.all_eq_true, decide_eq_false_iff_not]
    by_cases hh : e.hit = false
    · rw [if_pos hh, if_pos ⟨hh, hall⟩]; rfl
    · rw [if_neg hh, if_neg (fun hx => hh hx.1)]; rfl
  · simp [hc, intersects]

/-- `missB` reports of the reference run: the values of the pending entries
without a hit that no record of `A` intersects, each once. -/
theorem missBOf_refCalls (adj : Bool) (A : List Record) (U : List CacheEntry)
    (h : Ordered adj A (U.map CacheEntry.value)) :
    (missBOf (refCalls adj A U)).Perm ((U.filter (unmatched adj A)).map CacheEntry.value) := by
  rw [← flatMap_pick]
  induction A generalizing U with
  | nil =>
    simp only [refCalls, missBOf_flatMap_evict]
    have : (fun e : CacheEntry => !e.hit) = unmatched adj [] := by
      funext e
      simp [unmatched]
    rw [this]
  | cons a rest ih =>
    have hs := scan_full adj a U (h.1 a (by simp))
    have hsub : ((scanKeep adj a U).map CacheEntry.value).Sublist (U.map CacheEntry.value) :=
      scanKeep_sublist adj a U
    have ih' := ih (scanKeep adj a U) (h.tail _ hsub)
    rw [hs.1] at ih'
    simp only [refCalls, missBOf_append]
    rw [hs.1]
    have hmid : missBOf (if scanHit adj a U = true then [] else [Call.missA a]) = [] := by
      split <;> rfl
    rw [hmid, List.append_nil, hs.2.1, missBOf_entryCalls]
    rw [flatMap_filterMap_entries] at ih'
    refine (List.Perm.append_left _ ih').trans ?_
    refine (List.flatMap_append_perm U _ _).trans ?_
    rw [List.flatMap_congr (fun e he => pick_unmatched_cons h he)]

end IntersectFull

/-! ## `compare` along sorted streams -/

namespace IntersectFull

theorem recLE_chrom {x y : Record} (h : recLE x y) : strverscmp x.chrom y.chrom ≤ 0 := by
  rcases h with h | h
  · exact le_of_lt h
  · exact le_of_eq h.1

theorem recLE_trans {x y z : Record} (h1 : recLE x y) (h2 : recLE y z) : recLE x z := by
  rcases h1 with h1 | ⟨h1, c1⟩
  · exact Or.inl (strverscmp_lt_of_lt_of_le h1 (recLE_chrom h2))
  · rcases h2 with h2 | ⟨h2, c2⟩
    · exact Or.inl (strverscmp_lt_of_le_of_lt (le_of_eq h1) h2)
    · refine Or.inr ⟨?_, by omega⟩
      rw [strverscmp_congr_left h1]; exact h2

/-- M1. A pending value that lies AFTER a record of A lies AFTER every later
record of A. -/
theorem compare_after_mono (adj : Bool) {a a' b : Record} (ha : WellFormed adj a)
    (ha' : WellFormed adj a') (hb : WellFormed adj b) (hle : recLE a a')
    (h : compare adj a b = Compare.AFTER) : compare adj a' b = Compare.AFTER := by
  rcases lt_trichotomy (strverscmp a.chrom b.chrom) 0 with hab | hab | hab
  · rw [compare_of_lt adj a b hab] at h; cases h
  · rcases hle with hlt | ⟨heq, hco⟩
    · apply compare_of_gt
      have : strverscmp b.chrom a'.chrom < 0 := by
        rw [← strverscmp_congr_left hab]; exact hlt
      rw [strverscmp_neg] ; omega
    · have hab' : strverscmp a'.chrom b.chrom = 0 := by
        rw [← strverscmp_congr_left heq]; exact hab
      obtain ⟨w1, i1⟩ := ha
      obtain ⟨w2, i2⟩ := ha'
      obtain ⟨w3, i3⟩ := hb
      cases adj
      · rw [compare_false_of_eq a b hab] at h
        rw [compare_false_of_eq a' b hab']
        split_ifs at h ⊢ <;> first | rfl | omega
      · rw [compare_true_of_eq a b hab] at h
        rw [compare_true_of_eq a' b hab']
        have j1 := i1 rfl
        have j2 := i2 rfl
        have j3 := i3 rfl
        simp only [j1, j2, j3] at h ⊢
        split_ifs at h ⊢ <;> first | rfl | omega
  · apply compare_of_gt
    have h1 : strverscmp b.chrom a.chrom < 0 := by rw [strverscmp_neg]; omega
    have := strverscmp_lt_of_lt_of_le h1 (recLE_chrom hle)
    rw [strverscmp_neg]; omega

/-- M2. A record of A that lies BEFORE a pending value lies BEFORE every
later value of stream B. -/
theorem compare_before_mono (adj : Bool) {a b b' : Record} (ha : WellFormed adj a)
    (hb : WellFormed adj b) (hb' : WellFormed adj b') (hle : recLE b b')
    (h : compare adj a b = Compare.BEFORE) : compare adj a b' = Compare.BEFORE := by
  rcases lt_trichotomy (strverscmp a.chrom b.chrom) 0 with hab | hab | hab
  · exact compare_of_lt adj a b' (strverscmp_lt_of_lt_of_le hab (recLE_chrom hle))
  · rcases hle with hlt | ⟨heq, hco⟩
    · exact compare_of_lt adj a b' (strverscmp_lt_of_le_of_lt (le_of_eq hab) hlt)
    · have hab' : strverscmp a.chrom b'.chrom = 0 := by
        rw [← strverscmp_congr_right heq]; exact hab
      obtain ⟨w1, i1⟩ := ha
      obtain ⟨w2, i2⟩ := hb
      obtain ⟨w3, i3⟩ := hb'
      cases adj
      · rw [compare_false_of_eq a b hab] at h
        rw [compare_false_of_eq a b' hab']
        split_ifs at h ⊢ <;> first | rfl | omega
      · rw [compare_true_of_eq a b hab] at h
        rw [compare_true_of_eq a b' hab']
        have j1 := i1 rfl
        have j2 := i2 rfl
        have j3 := i3 rfl
        simp only [j1, j2, j3] at h ⊢
        split_ifs at h ⊢ <;> first | rfl | omega
  · rw [compare_of_gt adj a b hab] at h; cases h

/-- The guard of `advanceSorted` accepts a record that follows its
predecessor in ascending order. -/
theorem guardOk_of_recLE (adj : Bool) {v p : Record} (hv : WellFormed adj v)
    (hp : WellFormed adj p) (hle : recLE v p) : GuardOk adj v p := by
  unfold GuardOk
  rcases hle with hlt | ⟨heq, hco⟩
  · rw [compare_of_gt adj p v (by rw [strverscmp_neg]; omega)]
    simp
  · have hpv : strverscmp p.chrom v.chrom = 0 := by rw [strverscmp_neg]; omega
    obtain ⟨w1, i1⟩ := hv
    obtain ⟨w2, i2⟩ := hp
    cases adj
    · rw [compare_false_of_eq p v hpv]
      split_ifs <;> first | (simp; done) | (exfalso; omega)
    · rw [compare_true_of_eq p v hpv]
      have j1 := i1 rfl
      have j2 := i2 rfl
      simp only [j1, j2]
      split_ifs <;> first | (simp; done) | (exfalso; omega)

/-- The guard accepts any well-formed record after a default-constructed
one (empty chromosome, `[0,0)`). -/
theorem guardOk_initial (adj : Bool) {v p : Record} (hc : v.chrom = "") (hs : v.start = 0)
    (he : v.stop = 0) (hp : WellFormed adj p) : GuardOk adj v p := by
  unfold GuardOk
  have hge : 0 ≤ strverscmp p.chrom v.chrom := by
    rw [hc]
    unfold strverscmp
    have : c_str "" = [] := rfl
    rw [this]
    cases hl : c_str p.chrom with
    | nil => simp [strverscmpFrom]
    | cons c rest =>
      have hc0 : c ≠ 0 := c_str_ne_zero p.chrom c (by rw [hl]; simp)
      have hlt : ¬ strverscmpFrom VState.S_N (c :: rest) [] < 0 := by
        simp only [strverscmpFrom, verResult_lt_iff, verKey, keyLt]
        split_ifs <;> simp <;> omega
      omega
  rcases lt_or_eq_of_le hge with hgt | heq
  · rw [compare_of_gt adj p v hgt]; simp
  · obtain ⟨w2, i2⟩ := hp
    cases adj
    · rw [compare_false_of_eq p v heq.symm]
      split_ifs <;> first | (simp; done) | (exfalso; omega)
    · rw [compare_true_of_eq p v heq.symm]
      have j2 := i2 rfl
      simp only [j2]
      split_ifs <;> first | (simp; done) | (exfalso; omega)

end IntersectFull

/-! ## `execute` on sorted streams -/

namespace IntersectFull

theorem hitsOf_view (wa wb : Bool) (l : List Call) : hitsOf (view wa wb l) = hitsOf l := by
  induction l with
  | nil => rfl
  | cons c l ih =>
    cases c with
    | hit a b => simp [view, keep, hitsOf] at ih ⊢; exact ih
    | missA a => cases wa <;> simp [view, keep, hitsOf] at ih ⊢ <;> exact ih
    | missB b => cases wb <;> simp [view, keep, hitsOf] at ih ⊢ <;> exact ih

theorem missAOf_view (wb : Bool) (l : List Call) : missAOf (view true wb l) = missAOf l := by
  induction l with
  | nil => rfl
  | cons c l ih =>
    cases c with
    | hit a b => simp [view, keep, missAOf] at ih ⊢; exact ih
    | missA a => simp [view, keep, missAOf] at ih ⊢; exact ih
    | missB b => cases wb <;> simp [view, keep, missAOf] at ih ⊢ <;> exact ih

theorem missBOf_view (wa : Bool) (l : List Call) : missBOf (view wa true l) = missBOf l := by
  induction l with
  | nil => rfl
  | cons c l ih =>
    cases c with
    | hit a b => simp [view, keep, missBOf] at ih ⊢; exact ih
    | missA a => cases wa <;> simp [view, keep, missBOf] at ih ⊢ <;> exact ih
    | missB b => simp [view, keep, missBOf] at ih ⊢; exact ih

theorem fresh_values (B : List Record) : (fresh B).map CacheEntry.value = B := by
  induction B with
  | nil => rfl
  | cons b rest ih => simp [fresh_cons, ih]

theorem chain_guard_of_sorted (adj : Bool) (v : Record) (l : List Record)
    (hv : WellFormed adj v) (hl : ∀ r ∈ l, WellFormed adj r) (h : List.Chain recLE v l) :
    List.Chain (GuardOk adj) v l := by
  induction l generalizing v with
  | nil => exact List.Chain.nil
  | cons p rest ih =>
    obtain ⟨h1, h2⟩ := List.chain_cons.1 h
    have hp := hl p (by simp)
    exact List.Chain.cons (guardOk_of_recLE adj hv hp h1)
      (ih p hp (fun r hr => hl r (by simp [hr])) h2)

theorem chain_guard_initial (adj : Bool) (v : Record) (l : List Record)
    (hc : v.chrom = "") (hs : v.start = 0) (he : v.stop = 0)
    (hl : ∀ r ∈ l, WellFormed adj r) (h : List.Chain' recLE l) :
    List.Chain (GuardOk adj) v l := by
  cases l with
  | nil => exact List.Chain.nil
  | cons p rest =>
    have hp := hl p (by simp)
    exact List.Chain.cons (guardOk_initial adj hc hs he hp)
      (chain_guard_of_sorted adj p rest hp (fun r hr => hl r (by simp [hr])) h)

theorem sortedAsc_iff_chain' (l : List Record) : SortedAsc l ↔ List.Chain' recLE l := by
  induction l with
  | nil => simp [SortedAsc]
  | cons x l ih =>
    cases l with
    | nil => simp [SortedAsc]
    | cons y l => rw [SortedAsc, ih, List.chain'_cons]

theorem pairwise_of_chain' (l : List Record) (h : List.Chain' recLE l) :
    List.Pairwise recLE l := by
  cases l with
  | nil => exact List.Pairwise.nil
  | cons p rest =>
    have hc : List.Chain recLE p rest := h
    haveI : IsTrans Record recLE := ⟨fun _ _ _ h1 h2 => recLE_trans h1 h2⟩
    rw [List.chain_iff_pairwise] at hc
    exact hc

theorem ordered_of_sorted (adj : Bool) (A B : List Record)
    (hA : List.Chain' recLE A) (hB : List.Chain' recLE B)
    (hwA : ∀ r ∈ A, WellFormed adj r) (hwB : ∀ r ∈ B, WellFormed adj r) :
    Ordered adj A B := by
  constructor
  · intro a ha
    exact List.Pairwise.imp_of_mem
      (fun {x y} hx hy hle hc => compare_before_mono adj (hwA a ha) (hwB x hx) (hwB y hy) hle hc)
      (pairwise_of_chain' B hB)
  · intro x hx
    exact List.Pairwise.imp_of_mem
      (fun {a a'} ha ha' hle hc =>
        compare_after_mono adj (hwA a ha) (hwA a' ha') (hwB x hx) hle hc)
      (pairwise_of_chain' A hA)

/-- On sorted streams of well-formed records, with a collector that answers
every `hit` with true, `execute` ends without an exception, consumes all of
stream A, and makes (in each view) the calls of the reference run. -/
theorem execute_sorted {σ : Type} (I : Setup σ) (wa wb : Bool) (F : Faithful I wa wb)
    (A B : Stream) (valueA valueB : Record) (rc : σ)
    (hA : SortedAsc A) (hB : SortedAsc B)
    (hwA : ∀ r ∈ A, WellFormed I.adjacentInsertions r)
    (hwB : ∀ r ∈ B, WellFormed I.adjacentInsertions r)
    (hvA : valueA.chrom = "" ∧ valueA.start = 0 ∧ valueA.stop = 0)
    (hvB : valueB.chrom = "" ∧ valueB.start = 0 ∧ valueB.stop = 0) :
    (execute I A B valueA valueB rc).error = none ∧
      (execute I A B valueA valueB rc).a = [] ∧
      view wa wb (execute I A B valueA valueB rc).rc.calls =
        view wa wb (refCalls I.adjacentInsertions A (fresh B)) := by
  rw [sortedAsc_iff_chain'] at hA hB
  have hord := ordered_of_sorted I.adjacentInsertions A B hA hB hwA hwB
  have hgA := chain_guard_initial I.adjacentInsertions valueA A hvA.1 hvA.2.1 hvA.2.2 hwA hA
  have hgB := chain_guard_initial I.adjacentInsertions valueB B hvB.1 hvB.2.1 hvB.2.2 hwB hB
  have := executeFrom_ref F A B valueA valueB [] ⟨rc, []⟩ hgA hgB (by
    intro a ha
    rw [List.nil_append, fresh_values]
    exact hord.1 a ha)
  refine ⟨this.1, this.2.1, ?_⟩
  have h3 := this.2.2
  rw [List.nil_append] at h3
  simpa [execute, view] using h3

theorem filter_unmatched_fresh (adj : Bool) (A B : List Record) :
    ((fresh B).filter (unmatched adj A)).map CacheEntry.value =
      B.filter (fun b => A.all (fun a => !intersects adj a b)) := by
  induction B with
  | nil => rfl
  | cons b rest ih =>
    rw [fresh_cons, List.filter_cons, List.filter_cons]
    have : unmatched adj A ⟨b, false⟩ = A.all (fun a => !intersects adj a b) := by
      simp [unmatched]
    rw [this]
    split
    · rw [List.map_cons, ih]
    · exact ih

/-- C1. For streams A and B sorted ascending by (chromosome, start, stop)
with `start <= stop` in every record, run with `adjacentInsertions = false`
and a collector whose `hit` returns true, the `hit` calls of `execute` are
exactly the pairs `(a, b)`, `a` from A and `b` from B, with
`compare(a,b) = INTERSECT`: each such pair of stream positions once, and no
other pair. -/
theorem execute_hits {σ : Type} (I : Setup σ) (A B : Stream) (rc : σ)
    (hadj : I.adjacentInsertions = false)
    (hhit : ∀ s a b, (I.collector.hit s a b).1 = true)
    (hA : SortedAsc A) (hB : SortedAsc B)
    (hwA : ∀ r ∈ A, r.start ≤ r.stop) (hwB : ∀ r ∈ B, r.start ≤ r.stop) :
    hitsOf (execute I A B Record.initial Record.initial rc).rc.calls =
      A.flatMap (fun a =>
        (B.filter (fun b => decide (compare false a b = Compare.INTERSECT))).map
          (fun b => (a, b))) := by
  have F : Faithful I false false :=
    ⟨hhit, fun h => Bool.noConfusion h, fun h => Bool.noConfusion h⟩
  have hwA' : ∀ r ∈ A, WellFormed I.adjacentInsertions r := fun r hr =>
    ⟨hwA r hr, fun h => by rw [hadj] at h; cases h⟩
  have hwB' : ∀ r ∈ B, WellFormed I.adjacentInsertions r := fun r hr =>
    ⟨hwB r hr, fun h => by rw [hadj] at h; cases h⟩
  have h := execute_sorted I false false F A B Record.initial Record.initial rc hA hB hwA' hwB'
    ⟨rfl, rfl, rfl⟩ ⟨rfl, rfl, rfl⟩
  have hord := ordered_of_sorted I.adjacentInsertions A B
    ((sortedAsc_iff_chain' A).1 hA) ((sortedAsc_iff_chain' B).1 hB) hwA' hwB'
  rw [← hitsOf_view false false, h.2.2, hitsOf_view, hitsOf_refCalls _ _ _
    (by rw [fresh_values]; exact hord), fresh_values, hadj]
  rfl

/-- C1, on A = `[3,6)` and B = `[4,5)`: exactly one hit. -/
theorem execute_hits_witness :
    (SortedAsc [(⟨"1", 3, 6, false, "a"⟩ : Record)] ∧
        SortedAsc [(⟨"1", 4, 5, false, "b"⟩ : Record)] ∧
        (∀ r ∈ [(⟨"1", 3, 6, false, "a"⟩ : Record)], r.start ≤ r.stop) ∧
        (∀ r ∈ [(⟨"1", 4, 5, false, "b"⟩ : Record)], r.start ≤ r.stop)) ∧
      hitsOf (execute ⟨"A", "B", constCollector true true true, false⟩
        [⟨"1", 3, 6, false, "a"⟩] [⟨"1", 4, 5, false, "b"⟩]
        Record.initial Record.initial ()).rc.calls =
        [(⟨"1", 3, 6, false, "a"⟩, ⟨"1", 4, 5, false, "b"⟩)] :=
  ⟨by decide,
    (execute_hits ⟨"A", "B", constCollector true true true, false⟩
      [⟨"1", 3, 6, false, "a"⟩] [⟨"1", 4, 5, false, "b"⟩] () rfl (fun _ _ _ => rfl)
      (by decide) (by decide) (by decide) (by decide)).trans (by decide)⟩

/-- C2, amended. For streams A and B sorted ascending by (chromosome, start,
stop), all of whose records have `start <= stop` and, when
`adjacentInsertions` is set, contain insertions exactly when they are
zero-length, with a collector whose `wantMissA()` is true and whose `hit`
returns true, the `missA` calls of `execute` are, in stream-A order, exactly
the records of A that compare INTERSECT with no record of B. -/
theorem execute_missA {σ : Type} (I : Setup σ) (A B : Stream) (rc : σ)
    (hhit : ∀ s a b, (I.collector.hit s a b).1 = true)
    (hwant : ∀ s, I.collector.wantMissA s = true)
    (hA : SortedAsc A) (hB : SortedAsc B)
    (hwA : ∀ r ∈ A, WellFormed I.adjacentInsertions r)
    (hwB : ∀ r ∈ B, WellFormed I.adjacentInsertions r) :
    missAOf (execute I A B Record.initial Record.initial rc).rc.calls =
      A.filter (fun a => B.all (fun b => !intersects I.adjacentInsertions a b)) := by
  have F : Faithful I true false := ⟨hhit, fun _ => hwant, fun h => Bool.noConfusion h⟩
  have h := execute_sorted I true false F A B Record.initial Record.initial rc hA hB hwA hwB
    ⟨rfl, rfl, rfl⟩ ⟨rfl, rfl, rfl⟩
  have hord := ordered_of_sorted I.adjacentInsertions A B
    ((sortedAsc_iff_chain' A).1 hA) ((sortedAsc_iff_chain' B).1 hB) hwA hwB
  rw [← missAOf_view false, h.2.2, missAOf_view, missAOf_refCalls _ _ _
    (by rw [fresh_values]; exact hord), fresh_values]

/-- C2, on A = `[3,6)` and B = `[7,10)`: A is reported as a miss and there
is no hit. -/
theorem execute_missA_witness :
    (SortedAsc [(⟨"1", 3, 6, false, "a"⟩ : Record)] ∧
        SortedAsc [(⟨"1", 7, 10, false, "b"⟩ : Record)] ∧
        (∀ r ∈ [(⟨"1", 3, 6, false, "a"⟩ : Record)], WellFormed false r) ∧
        (∀ r ∈ [(⟨"1", 7, 10, false, "b"⟩ : Record)], WellFormed false r)) ∧
      missAOf (execute ⟨"A", "B", constCollector true true true, false⟩
        [⟨"1", 3, 6, false, "a"⟩] [⟨"1", 7, 10, false, "b"⟩]
        Record.initial Record.initial ()).rc.calls = [⟨"1", 3, 6, false, "a"⟩] ∧
      hitsOf (execute ⟨"A", "B", constCollector true true true, false⟩
        [⟨"1", 3, 6, false, "a"⟩] [⟨"1", 7, 10, false, "b"⟩]
        Record.initial Record.initial ()).rc.calls = [] :=
  ⟨by decide,
    (execute_missA ⟨"A", "B", constCollector true true true, false⟩
      [⟨"1", 3, 6, false, "a"⟩] [⟨"1", 7, 10, false, "b"⟩] () (fun _ _ _ => rfl)
      (fun _ => rfl) (by decide) (by decide) (by decide) (by decide)).trans (by decide),
    by decide⟩

/-- C3, amended. For streams A and B sorted ascending by (chromosome, start,
stop), all of whose records have `start <= stop` and, when
`adjacentInsertions` is set, contain insertions exactly when they are
zero-length, with a collector whose `wantMissB()` is true and whose `hit`
returns true, the `missB` calls of `execute` are, up to their order, exactly
the records of B that compare INTERSECT with no record of A, each stream
position once. -/
theorem execute_missB {σ : Type} (I : Setup σ) (A B : Stream) (rc : σ)
    (hhit : ∀ s a b, (I.collector.hit s a b).1 = true)
    (hwant : ∀ s, I.collector.wantMissB s = true)
    (hA : SortedAsc A) (hB : SortedAsc B)
    (hwA : ∀ r ∈ A, WellFormed I.adjacentInsertions r)
    (hwB : ∀ r ∈ B, WellFormed I.adjacentInsertions r) :
    (missBOf (execute I A B Record.initial Record.initial rc).rc.calls).Perm
      (B.filter (fun b => A.all (fun a => !intersects I.adjacentInsertions a b))) := by
  have F : Faithful I false true := ⟨hhit, fun h => Bool.noConfusion h, fun _ => hwant⟩
  have h := execute_sorted I false true F A B Record.initial Record.initial rc hA hB hwA hwB
    ⟨rfl, rfl, rfl⟩ ⟨rfl, rfl, rfl⟩
  have hord := ordered_of_sorted I.adjacentInsertions A B
    ((sortedAsc_iff_chain' A).1 hA) ((sortedAsc_iff_chain' B).1 hB) hwA hwB
  rw [← missBOf_view false, h.2.2, missBOf_view, ← filter_unmatched_fresh]
  exact missBOf_refCalls _ _ _ (by rw [fresh_values]; exact hord)

/-- C3, on A = `[3,6)`, `[20,30)` and B = `[1,2)`, `[4,5)`, `[8,9)`,
`[40,50)` with adjacent insertions enabled: `[1,2)` is skipped, `[8,9)` is
evicted from the cache, `[40,50)` is drained at the end, and `[4,5)`, which
`[3,6)` hits, is not reported. -/
theorem execute_missB_witness :
    (SortedAsc [(⟨"1", 3, 6, false, "a1"⟩ : Record), ⟨"1", 20, 30, false, "a2"⟩] ∧
        SortedAsc [(⟨"1", 1, 2, false, "b1"⟩ : Record), ⟨"1", 4, 5, false, "b2"⟩,
          ⟨"1", 8, 9, false, "b3"⟩, ⟨"1", 40, 50, false, "b4"⟩] ∧
        (∀ r ∈ [(⟨"1", 3, 6, false, "a1"⟩ : Record), ⟨"1", 20, 30, false, "a2"⟩],
          WellFormed true r) ∧
        (∀ r ∈ [(⟨"1", 1, 2, false, "b1"⟩ : Record), ⟨"1", 4, 5, false, "b2"⟩,
          ⟨"1", 8, 9, false, "b3"⟩, ⟨"1", 40, 50, false, "b4"⟩], WellFormed true r)) ∧
      (missBOf (execute ⟨"A", "B", constCollector true true true, true⟩
        [⟨"1", 3, 6, false, "a1"⟩, ⟨"1", 20, 30, false, "a2"⟩]
        [⟨"1", 1, 2, false, "b1"⟩, ⟨"1", 4, 5, false, "b2"⟩, ⟨"1", 8, 9, false, "b3"⟩,
          ⟨"1", 40, 50, false, "b4"⟩]
        Record.initial Record.initial ()).rc.calls).Perm
        [⟨"1", 1, 2, false, "b1"⟩, ⟨"1", 8, 9, false, "b3"⟩, ⟨"1", 40, 50, false, "b4"⟩] :=
  ⟨by decide,
    execute_missB ⟨"A", "B", constCollector true true true, true⟩
      [⟨"1", 3, 6, false, "a1"⟩, ⟨"1", 20, 30, false, "a2"⟩]
      [⟨"1", 1, 2, false, "b1"⟩, ⟨"1", 4, 5, false, "b2"⟩, ⟨"1", 8, 9, false, "b3"⟩,
        ⟨"1", 40, 50, false, "b4"⟩] () (fun _ _ _ => rfl)
      (fun _ => rfl) (by decide) (by decide) (by decide) (by decide)⟩

end IntersectFull

/-! ## Numeric runs are compared by value -/

theorem decVal_cons (v c : Nat) (l : List Nat) :
    decVal v (c :: l) = decVal (10 * v + (c - 48)) l := rfl

namespace IntersectFull

end IntersectFull


/-! ## `compare` under exchange of its arguments -/

namespace IntersectFull

/-- C20. With `adjacentInsertions = false`, for two records on the same
chromosome with `start <= stop`, exchanging the arguments of `compare`
exchanges BEFORE and AFTER and keeps INTERSECT: `compare(a,b)` is BEFORE
exactly when `compare(b,a)` is AFTER, and `compare(a,b)` is INTERSECT exactly
when `compare(b,a)` is. -/
theorem compare_swap (a b : Record) (hc : a.chrom = b.chrom)
    (ha : a.start ≤ a.stop) (hb : b.start ≤ b.stop) :
    (compare false a b = Compare.BEFORE ↔ compare false b a = Compare.AFTER) ∧
      (compare false a b = Compare.INTERSECT ↔ compare false b a = Compare.INTERSECT) := by
  have h0 : strverscmp a.chrom b.chrom = 0 := by rw [hc]; exact strverscmp_self _
  have h1 : strverscmp b.chrom a.chrom = 0 := by rw [hc]; exact strverscmp_self _
  rw [compare_false_of_eq a b h0, compare_false_of_eq b a h1]
  split_ifs <;>
    simp only [reduceCtorEq, true_and, and_true, iff_true, iff_false, not_false_eq_true,
      not_true_eq_false, and_self] <;>
    omega

/-- C20, at the records `[3,5)` and `[5,9)` of one chromosome: BEFORE in
this order, hence AFTER in the other. -/
theorem compare_swap_witness :
    (3 ≤ 5 ∧ 5 ≤ 9) ∧
      compare false ⟨"1", 5, 9, false, "b"⟩ ⟨"1", 3, 5, false, "a"⟩ = Compare.AFTER :=
  ⟨by decide,
    (compare_swap ⟨"1", 3, 5, false, "a"⟩ ⟨"1", 5, 9, false, "b"⟩ rfl
      (by decide) (by decide)).1.1 (by decide)⟩

end IntersectFull


/-! ## The log of a run is a thinning of the reference run -/

namespace IntersectFull

theorem thin_trans {c0 c1 c2 r1 r2 : List Call}
    (h1 : ∃ d, c1 = c0 ++ d ∧ d.Sublist r1) (h2 : ∃ d, c2 = c1 ++ d ∧ d.Sublist r2) :
    ∃ d, c2 = c0 ++ d ∧ d.Sublist (r1 ++ r2) := by
  obtain ⟨d1, e1, s1⟩ := h1
  obtain ⟨d2, e2, s2⟩ := h2
  exact ⟨d1 ++ d2, by rw [e2, e1, List.append_assoc], s1.append s2⟩

section Thin

variable {σ : Type} (I : Setup σ)

theorem wantMissB_thin (v : Record) (rc : Rc σ) :
    ∃ d, (if I.collector.wantMissB rc.state then rc.missB I.collector v else rc).calls =
      rc.calls ++ d ∧ d.Sublist [Call.missB v] := by
  cases hw : I.collector.wantMissB rc.state with
  | true => exact ⟨[Call.missB v], by simp [Rc.missB], List.Sublist.refl _⟩
  | false => exact ⟨[], by simp, List.nil_sublist _⟩

theorem cacheRemove_thin (e : CacheEntry) (rc : Rc σ) :
    ∃ d, (cacheRemove I e rc).calls = rc.calls ++ d ∧ d.Sublist (evict e) := by
  unfold cacheRemove evict
  cases he : e.hit with
  | true => exact ⟨[], by simp, List.nil_sublist _⟩
  | false =>
    simp only [Bool.not_false, Bool.true_and, Bool.false_eq_true, if_false]
    exact wantMissB_thin I e.value rc

theorem hit_thin (a b : Record) (rc : Rc σ) :
    ∃ d, (rc.hit I.collector a b).2.calls = rc.calls ++ d ∧ d.Sublist [Call.hit a b] :=
  ⟨[Call.hit a b], rfl, List.Sublist.refl _⟩

theorem checkCache_thin (a : Record) (cache : List CacheEntry) (rc : Rc σ) :
    ∃ d, (checkCache I a cache rc).2.2.calls = rc.calls ++ d ∧
      d.Sublist (scanCalls I.adjacentInsertions a cache) := by
  induction cache generalizing rc with
  | nil => exact ⟨[], by simp [checkCache], List.nil_sublist _⟩
  | cons e rest ih =>
    simp only [checkCache, scanCalls]
    rcases Compare.cases3 (compare I.adjacentInsertions a e.value) with hc | hc | hc
    · rw [hc]; exact ⟨[], by simp, List.nil_sublist _⟩
    · rw [hc]; exact thin_trans (cacheRemove_thin I e rc) (ih _)
    · rw [hc]; exact thin_trans (hit_thin I a e.value rc) (ih _)

theorem pullB_thin (a : Record) (b : Stream) (valueB : Record) (hitA : Bool)
    (cache : List CacheEntry) (rc : Rc σ) :
    ∃ d, (pullB I a b valueB hitA cache rc).rc.calls = rc.calls ++ d ∧
      d.Sublist (scanCalls I.adjacentInsertions a (fresh b)) := by
  induction b generalizing valueB hitA cache rc with
  | nil => exact ⟨[], by simp [pullB], List.nil_sublist _⟩
  | cons peek rest ih =>
    cases hadv : advanceSorted I.adjacentInsertions I.bName peek valueB with
    | error err => exact ⟨[], by simp [pullB, hadv], List.nil_sublist _⟩
    | ok v =>
      obtain ⟨rfl, _⟩ := advanceSorted_ok hadv
      rw [fresh_cons]
      simp only [pullB, hadv, scanCalls]
      rcases Compare.cases3 (compare I.adjacentInsertions a v) with hc | hc | hc
      · rw [hc]; exact ⟨[], by simp, List.nil_sublist _⟩
      · rw [hc]
        exact thin_trans (wantMissB_thin I v rc) (ih _ _ _ _)
      · rw [hc]; exact thin_trans (hit_thin I a v rc) (ih _ _ _ _)

theorem drainCache_thin (cache : List CacheEntry) (rc : Rc σ) :
    ∃ d, (drainCache I cache rc).2.calls = rc.calls ++ d ∧
      d.Sublist (cache.flatMap evict) := by
  induction cache generalizing rc with
  | nil => exact ⟨[], by simp [drainCache], List.nil_sublist _⟩
  | cons e rest ih =>
    simp only [drainCache]
    cases hw : I.collector.wantMissB rc.state with
    | true =>
      simp only [if_true, List.flatMap_cons]
      exact thin_trans (cacheRemove_thin I e rc) (ih _)
    | false => exact ⟨[], by simp, List.nil_sublist _⟩

theorem drainB_thin (b : Stream) (valueB : Record) (cache : List CacheEntry) (rc : Rc σ) :
    ∃ d, (drainB I b valueB cache rc).rc.calls = rc.calls ++ d ∧
      d.Sublist ((fresh b).flatMap evict) := by
  induction b generalizing valueB rc with
  | nil => exact ⟨[], by simp [drainB], List.nil_sublist _⟩
  | cons peek rest ih =>
    simp only [drainB]
    cases hw : I.collector.wantMissB rc.state with
    | false => exact ⟨[], by simp, List.nil_sublist _⟩
    | true =>
      simp only [if_true]
      cases hadv : advanceSorted I.adjacentInsertions I.bName peek valueB with
      | error err => exact ⟨[], by simp, List.nil_sublist _⟩
      | ok v =>
        obtain ⟨rfl, _⟩ := advanceSorted_ok hadv
        rw [fresh_cons, List.flatMap_cons]
        have h1 : ∃ d, (rc.missB I.collector v).calls = rc.calls ++ d ∧
            d.Sublist (evict ⟨v, false⟩) :=
          ⟨[Call.missB v], rfl, by simp [evict]⟩
        exact thin_trans h1 (ih _ _)

end Thin

end IntersectFull

namespace IntersectFull

section ThinRun

variable {σ : Type} {I : Setup σ} (hhit : ∀ s a b, (I.collector.hit s a b).1 = true)
include hhit

theorem processA_thin (a : Record) (b : Stream) (valueB : Record) (cache : List CacheEntry)
    (rc : Rc σ) (hg : List.Chain (GuardOk I.adjacentInsertions) valueB b)
    (hBC : BeforeClosed I.adjacentInsertions a ((cache ++ fresh b).map CacheEntry.value)) :
    ∃ d, (processA I a b valueB cache rc).rc.calls = rc.calls ++ d ∧
      d.Sublist (scanCalls I.adjacentInsertions a (cache ++ fresh b) ++
        (if scanHit I.adjacentInsertions a (cache ++ fresh b) then [] else [Call.missA a])) := by
  have F : Faithful I false false :=
    ⟨hhit, fun h => Bool.noConfusion h, fun h => Bool.noConfusion h⟩
  have hsplit : ∀ e ∈ cache, ∀ x ∈ fresh b,
      compare I.adjacentInsertions a e.value = Compare.BEFORE →
        compare I.adjacentInsertions a x.value = Compare.BEFORE := by
    intro e he x hx
    unfold BeforeClosed at hBC
    rw [List.map_append, List.pairwise_append] at hBC
    exact hBC.2.2 e.value (List.mem_map_of_mem _ he) x.value (List.mem_map_of_mem _ hx)
  have hs := scan_append I.adjacentInsertions a cache (fresh b) hsplit
  have hcc := checkCache_ref F a cache rc
  have hp := pullB_ref F a b valueB (checkCache I a cache rc).1 (checkCache I a cache rc).2.1
    (checkCache I a cache rc).2.2 hg
  have ht := thin_trans (checkCache_thin I a cache rc)
    (pullB_thin I a b valueB (checkCache I a cache rc).1 (checkCache I a cache rc).2.1
      (checkCache I a cache rc).2.2)
  rw [← hs.2.1] at ht
  rw [processA_eq]
  generalize pullB I a b valueB (checkCache I a cache rc).1 (checkCache I a cache rc).2.1
    (checkCache I a cache rc).2.2 = pulled at hp ht ⊢
  obtain ⟨hp1, _, hp3, _, _⟩ := hp
  rw [hp1]
  simp only
  have hh : pulled.hitA = scanHit I.adjacentInsertions a (cache ++ fresh b) := by
    rw [hp3, hcc.1, hs.2.2]
  rw [← hh]
  split
  · next hcond =>
    simp only [Bool.and_eq_true, Bool.not_eq_true'] at hcond
    rw [hcond.1]
    simp only [Bool.false_eq_true, if_false]
    exact thin_trans ht ⟨[Call.missA a], rfl, List.Sublist.refl _⟩
  · exact thin_trans ht ⟨[], by simp, List.nil_sublist _⟩

theorem executeFrom_thin (A b : Stream) (valueA valueB : Record) (cache : List CacheEntry)
    (rc : Rc σ) (hgA : List.Chain (GuardOk I.adjacentInsertions) valueA A)
    (hgB : List.Chain (GuardOk I.adjacentInsertions) valueB b)
    (hBC : ∀ a ∈ A,
      BeforeClosed I.adjacentInsertions a ((cache ++ fresh b).map CacheEntry.value)) :
    ∃ d, (executeFrom I A b valueA valueB cache rc).rc.calls = rc.calls ++ d ∧
      d.Sublist (refCalls I.adjacentInsertions A (cache ++ fresh b)) := by
  have F : Faithful I false false :=
    ⟨hhit, fun h => Bool.noConfusion h, fun h => Bool.noConfusion h⟩
  induction A generalizing b valueA valueB cache rc with
  | nil =>
    simp only [executeFrom, refCalls, List.flatMap_append]
    exact thin_trans (drainCache_thin I cache rc) (drainB_thin I b valueB _ _)
  | cons a rest ih =>
    obtain ⟨hg1, hg2⟩ := List.chain_cons.1 hgA
    have hadv : advanceSorted I.adjacentInsertions I.aName a valueA = Except.ok a := by
      unfold advanceSorted
      rw [if_neg hg1]
    have hp := processA_ref F a b valueB cache rc hgB (hBC a (by simp))
    have ht := processA_thin hhit a b valueB cache rc hgB (hBC a (by simp))
    simp only [executeFrom, hadv, refCalls]
    generalize processA I a b valueB cache rc = s at hp ht ⊢
    obtain ⟨hp1, hp2, hp3, _⟩ := hp
    rw [hp1]
    simp only
    have hBC' : ∀ a' ∈ rest, BeforeClosed I.adjacentInsertions a'
        ((s.cache ++ fresh s.b).map CacheEntry.value) := by
      intro a' ha'
      rw [hp3]
      exact (hBC a' (by simp [ha'])).scanKeep a
    have := ih s.b a s.valueB s.cache s.rc hg2 hp2 hBC'
    rw [hp3] at this
    exact thin_trans ht this

end ThinRun

theorem missAOf_sublist {l1 l2 : List Call} (h : l1.Sublist l2) :
    (missAOf l1).Sublist (missAOf l2) := by
  induction h with
  | slnil => exact List.Sublist.refl _
  | cons c _ ih => cases c <;> simp only [missAOf] <;> first | exact ih | exact ih.cons _
  | cons₂ c _ ih => cases c <;> simp only [missAOf] <;> first | exact ih | exact ih.cons₂ _

theorem missBOf_sublist {l1 l2 : List Call} (h : l1.Sublist l2) :
    (missBOf l1).Sublist (missBOf l2) := by
  induction h with
  | slnil => exact List.Sublist.refl _
  | cons c _ ih => cases c <;> simp only [missBOf] <;> first | exact ih | exact ih.cons _
  | cons₂ c _ ih => cases c <;> simp only [missBOf] <;> first | exact ih | exact ih.cons₂ _

/-- On sorted streams of well-formed records, with a collector that answers
every `hit` with true, the log of `execute` is the log of the reference run
with some miss reports left out. -/
theorem execute_thin {σ : Type} (I : Setup σ)
    (hhit : ∀ s a b, (I.collector.hit s a b).1 = true)
    (A B : Stream) (valueA valueB : Record) (rc : σ)
    (hA : SortedAsc A) (hB : SortedAsc B)
    (hwA : ∀ r ∈ A, WellFormed I.adjacentInsertions r)
    (hwB : ∀ r ∈ B, WellFormed I.adjacentInsertions r)
    (hvA : valueA.chrom = "" ∧ valueA.start = 0 ∧ valueA.stop = 0)
    (hvB : valueB.chrom = "" ∧ valueB.start = 0 ∧ valueB.stop = 0) :
    (execute I A B valueA valueB rc).rc.calls.Sublist
      (refCalls I.adjacentInsertions A (fresh B)) := by
  rw [sortedAsc_iff_chain'] at hA hB
  have hord := ordered_of_sorted I.adjacentInsertions A B hA hB hwA hwB
  have hgA := chain_guard_initial I.adjacentInsertions valueA A hvA.1 hvA.2.1 hvA.2.2 hwA hA
  have hgB := chain_guard_initial I.adjacentInsertions valueB B hvB.1 hvB.2.1 hvB.2.2 hwB hB
  obtain ⟨d, hd, hs⟩ := executeFrom_thin hhit A B valueA valueB [] ⟨rc, []⟩ hgA hgB (by
    intro a ha
    rw [List.nil_append, fresh_values]
    exact hord.1 a ha)
  rw [List.nil_append] at hs
  unfold execute
  rw [hd]
  simpa using hs

end IntersectFull

/-! ## Intersecting records and the miss reports -/

namespace IntersectFull

/-- C18, refuted as stated, seven runs without an `UnsortedDataError`, all
records having `start <= stop`.
(1) With a collector whose `hit` returns false, the records `[3,6)` of A and
`[4,5)` of B compare INTERSECT and `hit` is called for them, yet the A-record
is reported through `missA` and the B-record through `missB`.
In the other runs `hit` returns true.
(2) B not sorted, `[10,11)` then `[5,6)`: the record `[5,6)` of A is reported
through `missA` although it compares INTERSECT with the second record of B.
(3) A not sorted, `[5,10)` then `[3,7)`, and B = `[3,4)`: the record `[3,7)`
is reported through `missA` and `[3,4)` through `missB` although they compare
INTERSECT.
In the remaining runs both streams are sorted and `adjacentInsertions` is
set.
(4) A = `[2,6)`, B = `[6,7)` then `[6,8)`, the latter containing insertions
without being zero-length: it compares INTERSECT with the record of A, yet
that is reported through `missA` and both records of B through `missB`.
(5) The same with B = `[6,6)` twice, only the second containing insertions.
(6) A = `[3,5)` then `[3,9)`, the latter containing insertions without being
zero-length, B = `[1,3)`: they compare INTERSECT, yet both records of A are
reported through `missA` and the record of B through `missB`.
(7) The same with A = `[3,3)` twice, only the second containing
insertions. -/
theorem execute_intersect_counterexample :
    (SortedAsc [(⟨"1", 3, 6, false, "a"⟩ : Record)] ∧
      SortedAsc [(⟨"1", 4, 5, false, "b"⟩ : Record)] ∧
      (∀ r ∈ [(⟨"1", 3, 6, false, "a"⟩ : Record), ⟨"1", 4, 5, false, "b"⟩], r.start ≤ r.stop) ∧
      compare false ⟨"1", 3, 6, false, "a"⟩ ⟨"1", 4, 5, false, "b"⟩ = Compare.INTERSECT ∧
      (execute ⟨"A", "B", constCollector false true true, false⟩ [⟨"1", 3, 6, false, "a"⟩]
        [⟨"1", 4, 5, false, "b"⟩] Record.initial Record.initial ()).error = none ∧
      hitsOf (execute ⟨"A", "B", constCollector false true true, false⟩ [⟨"1", 3, 6, false, "a"⟩]
        [⟨"1", 4, 5, false, "b"⟩] Record.initial Record.initial ()).rc.calls =
        [(⟨"1", 3, 6, false, "a"⟩, ⟨"1", 4, 5, false, "b"⟩)] ∧
      missAOf (execute ⟨"A", "B", constCollector false true true, false⟩ [⟨"1", 3, 6, false, "a"⟩]
        [⟨"1", 4, 5, false, "b"⟩] Record.initial Record.initial ()).rc.calls =
        [⟨"1", 3, 6, false, "a"⟩] ∧
      missBOf (execute ⟨"A", "B", constCollector false true true, false⟩ [⟨"1", 3, 6, false, "a"⟩]
        [⟨"1", 4, 5, false, "b"⟩] Record.initial Record.initial ()).rc.calls =
        [⟨"1", 4, 5, false, "b"⟩]) ∧
      (SortedAsc [(⟨"1", 5, 6, false, "a"⟩ : Record)] ∧
        (∀ r ∈ [(⟨"1", 5, 6, false, "a"⟩ : Record), ⟨"1", 10, 11, false, "b1"⟩,
          ⟨"1", 5, 6, false, "b2"⟩], r.start ≤ r.stop) ∧
        compare false ⟨"1", 5, 6, false, "a"⟩ ⟨"1", 5, 6, false, "b2"⟩ = Compare.INTERSECT ∧
        (execute ⟨"A", "B", constCollector true true false, false⟩ [⟨"1", 5, 6, false, "a"⟩]
          [⟨"1", 10, 11, false, "b1"⟩, ⟨"1", 5, 6, false, "b2"⟩] Record.initial Record.initial
          ()).error = none ∧
        missAOf (execute ⟨"A", "B", constCollector true true false, false⟩
          [⟨"1", 5, 6, false, "a"⟩] [⟨"1", 10, 11, false, "b1"⟩, ⟨"1", 5, 6, false, "b2"⟩]
          Record.initial Record.initial ()).rc.calls = [⟨"1", 5, 6, false, "a"⟩]) ∧
      (SortedAsc [(⟨"1", 3, 4, false, "b"⟩ : Record)] ∧
        (∀ r ∈ [(⟨"1", 5, 10, false, "a1"⟩ : Record), ⟨"1", 3, 7, false, "a2"⟩,
          ⟨"1", 3, 4, false, "b"⟩], r.start ≤ r.stop) ∧
        compare false ⟨"1", 3, 7, false, "a2"⟩ ⟨"1", 3, 4, false, "b"⟩ = Compare.INTERSECT ∧
        (execute ⟨"A", "B", constCollector true true true, false⟩ [⟨"1", 5, 10, false, "a1"⟩,
          ⟨"1", 3, 7, false, "a2"⟩] [⟨"1", 3, 4, false, "b"⟩] Record.initial Record.initial
          ()).error = none ∧
        missAOf (execute ⟨"A", "B", constCollector true true true, false⟩
          [⟨"1", 5, 10, false, "a1"⟩, ⟨"1", 3, 7, false, "a2"⟩] [⟨"1", 3, 4, false, "b"⟩]
          Record.initial Record.initial ()).rc.calls = [⟨"1", 5, 10, false, "a1"⟩,
          ⟨"1", 3, 7, false, "a2"⟩] ∧
        missBOf (execute ⟨"A", "B", constCollector true true true, false⟩
          [⟨"1", 5, 10, false, "a1"⟩, ⟨"1", 3, 7, false, "a2"⟩] [⟨"1", 3, 4, false, "b"⟩]
          Record.initial Record.initial ()).rc.calls = [⟨"1", 3, 4, false, "b"⟩]) ∧
      (SortedAsc [(⟨"1", 2, 6, false, "a"⟩ : Record)] ∧
        SortedAsc [(⟨"1", 6, 7, false, "b1"⟩ : Record), ⟨"1", 6, 8, true, "b2"⟩] ∧
        (∀ r ∈ [(⟨"1", 2, 6, false, "a"⟩ : Record), ⟨"1", 6, 7, false, "b1"⟩,
          ⟨"1", 6, 8, true, "b2"⟩], r.start ≤ r.stop) ∧
        compare true ⟨"1", 2, 6, false, "a"⟩ ⟨"1", 6, 8, true, "b2"⟩ = Compare.INTERSECT ∧
        (execute ⟨"A", "B", constCollector true true true, true⟩ [⟨"1", 2, 6, false, "a"⟩]
          [⟨"1", 6, 7, false, "b1"⟩, ⟨"1", 6, 8, true, "b2"⟩] Record.initial Record.initial
          ()).error = none ∧
        missAOf (execute ⟨"A", "B", constCollector true true true, true⟩ [⟨"1", 2, 6, false, "a"⟩]
          [⟨"1", 6, 7, false, "b1"⟩, ⟨"1", 6, 8, true, "b2"⟩] Record.initial Record.initial
          ()).rc.calls = [⟨"1", 2, 6, false, "a"⟩] ∧
        missBOf (execute ⟨"A", "B", constCollector true true true, true⟩ [⟨"1", 2, 6, false, "a"⟩]
          [⟨"1", 6, 7, false, "b1"⟩, ⟨"1", 6, 8, true, "b2"⟩] Record.initial Record.initial
          ()).rc.calls = [⟨"1", 6, 7, false, "b1"⟩, ⟨"1", 6, 8, true, "b2"⟩]) ∧
      (SortedAsc [(⟨"1", 2, 6, false, "a"⟩ : Record)] ∧
        SortedAsc [(⟨"1", 6, 6, false, "b1"⟩ : Record), ⟨"1", 6, 6, true, "b2"⟩] ∧
        (∀ r ∈ [(⟨"1", 2, 6, false, "a"⟩ : Record), ⟨"1", 6, 6, false, "b1"⟩,
          ⟨"1", 6, 6, true, "b2"⟩], r.start ≤ r.stop) ∧
        compare true ⟨"1", 2, 6, false, "a"⟩ ⟨"1", 6, 6, true, "b2"⟩ = Compare.INTERSECT ∧
        (execute ⟨"A", "B", constCollector true true true, true⟩ [⟨"1", 2, 6, false, "a"⟩]
          [⟨"1", 6, 6, false, "b1"⟩, ⟨"1", 6, 6, true, "b2"⟩] Record.initial Record.initial
          ()).error = none ∧
        missAOf (execute ⟨"A", "B", constCollector true true true, true⟩ [⟨"1", 2, 6, false, "a"⟩]
          [⟨"1", 6, 6, false, "b1"⟩, ⟨"1", 6, 6, true, "b2"⟩] Record.initial Record.initial
          ()).rc.calls = [⟨"1", 2, 6, false, "a"⟩] ∧
        missBOf (execute ⟨"A", "B", constCollector true true true, true⟩ [⟨"1", 2, 6, false, "a"⟩]
          [⟨"1", 6, 6, false, "b1"⟩, ⟨"1", 6, 6, true, "b2"⟩] Record.initial Record.initial
          ()).rc.calls = [⟨"1", 6, 6, false, "b1"⟩, ⟨"1", 6, 6, true, "b2"⟩]) ∧
      (SortedAsc [(⟨"1", 3, 5, false, "a1"⟩ : Record), ⟨"1", 3, 9, true, "a2"⟩] ∧
        SortedAsc [(⟨"1", 1, 3, false, "b"⟩ : Record)] ∧
        (∀ r ∈ [(⟨"1", 3, 5, false, "a1"⟩ : Record), ⟨"1", 3, 9, true, "a2"⟩,
          ⟨"1", 1, 3, false, "b"⟩], r.start ≤ r.stop) ∧
        compare true ⟨"1", 3, 9, true, "a2"⟩ ⟨"1", 1, 3, false, "b"⟩ = Compare.INTERSECT ∧
        (execute ⟨"A", "B", constCollector true true true, true⟩ [⟨"1", 3, 5, false, "a1"⟩,
          ⟨"1", 3, 9, true, "a2"⟩] [⟨"1", 1, 3, false, "b"⟩] Record.initial Record.initial
          ()).error = none ∧
        missAOf (execute ⟨"A", "B", constCollector true true true, true⟩
          [⟨"1", 3, 5, false, "a1"⟩, ⟨"1", 3, 9, true, "a2"⟩] [⟨"1", 1, 3, false, "b"⟩]
          Record.initial Record.initial ()).rc.calls = [⟨"1", 3, 5, false, "a1"⟩,
          ⟨"1", 3, 9, true, "a2"⟩] ∧
        missBOf (execute ⟨"A", "B", constCollector true true true, true⟩
          [⟨"1", 3, 5, false, "a1"⟩, ⟨"1", 3, 9, true, "a2"⟩] [⟨"1", 1, 3, false, "b"⟩]
          Record.initial Record.initial ()).rc.calls = [⟨"1", 1, 3, false, "b"⟩]) ∧
      (SortedAsc [(⟨"1", 3, 3, false, "a1"⟩ : Record), ⟨"1", 3, 3, true, "a2"⟩] ∧
        SortedAsc [(⟨"1", 1, 3, false, "b"⟩ : Record)] ∧
        (∀ r ∈ [(⟨"1", 3, 3, false, "a1"⟩ : Record), ⟨"1", 3, 3, true, "a2"⟩,
          ⟨"1", 1, 3, false, "b"⟩], r.start ≤ r.stop) ∧
        compare true ⟨"1", 3, 3, true, "a2"⟩ ⟨"1", 1, 3, false, "b"⟩ = Compare.INTERSECT ∧
        (execute ⟨"A", "B", constCollector true true true, true⟩ [⟨"1", 3, 3, false, "a1"⟩,
          ⟨"1", 3, 3, true, "a2"⟩] [⟨"1", 1, 3, false, "b"⟩] Record.initial Record.initial
          ()).error = none ∧
        missAOf (execute ⟨"A", "B", constCollector true true true, true⟩
          [⟨"1", 3, 3, false, "a1"⟩, ⟨"1", 3, 3, true, "a2"⟩] [⟨"1", 1, 3, false, "b"⟩]
          Record.initial Record.initial ()).rc.calls = [⟨"1", 3, 3, false, "a1"⟩,
          ⟨"1", 3, 3, true, "a2"⟩] ∧
        missBOf (execute ⟨"A", "B", constCollector true true true, true⟩
          [⟨"1", 3, 3, false, "a1"⟩, ⟨"1", 3, 3, true, "a2"⟩] [⟨"1", 1, 3, false, "b"⟩]
          Record.initial Record.initial ()).rc.calls = [⟨"1", 1, 3, false, "b"⟩]) := by
  decide

/-- C18, amended. For streams A and B sorted ascending by (chromosome,
start, stop), all of whose records have `start <= stop` and, when
`adjacentInsertions` is set, contain insertions exactly when they are
zero-length, and every collector whose `hit` returns true (whatever its
`wantMissA` and `wantMissB` answer): a record reported through `missA`
compares INTERSECT with no record of B, and a record reported through
`missB` compares INTERSECT with no record of A. -/
theorem execute_intersect_not_missed {σ : Type} (I : Setup σ) (A B : Stream) (rc : σ)
    (hhit : ∀ s a b, (I.collector.hit s a b).1 = true)
    (hA : SortedAsc A) (hB : SortedAsc B)
    (hwA : ∀ r ∈ A, WellFormed I.adjacentInsertions r)
    (hwB : ∀ r ∈ B, WellFormed I.adjacentInsertions r) :
    (∀ a ∈ missAOf (execute I A B Record.initial Record.initial rc).rc.calls,
        ∀ b ∈ B, compare I.adjacentInsertions a b ≠ Compare.INTERSECT) ∧
      (∀ b ∈ missBOf (execute I A B Record.initial Record.initial rc).rc.calls,
        ∀ a ∈ A, compare I.adjacentInsertions a b ≠ Compare.INTERSECT) := by
  have hsub := execute_thin I hhit A B Record.initial Record.initial rc hA hB hwA hwB
    ⟨rfl, rfl, rfl⟩ ⟨rfl, rfl, rfl⟩
  have hord := ordered_of_sorted I.adjacentInsertions A B
    ((sortedAsc_iff_chain' A).1 hA) ((sortedAsc_iff_chain' B).1 hB) hwA hwB
  have hord' : Ordered I.adjacentInsertions A ((fresh B).map CacheEntry.value) := by
    rw [fresh_values]; exact hord
  constructor
  · intro a ha b hb
    have h1 := (missAOf_sublist hsub).subset ha
    rw [missAOf_refCalls _ _ _ hord', fresh_values, List.mem_filter] at h1
    have h2 := List.all_eq_true.1 h1.2 b hb
    simpa [intersects] using h2
  · intro b hb a ha
    have h1 := (missBOf_sublist hsub).subset hb
    have h2 := (missBOf_refCalls _ _ _ hord').subset h1
    rw [filter_unmatched_fresh, List.mem_filter] at h2
    have h3 := List.all_eq_true.1 h2.2 a ha
    simpa [intersects] using h3

/-- C18 amended, on A = `[3,6)`, `[8,9)` and B = `[4,5)`, `[20,30)` with a
collector whose `hit` returns true: the reported misses `[8,9)` and
`[20,30)` intersect nothing, and `[3,6)`, `[4,5)` are not reported. -/
theorem execute_intersect_not_missed_witness :
    (SortedAsc [(⟨"1", 3, 6, false, "a1"⟩ : Record), ⟨"1", 8, 9, false, "a2"⟩] ∧
        SortedAsc [(⟨"1", 4, 5, false, "b1"⟩ : Record), ⟨"1", 20, 30, false, "b2"⟩] ∧
        (∀ r ∈ [(⟨"1", 3, 6, false, "a1"⟩ : Record), ⟨"1", 8, 9, false, "a2"⟩],
          WellFormed false r) ∧
        (∀ r ∈ [(⟨"1", 4, 5, false, "b1"⟩ : Record), ⟨"1", 20, 30, false, "b2"⟩],
          WellFormed false r)) ∧
      missAOf (execute ⟨"A", "B", constCollector true true true, false⟩
        [⟨"1", 3, 6, false, "a1"⟩, ⟨"1", 8, 9, false, "a2"⟩]
        [⟨"1", 4, 5, false, "b1"⟩, ⟨"1", 20, 30, false, "b2"⟩]
        Record.initial Record.initial ()).rc.calls = [⟨"1", 8, 9, false, "a2"⟩] ∧
      ∀ b ∈ missBOf (execute ⟨"A", "B", constCollector true true true, false⟩
        [⟨"1", 3, 6, false, "a1"⟩, ⟨"1", 8, 9, false, "a2"⟩]
        [⟨"1", 4, 5, false, "b1"⟩, ⟨"1", 20, 30, false, "b2"⟩]
        Record.initial Record.initial ()).rc.calls,
        ∀ a ∈ [(⟨"1", 3, 6, false, "a1"⟩ : Record), ⟨"1", 8, 9, false, "a2"⟩],
          compare false a b ≠ Compare.INTERSECT :=
  ⟨by decide, by decide,
    (execute_intersect_not_missed ⟨"A", "B", constCollector true true true, false⟩
      [⟨"1", 3, 6, false, "a1"⟩, ⟨"1", 8, 9, false, "a2"⟩]
      [⟨"1", 4, 5, false, "b1"⟩, ⟨"1", 20, 30, false, "b2"⟩] () (fun _ _ _ => rfl)
      (by decide) (by decide) (by decide) (by decide)).2⟩

end IntersectFull


/-! ## The cache after each record of stream A -/

namespace IntersectFull

section LoopA

variable {σ : Type} (I : Setup σ)

/-- A run of `execute` is the outer loop followed, when no exception was
thrown, by the draining loops. -/
theorem executeFrom_loopA (A b : Stream) (valueA valueB : Record) (cache : List CacheEntry)
    (rc : Rc σ) :
    executeFrom I A b valueA valueB cache rc =
      match (loopA I A b valueA valueB cache rc).error with
      | some _ => loopA I A b valueA valueB cache rc
      | none => drain I (loopA I A b valueA valueB cache rc) := by
  induction A generalizing b valueA valueB cache rc with
  | nil => rfl
  | cons a rest ih =>
    simp only [executeFrom, loopA]
    cases hadv : advanceSorted I.adjacentInsertions I.aName a valueA with
    | error err => rfl
    | ok v =>
      simp only
      cases hs : (processA I v b valueB cache rc).error with
      | some err => rfl
      | none => simp only; exact ih _ _ _ _ _

/-- The state after the records `A1 ++ A2` is the state reached from the
state after `A1` by the records `A2`. -/
theorem loopA_append (A1 A2 b : Stream) (valueA valueB : Record) (cache : List CacheEntry)
    (rc : Rc σ) (h : (loopA I A1 b valueA valueB cache rc).error = none) :
    loopA I (A1 ++ A2) b valueA valueB cache rc =
      loopA I A2 (loopA I A1 b valueA valueB cache rc).b
        (loopA I A1 b valueA valueB cache rc).valueA
        (loopA I A1 b valueA valueB cache rc).valueB
        (loopA I A1 b valueA valueB cache rc).cache
        (loopA I A1 b valueA valueB cache rc).rc := by
  induction A1 generalizing b valueA valueB cache rc with
  | nil => rfl
  | cons a rest ih =>
    simp only [List.cons_append, loopA] at h ⊢
    cases hadv : advanceSorted I.adjacentInsertions I.aName a valueA with
    | error err => rw [hadv] at h; cases h
    | ok v =>
      rw [hadv] at h
      simp only at h ⊢
      cases hs : (processA I v b valueB cache rc).error with
      | some err => rw [hs] at h; cases h
      | none =>
        rw [hs] at h
        simp only at h ⊢
        exact ih _ _ _ _ _ h

theorem checkCache_values (a : Record) (cache : List CacheEntry) (rc : Rc σ) :
    (checkCache I a cache rc).2.1.map CacheEntry.value =
      (scanKeep I.adjacentInsertions a cache).map CacheEntry.value := by
  induction cache generalizing rc with
  | nil => rfl
  | cons e rest ih =>
    simp only [checkCache, scanKeep]
    rcases Compare.cases3 (compare I.adjacentInsertions a e.value) with hc | hc | hc
    · rw [hc]
    · rw [hc]; exact ih _
    · rw [hc]; simp only [List.map_cons]; rw [ih]

theorem pullB_values (a : Record) (b : Stream) (valueB : Record) (hitA : Bool)
    (cache : List CacheEntry) (rc : Rc σ)
    (hg : List.Chain (GuardOk I.adjacentInsertions) valueB b) :
    (pullB I a b valueB hitA cache rc).error = none ∧
      List.Chain (GuardOk I.adjacentInsertions) (pullB I a b valueB hitA cache rc).valueB
        (pullB I a b valueB hitA cache rc).b ∧
      ((pullB I a b valueB hitA cache rc).cache ++
          fresh (pullB I a b valueB hitA cache rc).b).map CacheEntry.value =
        cache.map CacheEntry.value ++
          (scanKeep I.adjacentInsertions a (fresh b)).map CacheEntry.value ∧
      ∀ x ∈ (pullB I a b valueB hitA cache rc).cache,
        x ∈ cache ∨ compare I.adjacentInsertions a x.value ≠ Compare.AFTER := by
  induction b generalizing valueB hitA cache rc with
  | nil =>
    simp only [pullB, fresh_nil, scanKeep, List.append_nil, List.map_nil, true_and]
    exact ⟨List.Chain.nil, fun x hx => Or.inl hx⟩
  | cons peek rest ih =>
    obtain ⟨hg1, hg2⟩ := List.chain_cons.1 hg
    have hadv : advanceSorted I.adjacentInsertions I.bName peek valueB = Except.ok peek := by
      unfold advanceSorted
      rw [if_neg hg1]
    rw [fresh_cons]
    simp only [pullB, hadv, scanKeep]
    rcases Compare.cases3 (compare I.adjacentInsertions a peek) with hc | hc | hc
    · rw [hc]
      refine ⟨rfl, hg2, by simp [fresh_cons], ?_⟩
      intro x hx
      simp only [List.mem_append, List.mem_singleton] at hx
      rcases hx with hx | hx
      · exact Or.inl hx
      · right; rw [hx, hc]; simp
    · rw [hc]
      exact ih peek hitA cache _ hg2
    · rw [hc]
      simp only
      have := ih peek (hitA || (rc.hit I.collector a peek).1)
        (cache ++ [⟨peek, (rc.hit I.collector a peek).1⟩]) (rc.hit I.collector a peek).2 hg2
      refine ⟨this.1, this.2.1, ?_, ?_⟩
      · rw [this.2.2.1]; simp
      · intro x hx
        rcases this.2.2.2 x hx with h | h
        · simp only [List.mem_append, List.mem_singleton] at h
          rcases h with h | h
          · exact Or.inl h
          · right; rw [h, hc]; simp
        · exact Or.inr h

end LoopA

theorem scanKeep_not_after (adj : Bool) (a : Record) (U : List CacheEntry)
    (h : BeforeClosed adj a (U.map CacheEntry.value)) :
    ∀ x ∈ scanKeep adj a U, compare adj a x.value ≠ Compare.AFTER := by
  induction U with
  | nil => intro x hx; simp [scanKeep] at hx
  | cons e rest ih =>
    unfold BeforeClosed at h
    rw [List.map_cons, List.pairwise_cons] at h
    intro x hx
    simp only [scanKeep] at hx
    rcases Compare.cases3 (compare adj a e.value) with hc | hc | hc
    · rw [hc] at hx
      simp only [List.mem_cons] at hx
      rcases hx with hx | hx
      · rw [hx, hc]; simp
      · rw [h.1 x.value (List.mem_map_of_mem _ hx) hc]; simp
    · rw [hc] at hx
      exact ih h.2 x hx
    · rw [hc] at hx
      simp only [List.mem_cons] at hx
      rcases hx with hx | hx
      · rw [hx]; simp only; rw [hc]; simp
      · exact ih h.2 x hx

end IntersectFull

namespace IntersectFull

section LoopCache

variable {σ : Type} (I : Setup σ)

theorem processA_values (a : Record) (b : Stream) (valueB : Record) (cache : List CacheEntry)
    (rc : Rc σ) (hg : List.Chain (GuardOk I.adjacentInsertions) valueB b)
    (hBC : BeforeClosed I.adjacentInsertions a ((cache ++ fresh b).map CacheEntry.value)) :
    (processA I a b valueB cache rc).error = none ∧
      List.Chain (GuardOk I.adjacentInsertions) (processA I a b valueB cache rc).valueB
        (processA I a b valueB cache rc).b ∧
      ((processA I a b valueB cache rc).cache ++
          fresh (processA I a b valueB cache rc).b).map CacheEntry.value =
        (scanKeep I.adjacentInsertions a (cache ++ fresh b)).map CacheEntry.value ∧
      ∀ x ∈ (processA I a b valueB cache rc).cache,
        compare I.adjacentInsertions a x.value ≠ Compare.AFTER := by
  have hBC0 := hBC
  unfold BeforeClosed at hBC
  rw [List.map_append, List.pairwise_append] at hBC
  have hsplit : ∀ e ∈ cache, ∀ x ∈ fresh b,
      compare I.adjacentInsertions a e.value = Compare.BEFORE →
        compare I.adjacentInsertions a x.value = Compare.BEFORE := by
    intro e he x hx
    exact hBC.2.2 e.value (List.mem_map_of_mem _ he) x.value (List.mem_map_of_mem _ hx)
  have hs := scan_append I.adjacentInsertions a cache (fresh b) hsplit
  have hcc := checkCache_values I a cache rc
  have hp := pullB_values I a b valueB (checkCache I a cache rc).1 (checkCache I a cache rc).2.1
    (checkCache I a cache rc).2.2 hg
  rw [hcc] at hp
  have hmem : ∀ x ∈ (checkCache I a cache rc).2.1,
      compare I.adjacentInsertions a x.value ≠ Compare.AFTER := by
    intro x hx
    have : x.value ∈ (scanKeep I.adjacentInsertions a cache).map CacheEntry.value := by
      rw [← hcc]; exact List.mem_map_of_mem _ hx
    obtain ⟨y, hy, hyx⟩ := List.mem_map.1 this
    rw [← hyx]
    exact scanKeep_not_after I.adjacentInsertions a cache hBC.1 y hy
  rw [processA_eq]
  generalize pullB I a b valueB (checkCache I a cache rc).1 (checkCache I a cache rc).2.1
    (checkCache I a cache rc).2.2 = pulled at hp ⊢
  obtain ⟨hp1, hp2, hp3, hp4⟩ := hp
  have hvals : (pulled.cache ++ fresh pulled.b).map CacheEntry.value =
      (scanKeep I.adjacentInsertions a (cache ++ fresh b)).map CacheEntry.value := by
    rw [hp3, hs.1, List.map_append]
  have hall : ∀ x ∈ pulled.cache, compare I.adjacentInsertions a x.value ≠ Compare.AFTER := by
    intro x hx
    rcases hp4 x hx with h | h
    · exact hmem x h
    · exact h
  rw [hp1]
  simp only
  split
  · exact ⟨hp1, hp2, hvals, hall⟩
  · exact ⟨hp1, hp2, hvals, hall⟩

theorem loopA_cache (A b : Stream) (valueA valueB : Record) (cache : List CacheEntry)
    (rc : Rc σ) (hgA : List.Chain (GuardOk I.adjacentInsertions) valueA A)
    (hgB : List.Chain (GuardOk I.adjacentInsertions) valueB b)
    (hBC : ∀ a ∈ A,
      BeforeClosed I.adjacentInsertions a ((cache ++ fresh b).map CacheEntry.value)) :
    (loopA I A b valueA valueB cache rc).error = none ∧
      (((loopA I A b valueA valueB cache rc).cache ++
          fresh (loopA I A b valueA valueB cache rc).b).map CacheEntry.value).Sublist
        ((cache ++ fresh b).map CacheEntry.value) ∧
      ∀ a ∈ A.getLast?, ∀ x ∈ (loopA I A b valueA valueB cache rc).cache,
        compare I.adjacentInsertions a x.value ≠ Compare.AFTER := by
  induction A generalizing b valueA valueB cache rc with
  | nil =>
    refine ⟨rfl, List.Sublist.refl _, ?_⟩
    intro a ha
    simp at ha
  | cons a rest ih =>
    obtain ⟨hg1, hg2⟩ := List.chain_cons.1 hgA
    have hadv : advanceSorted I.adjacentInsertions I.aName a valueA = Except.ok a := by
      unfold advanceSorted
      rw [if_neg hg1]
    have hp := processA_values I a b valueB cache rc hgB (hBC a (by simp))
    simp only [loopA, hadv]
    generalize processA I a b valueB cache rc = s at hp ⊢
    obtain ⟨hp1, hp2, hp3, hp4⟩ := hp
    rw [hp1]
    simp only
    have hsub : ((s.cache ++ fresh s.b).map CacheEntry.value).Sublist
        ((cache ++ fresh b).map CacheEntry.value) := by
      rw [hp3]; exact scanKeep_sublist _ _ _
    have hBC' : ∀ a' ∈ rest, BeforeClosed I.adjacentInsertions a'
        ((s.cache ++ fresh s.b).map CacheEntry.value) := by
      intro a' ha'
      exact List.Pairwise.sublist hsub (hBC a' (by simp [ha']))
    have := ih s.b a s.valueB s.cache s.rc hg2 hp2 hBC'
    refine ⟨this.1, this.2.1.trans hsub, ?_⟩
    intro a' ha'
    cases rest with
    | nil =>
      simp only [List.getLast?_singleton, Option.mem_def, Option.some.injEq] at ha'
      subst ha'
      exact hp4
    | cons r rest' =>
      rw [List.getLast?_cons_cons] at ha'
      exact this.2.2 a' ha'

end LoopCache

/-- C19, refuted as stated: on A = `[1,2)`, `[3,4)`, `[5,6)` and
B = `[10,11)`, `[12,13)`, `[14,15)` the cache after the third A-record holds
all three B-records, and each of them lies wholly after `[5,6)`. -/
theorem loopA_cache_counterexample :
    (loopA ⟨"A", "B", constCollector true true true, false⟩
        [⟨"1", 1, 2, false, "a1"⟩, ⟨"1", 3, 4, false, "a2"⟩, ⟨"1", 5, 6, false, "a3"⟩]
        [⟨"1", 10, 11, false, "b1"⟩, ⟨"1", 12, 13, false, "b2"⟩, ⟨"1", 14, 15, false, "b3"⟩]
        Record.initial Record.initial [] ⟨(), []⟩).cache.map CacheEntry.value =
        [⟨"1", 10, 11, false, "b1"⟩, ⟨"1", 12, 13, false, "b2"⟩, ⟨"1", 14, 15, false, "b3"⟩] ∧
      ∀ b ∈ [(⟨"1", 10, 11, false, "b1"⟩ : Record), ⟨"1", 12, 13, false, "b2"⟩,
          ⟨"1", 14, 15, false, "b3"⟩],
        compare false ⟨"1", 5, 6, false, "a3"⟩ b = Compare.BEFORE := by
  decide

end IntersectFull


/-! ## `AltNormalizer`: trimming -/

namespace AltNormalizer

theorem stripCommon_spec (r a : List Char) :
    ∃ s, r = s ++ (stripCommon r a).1 ∧ a = s ++ (stripCommon r a).2 ∧
      ((stripCommon r a).1.head? ≠ (stripCommon r a).2.head? ∨
        ((stripCommon r a).1 = [] ∧ (stripCommon r a).2 = [])) := by
  induction r generalizing a with
  | nil =>
    cases a with
    | nil => exact ⟨[], rfl, rfl, Or.inr ⟨rfl, rfl⟩⟩
    | cons y ys => exact ⟨[], rfl, rfl, Or.inl (by simp [stripCommon])⟩
  | cons x xs ih =>
    cases a with
    | nil => exact ⟨[], rfl, rfl, Or.inl (by simp [stripCommon])⟩
    | cons y ys =>
      simp only [stripCommon]
      by_cases hxy : x = y
      · subst hxy
        simp only [if_true]
        obtain ⟨s, h1, h2, h3⟩ := ih ys
        exact ⟨x :: s, by rw [List.cons_append, ← h1], by rw [List.cons_append, ← h2], h3⟩
      · simp only [hxy, if_false]
        exact ⟨[], rfl, rfl, Or.inl (by simpa using hxy)⟩

theorem rightTrim_spec (r a : List Char) :
    ∃ s, r = (rightTrim r a).1 ++ s ∧ a = (rightTrim r a).2 ++ s ∧
      ((rightTrim r a).1.getLast? ≠ (rightTrim r a).2.getLast? ∨
        ((rightTrim r a).1 = [] ∧ (rightTrim r a).2 = [])) := by
  obtain ⟨s, h1, h2, h3⟩ := stripCommon_spec r.reverse a.reverse
  refine ⟨s.reverse, ?_, ?_, ?_⟩
  · have := congrArg List.reverse h1
    simpa [rightTrim] using this
  · have := congrArg List.reverse h2
    simpa [rightTrim] using this
  · simpa [rightTrim, List.getLast?_reverse] using h3

theorem stripCommon_of_head_ne (r a : List Char) (h : r.head? ≠ a.head?) :
    stripCommon r a = (r, a) := by
  cases r with
  | nil => cases a <;> rfl
  | cons x xs =>
    cases a with
    | nil => rfl
    | cons y ys =>
      have hxy : x ≠ y := by simpa using h
      simp [stripCommon, hxy]

theorem rightTrim_of_last_ne (r a : List Char) (h : r.getLast? ≠ a.getLast?) :
    rightTrim r a = (r, a) := by
  have h' : r.reverse.head? ≠ a.reverse.head? := by simpa [List.head?_reverse] using h
  simp [rightTrim, stripCommon_of_head_ne _ _ h']

theorem stripCommon_self (l : List Char) : stripCommon l l = ([], []) := by
  induction l with
  | nil => rfl
  | cons x xs ih => simp [stripCommon, ih]

theorem rightTrim_self (l : List Char) : rightTrim l l = ([], []) := by
  simp [rightTrim, stripCommon_self]

theorem slice_zero (look : Nat → Option Char) (start : Nat) : slice look start 0 = [] := rfl

theorem slice_succ (look : Nat → Option Char) (start n : Nat) :
    slice look start (n + 1) = slice look start n ++ (look (start + n)).toList := by
  unfold slice
  rw [List.range_succ, List.filterMap_append]
  cases h : look (start + n) <;> simp [List.filterMap_cons, h]

theorem slice_eq (look : Nat → Option Char) (start : Nat) (l : List Char)
    (h : ∀ i, i < l.length → look (start + i) = l.get? i) :
    slice look start l.length = l := by
  induction l using List.reverseRecOn with
  | nil => rfl
  | append_singleton l x ih =>
    rw [List.length_append, List.length_singleton, slice_succ, ih, h l.length (by simp)]
    · simp
    · intro i hi
      rw [h i (by simp; omega)]
      simp [List.getElem?_append_left hi]

end AltNormalizer


/-! ## `AltNormalizer`: entries with a single variant -/

namespace AltNormalizer

theorem slice_baseAt_self (seq : List Char) (e : Entry) :
    slice (baseAt seq e) e.pos e.ref.length = e.ref := by
  apply slice_eq
  intro i hi
  unfold baseAt
  rw [if_pos ⟨Nat.le_add_right _ _, Nat.add_lt_add_left hi _⟩, Nat.add_sub_cancel_left]

/-- An entry whose only alt is a variant `v` that agrees with the bases
around it becomes that variant; the genotype calls are kept. -/
theorem normalize_single (seq : List Char) (e : Entry) (v : RawVariant)
    (hv : variants seq e = [some v])
    (hvalid : slice (baseAt seq e) v.pos v.ref.length = v.ref) (hne : v.alt ≠ v.ref) :
    normalize seq e = ⟨v.pos, v.ref, [v.alt], e.genotypes⟩ := by
  have hP : newPos seq e = v.pos := by simp [newPos, hv]
  have hE : newEnd seq e = v.pos + v.ref.length := by simp [newEnd, hv]
  have hR : newRef seq e = v.ref := by
    unfold newRef
    rw [hP, hE, Nat.add_sub_cancel_left]
    exact hvalid
  have hN : normalizedAlts seq e = [v.alt] := by
    simp [normalizedAlts, hv, express, hP, hE, slice_zero]
  have hA : newAlts seq e = [v.alt] := by
    simp [newAlts, hN, hR, hne, uniq]
  have hM : remap seq e = id := by
    funext i
    unfold remap
    cases i with
    | zero => rfl
    | succ j =>
      rw [if_neg (Nat.succ_ne_zero j), hN, Nat.add_sub_cancel]
      cases j with
      | zero => simp [hR, hne, hA, indexIn]
      | succ k => simp
  unfold normalize
  rw [hP, hR, hA, hM]
  simp

/-- C13. An entry that is already minimal (a single non-empty alt that
shares neither its first nor its last base with the non-empty ref) is left
unchanged by `normalize`: same position, ref, alt and genotype calls. -/
theorem normalize_minimal (seq : List Char) (e : Entry) (alt : List Char)
    (halt : e.alt = [alt]) (hr : e.ref ≠ []) (ha : alt ≠ [])
    (hhead : e.ref.head? ≠ alt.head?) (hlast : e.ref.getLast? ≠ alt.getLast?) :
    normalize seq e = e := by
  have hn : ∀ look, normalizeAlt look e.pos e.ref alt = some ⟨e.pos, e.ref, alt⟩ := by
    intro look
    unfold normalizeAlt
    simp only [rightTrim_of_last_ne _ _ hlast, stripCommon_of_head_ne _ _ hhead,
      Nat.sub_self, Nat.add_zero]
    have h1 : e.ref.isEmpty = false := by cases h : e.ref <;> simp_all
    have h2 : alt.isEmpty = false := by cases h : alt <;> simp_all
    simp [h1, h2]
  have hv : variants seq e = [some ⟨e.pos, e.ref, alt⟩] := by
    simp [variants, halt, hn]
  have hne : alt ≠ e.ref := by
    intro h
    rw [h] at hhead
    exact hhead rfl
  rw [normalize_single seq e ⟨e.pos, e.ref, alt⟩ hv (slice_baseAt_self seq e) hne]
  cases e
  simp only at halt
  simp [halt]

/-- C13, at the substitution of the test `testSubstitution`: reference
`TTTCGCGCGCGCG`, entry at position 9 with ref `G` and alt `C`. -/
theorem normalize_minimal_witness :
    ("G".toList ≠ [] ∧ "C".toList ≠ [] ∧ "G".toList.head? ≠ "C".toList.head? ∧
        "G".toList.getLast? ≠ "C".toList.getLast?) ∧
      normalize "TTTCGCGCGCGCG".toList ⟨9, "G".toList, ["C".toList], [[0, 1]]⟩ =
        ⟨9, "G".toList, ["C".toList], [[0, 1]]⟩ :=
  ⟨by decide,
    normalize_minimal "TTTCGCGCGCGCG".toList ⟨9, "G".toList, ["C".toList], [[0, 1]]⟩
      "C".toList rfl (by decide) (by decide) (by decide) (by decide)⟩

end AltNormalizer


/-! ## `AltNormalizer`: normalization keeps the altered sequence -/

namespace AltNormalizer

theorem baseAt_of_match (seq : List Char) (e : Entry) (pre suf : List Char)
    (hseq : seq = pre ++ e.ref ++ suf) (hpos : e.pos = pre.length + 1) (p : Nat) :
    baseAt seq e p = if p = 0 then none else seq.get? (p - 1) := by
  unfold baseAt
  by_cases hin : e.pos ≤ p ∧ p < e.pos + e.ref.length
  · rw [if_pos hin, if_neg (by omega)]
    obtain ⟨k, rfl⟩ : ∃ k, p = e.pos + k := ⟨p - e.pos, by omega⟩
    have hk : k < e.ref.length := by omega
    rw [Nat.add_sub_cancel_left, hseq, hpos]
    have : pre.length + 1 + k - 1 = pre.length + k := by omega
    rw [this, List.append_assoc]
    simp only [List.get?_eq_getElem?]
    rw [List.getElem?_append_right (by omega), Nat.add_sub_cancel_left,
      List.getElem?_append_left hk]
  · rw [if_neg hin]

theorem applyVariant_eq (seq pre suf r a : List Char) (pos : Nat)
    (hseq : seq = pre ++ r ++ suf) (hpos : pos = pre.length + 1) :
    applyVariant seq pos r a = pre ++ a ++ suf := by
  have ht : (pre ++ r ++ suf).take pre.length = pre := by
    rw [List.append_assoc]
    exact List.take_left _ _
  have hd : (pre ++ r ++ suf).drop (pre.length + r.length) = suf := by
    rw [← List.length_append]
    exact List.drop_left _ _
  unfold applyVariant
  rw [hpos, Nat.add_sub_cancel, hseq, ht, hd]

theorem spells_length {seq H : List Char} {v : RawVariant} (h : Spells seq H v) :
    seq.length + v.alt.length = H.length + v.ref.length := by
  obtain ⟨pre, suf, h1, _, h3⟩ := h
  rw [h1, h3]
  simp only [List.length_append]
  omega

theorem spells_rightTrim {seq H : List Char} {pos : Nat} {r a : List Char}
    (h : Spells seq H ⟨pos, r, a⟩) :
    Spells seq H ⟨pos, (rightTrim r a).1, (rightTrim r a).2⟩ := by
  obtain ⟨pre, suf, h1, h2, h3⟩ := h
  obtain ⟨s, hr, ha, _⟩ := rightTrim_spec r a
  refine ⟨pre, s ++ suf, ?_, h2, ?_⟩
  · simp only at h1 ⊢
    rw [h1]
    nth_rewrite 1 [hr]
    simp
  · simp only at h3 ⊢
    rw [h3]
    nth_rewrite 1 [ha]
    simp

theorem spells_stripCommon {seq H : List Char} {pos : Nat} {r a : List Char}
    (h : Spells seq H ⟨pos, r, a⟩) :
    Spells seq H ⟨pos + (r.length - (stripCommon r a).1.length), (stripCommon r a).1,
      (stripCommon r a).2⟩ := by
  obtain ⟨pre, suf, h1, h2, h3⟩ := h
  obtain ⟨s, hr, ha, _⟩ := stripCommon_spec r a
  have hlen : r.length - (stripCommon r a).1.length = s.length := by
    have := congrArg List.length hr
    rw [List.length_append] at this
    omega
  refine ⟨pre ++ s, suf, ?_, ?_, ?_⟩
  · simp only at h1 ⊢
    rw [h1]
    nth_rewrite 1 [hr]
    simp
  · simp only at h2 ⊢
    rw [hlen, h2, List.length_append]
    omega
  · simp only at h3 ⊢
    rw [h3]
    nth_rewrite 1 [ha]
    simp

theorem last_ne_of_empty {r a : List Char} (h : r = [] ∨ a = [])
    (hl : r.length ≠ a.length) : r.getLast? ≠ a.getLast? := by
  rcases h with h | h
  · subst h
    cases a with
    | nil => exact absurd rfl hl
    | cons y ys => simp [List.getLast?_cons_cons, List.getLast?]
  · subst h
    cases r with
    | nil => exact absurd rfl hl
    | cons y ys =>
      intro hc
      have := hc.symm
      simp [List.getLast?] at this

section Look

variable {seq : List Char} {look : Nat → Option Char}
  (hlook : ∀ p, look p = if p = 0 then none else seq.get? (p - 1))
include hlook

theorem spells_padRight {H : List Char} {pos : Nat} {r a : List Char}
    (h : Spells seq H ⟨pos, r, a⟩) : Spells seq H (padRight look pos r a) := by
  unfold padRight
  cases hl : look (pos + r.length) with
  | none => exact h
  | some c =>
    obtain ⟨pre, suf, h1, h2, h3⟩ := h
    simp only at h1 h2 h3 ⊢
    rw [hlook, if_neg (by omega), h2] at hl
    have hidx : pre.length + 1 + r.length - 1 = (pre ++ r).length := by
      rw [List.length_append]; omega
    rw [hidx, h1, List.get?_eq_getElem?, List.getElem?_append_right (le_refl _),
      Nat.sub_self] at hl
    cases suf with
    | nil => simp at hl
    | cons x suf' =>
      simp only [List.getElem?_cons_zero, Option.some.injEq] at hl
      subst hl
      exact ⟨pre, suf', by rw [h1]; simp, h2, by rw [h3]; simp⟩

theorem spells_shiftLeft {H : List Char} (pos : Nat) (r a : List Char)
    (h : Spells seq H ⟨pos, r, a⟩) : Spells seq H (shiftLeft look pos r a) := by
  induction pos generalizing r a with
  | zero => exact h
  | succ pos ih =>
    unfold shiftLeft
    cases hl : look pos with
    | none => exact spells_padRight hlook h
    | some c =>
      simp only
      have hstep : Spells seq H ⟨pos, c :: r, c :: a⟩ := by
        obtain ⟨pre, suf, h1, h2, h3⟩ := h
        simp only at h1 h2 h3
        rw [hlook] at hl
        have hp0 : pos ≠ 0 := by
          intro h0
          rw [if_pos h0] at hl
          cases hl
        rw [if_neg hp0] at hl
        rcases pre.eq_nil_or_concat with hnil | ⟨pre', x, hx⟩
        · rw [hnil] at h2
          simp at h2
          omega
        · rw [List.concat_eq_append] at hx
          subst hx
          rw [List.length_append, List.length_singleton] at h2
          have hidx : pos - 1 = pre'.length := by omega
          rw [hidx, h1, List.get?_eq_getElem?] at hl
          simp only [List.append_assoc, List.singleton_append] at hl
          rw [List.getElem?_append_right (le_refl _), Nat.sub_self] at hl
          have hxc : x = c := by simpa using hl
          subst hxc
          exact ⟨pre', suf, by rw [h1]; simp, by simp only; omega, by rw [h3]; simp⟩
      have ht := spells_rightTrim hstep
      split
      · exact ih _ _ ht
      · exact ht

end Look

end AltNormalizer


namespace AltNormalizer

theorem rightTrim_length (r a : List Char) :
    (rightTrim r a).1.length + a.length = (rightTrim r a).2.length + r.length := by
  obtain ⟨s, hr, ha, _⟩ := rightTrim_spec r a
  have h1 := congrArg List.length hr
  have h2 := congrArg List.length ha
  rw [List.length_append] at h1 h2
  omega

theorem stripCommon_length (r a : List Char) :
    (stripCommon r a).1.length + a.length = (stripCommon r a).2.length + r.length := by
  obtain ⟨s, hr, ha, _⟩ := stripCommon_spec r a
  have h1 := congrArg List.length hr
  have h2 := congrArg List.length ha
  rw [List.length_append] at h1 h2
  omega

theorem isEmpty_or_iff (r a : List Char) :
    (r.isEmpty || a.isEmpty) = true ↔ r = [] ∨ a = [] := by
  cases r <;> cases a <;> simp

section Look

variable {seq : List Char} {look : Nat → Option Char}
  (hlook : ∀ p, look p = if p = 0 then none else seq.get? (p - 1))
include hlook

theorem shiftLeft_last (pos : Nat) (r a : List Char) (h : r = [] ∨ a = [])
    (hl : r.length ≠ a.length) :
    (shiftLeft look pos r a).ref.getLast? ≠ (shiftLeft look pos r a).alt.getLast? ∨
      (shiftLeft look pos r a).pos = 1 := by
  induction pos generalizing r a with
  | zero => exact Or.inl (last_ne_of_empty h hl)
  | succ pos ih =>
    unfold shiftLeft
    cases hlk : look pos with
    | none =>
      simp only
      unfold padRight
      by_cases hp0 : pos = 0
      · right
        subst hp0
        split <;> rfl
      · rw [hlook, if_neg hp0] at hlk
        have hlen : seq.length ≤ pos - 1 := by
          rw [List.get?_eq_getElem?] at hlk
          exact List.getElem?_eq_none_iff.1 hlk
        have hnone : look (pos + 1 + r.length) = none := by
          rw [hlook, if_neg (by omega), List.get?_eq_getElem?]
          exact List.getElem?_eq_none_iff.2 (by omega)
        rw [hnone]
        exact Or.inl (last_ne_of_empty h hl)
    | some c =>
      simp only
      have hlen := rightTrim_length (c :: r) (c :: a)
      simp only [List.length_cons] at hlen
      have hne : (rightTrim (c :: r) (c :: a)).1.length ≠
          (rightTrim (c :: r) (c :: a)).2.length := by omega
      split
      · next hcond =>
        exact ih _ _ ((isEmpty_or_iff _ _).1 hcond) hne
      · next hcond =>
        left
        obtain ⟨s, _, _, h3⟩ := rightTrim_spec (c :: r) (c :: a)
        rcases h3 with h3 | h3
        · exact h3
        · exact absurd ((isEmpty_or_iff _ _).2 (Or.inl h3.1)) hcond

theorem normalizeAlt_spec {H : List Char} (pos : Nat) (ref alt : List Char)
    (h : Spells seq H ⟨pos, ref, alt⟩) (hl : ref.length ≠ alt.length) :
    ∃ v, normalizeAlt look pos ref alt = some v ∧ Spells seq H v ∧
      (v.ref.getLast? ≠ v.alt.getLast? ∨ v.pos = 1) := by
  have h1 := rightTrim_length ref alt
  have h2 := stripCommon_length (rightTrim ref alt).1 (rightTrim ref alt).2
  have hsp := spells_stripCommon (spells_rightTrim h)
  unfold normalizeAlt
  simp only
  generalize hL : stripCommon (rightTrim ref alt).1 (rightTrim ref alt).2 = l at h2 hsp ⊢
  have hne : l.1.length ≠ l.2.length := by omega
  have hnb : (l.1.isEmpty && l.2.isEmpty) = false := by
    cases h1' : l.1 <;> cases h2' : l.2 <;> simp_all
  rw [hnb]
  simp only [Bool.false_eq_true, if_false]
  split
  · next hcond =>
    refine ⟨_, rfl, spells_shiftLeft hlook _ _ _ hsp, ?_⟩
    exact shiftLeft_last hlook _ _ _ ((isEmpty_or_iff _ _).1 hcond) hne
  · next hcond =>
    refine ⟨_, rfl, hsp, Or.inl ?_⟩
    simp only
    have hl1 : l.1 ≠ [] := fun hx => hcond ((isEmpty_or_iff _ _).2 (Or.inl hx))
    have hl2 : l.2 ≠ [] := fun hx => hcond ((isEmpty_or_iff _ _).2 (Or.inr hx))
    obtain ⟨s, hr, ha, _⟩ := stripCommon_spec (rightTrim ref alt).1 (rightTrim ref alt).2
    rw [hL] at hr ha
    obtain ⟨_, _, _, h3⟩ := rightTrim_spec ref alt
    rcases h3 with h3 | h3
    · rw [hr, ha, List.getLast?_append_of_ne_nil _ hl1,
        List.getLast?_append_of_ne_nil _ hl2] at h3
      exact h3
    · rw [h3.1] at hr
      have := congrArg List.length hr
      rw [List.length_append, List.length_nil] at this
      exact absurd (List.length_eq_zero.1 (by omega)) hl1

end Look

/-- C12. For an entry with a single alt that is an indel (ref and alt of
different lengths) and whose REF equals the reference sequence at its
position, `normalize` returns one alt, the normalized REF again equals the
reference sequence at the normalized position, applying the normalized
(pos, ref, alt) to the reference spells the same altered sequence as the
original entry, and the normalized ref and alt do not end in the same base
unless the normalized entry starts at position 1. -/
theorem normalize_indel (seq : List Char) (e : Entry) (alt pre suf : List Char)
    (halt : e.alt = [alt]) (hseq : seq = pre ++ e.ref ++ suf)
    (hpos : e.pos = pre.length + 1) (hlen : e.ref.length ≠ alt.length) :
    ∃ a, (normalize seq e).alt = [a] ∧
      (∃ pre' suf', seq = pre' ++ (normalize seq e).ref ++ suf' ∧
        (normalize seq e).pos = pre'.length + 1) ∧
      applyVariant seq (normalize seq e).pos (normalize seq e).ref a =
        applyVariant seq e.pos e.ref alt ∧
      ((normalize seq e).ref.getLast? ≠ a.getLast? ∨ (normalize seq e).pos = 1) := by
  have hlook := baseAt_of_match seq e pre suf hseq hpos
  have h0 : Spells seq (pre ++ alt ++ suf) ⟨e.pos, e.ref, alt⟩ := ⟨pre, suf, hseq, hpos, rfl⟩
  obtain ⟨v, hv, hsp, hq⟩ := normalizeAlt_spec hlook e.pos e.ref alt h0 hlen
  have hvs : variants seq e = [some v] := by simp [variants, halt, hv]
  have hneq : v.alt ≠ v.ref := by
    intro hc
    have h1 := spells_length hsp
    have h2 := spells_length h0
    simp only at h2
    rw [hc] at h1
    omega
  obtain ⟨pre', suf', hs1, hs2, hs3⟩ := hsp
  have hvalid : slice (baseAt seq e) v.pos v.ref.length = v.ref := by
    apply slice_eq
    intro i hi
    rw [hlook, if_neg (by omega), hs2]
    have : pre'.length + 1 + i - 1 = pre'.length + i := by omega
    rw [this]
    nth_rewrite 1 [hs1]
    rw [List.append_assoc]
    simp only [List.get?_eq_getElem?]
    rw [List.getElem?_append_right (by omega), Nat.add_sub_cancel_left,
      List.getElem?_append_left hi]
  rw [normalize_single seq e v hvs hvalid hneq]
  refine ⟨v.alt, rfl, ⟨pre', suf', hs1, hs2⟩, ?_, hq⟩
  simp only
  rw [applyVariant_eq seq pre' suf' v.ref v.alt v.pos hs1 hs2,
    applyVariant_eq seq pre suf e.ref alt e.pos hseq hpos, hs3]

/-- C12, at the insertion of the test `insertion`: reference
`TTTCGCGCGCGCG`, entry at position 11 with ref `GCG` and alt `GCGCG`; the
normalized entry is position 3, ref `T`, alt `TCG`, which spells the same
altered sequence. -/
theorem normalize_indel_witness :
    ("TTTCGCGCGCGCG".toList = "TTTCGCGCGC".toList ++ "GCG".toList ++ [] ∧
        11 = "TTTCGCGCGC".toList.length + 1 ∧
        "GCG".toList.length ≠ "GCGCG".toList.length) ∧
      normalize "TTTCGCGCGCGCG".toList ⟨11, "GCG".toList, ["GCGCG".toList], []⟩ =
        ⟨3, "T".toList, ["TCG".toList], []⟩ ∧
      ∃ a, (normalize "TTTCGCGCGCGCG".toList
          ⟨11, "GCG".toList, ["GCGCG".toList], []⟩).alt = [a] ∧
        applyVariant "TTTCGCGCGCGCG".toList
          (normalize "TTTCGCGCGCGCG".toList ⟨11, "GCG".toList, ["GCGCG".toList], []⟩).pos
          (normalize "TTTCGCGCGCGCG".toList ⟨11, "GCG".toList, ["GCGCG".toList], []⟩).ref a =
          applyVariant "TTTCGCGCGCGCG".toList 11 "GCG".toList "GCGCG".toList :=
  ⟨by decide, by decide,
    (normalize_indel "TTTCGCGCGCGCG".toList ⟨11, "GCG".toList, ["GCGCG".toList], []⟩
      "GCGCG".toList "TTTCGCGCGC".toList [] rfl (by decide) (by decide) (by decide)).imp
      (fun _ h => ⟨h.1, h.2.2.1⟩)⟩

end AltNormalizer


/-! ## `AltNormalizer`: collapsing equivalent alts -/

namespace AltNormalizer

theorem mem_uniq (l : List (List Char)) (s : List Char) : s ∈ uniq l ↔ s ∈ l := by
  induction l with
  | nil => simp [uniq]
  | cons x xs ih =>
    simp only [uniq, List.mem_cons, List.mem_filter, ih, decide_eq_true_eq]
    by_cases h : s = x
    · simp [h]
    · simp [h]

theorem uniq_nodup (l : List (List Char)) : (uniq l).Nodup := by
  induction l with
  | nil => simp [uniq]
  | cons x xs ih =>
    simp only [uniq, List.nodup_cons, List.mem_filter, decide_eq_true_eq, ne_eq,
      not_true_eq_false, and_false, not_false_eq_true, true_and]
    exact ih.filter _

theorem indexIn_get (s : List Char) (l : List (List Char)) (h : s ∈ l) :
    l.get? (indexIn s l) = some s := by
  induction l with
  | nil => simp at h
  | cons x xs ih =>
    simp only [indexIn]
    by_cases hx : x = s
    · simp [hx]
    · rw [if_neg hx]
      have hs : s ∈ xs := by
        rcases List.mem_cons.1 h with h | h
        · exact absurd h.symm hx
        · exact h
      simpa using ih hs

theorem normalizeAlt_self (look : Nat → Option Char) (pos : Nat) (r : List Char) :
    normalizeAlt look pos r r = none := by
  simp [normalizeAlt, rightTrim_self, stripCommon]

/-- C11. For every entry, `normalize` keeps one alt per distinct normalized
allele other than the reference allele (the surviving alts are pairwise
different and are exactly the normalized alleles that differ from the
normalized ref), and remaps the genotype calls of every sample: index 0
stays 0, the index of an alt identical to the reference allele becomes 0,
and the index of any other alt becomes the index that denotes its normalized
allele in the normalized entry. -/
theorem normalize_collapses (seq : List Char) (e : Entry) :
    (normalize seq e).alt.Nodup ∧
      (∀ s, s ∈ (normalize seq e).alt ↔
        (s ∈ normalizedAlts seq e ∧ s ≠ (normalize seq e).ref)) ∧
      (normalizedAlts seq e).length = e.alt.length ∧
      (normalize seq e).genotypes = e.genotypes.map (List.map (remap seq e)) ∧
      remap seq e 0 = 0 ∧
      (∀ i, e.alt.get? i = some e.ref → remap seq e (i + 1) = 0) ∧
      (∀ i s, (normalizedAlts seq e).get? i = some s →
        allele (normalize seq e) (remap seq e (i + 1)) = some s) := by
  have hmem : ∀ s, s ∈ newAlts seq e ↔ (s ∈ normalizedAlts seq e ∧ s ≠ newRef seq e) := by
    intro s
    simp [newAlts, mem_uniq, List.mem_filter]
  refine ⟨uniq_nodup _, hmem, by simp [normalizedAlts, variants], rfl, rfl, ?_, ?_⟩
  · intro i hi
    have : (normalizedAlts seq e).get? i = some (newRef seq e) := by
      simp only [normalizedAlts, variants, List.get?_eq_getElem?, List.getElem?_map] at hi ⊢
      rw [hi]
      simp [normalizeAlt_self, express]
    unfold remap
    rw [if_neg (Nat.succ_ne_zero i), Nat.add_sub_cancel, this]
    simp
  · intro i s hs
    unfold remap
    rw [if_neg (Nat.succ_ne_zero i), Nat.add_sub_cancel, hs]
    simp only
    by_cases hr : s = newRef seq e
    · rw [if_pos hr, hr]
      rfl
    · rw [if_neg hr]
      have hin : s ∈ newAlts seq e := (hmem s).2 ⟨List.get?_mem hs, hr⟩
      simp only [allele, Nat.add_sub_cancel, if_neg (Nat.succ_ne_zero _)]
      exact indexIn_get s _ hin

/-- C11, at the entry of the test `equivalentAlts`: reference
`TTTCGCGCGCGCG`, position 4, ref `CGCGCG`, alts `CGCGCG` and `CGCG`,
genotypes `0/1` and `1/2`; the result is position 3, ref `TCG`, the single
alt `T`, genotypes `0/0` and `0/1`, the first alt (identical to the ref)
mapping to index 0. -/
theorem normalize_collapses_witness :
    (["CGCGCG".toList, "CGCG".toList].get? 0 = some "CGCGCG".toList) ∧
      normalize "TTTCGCGCGCGCG".toList
        ⟨4, "CGCGCG".toList, ["CGCGCG".toList, "CGCG".toList], [[0, 1], [1, 2]]⟩ =
        ⟨3, "TCG".toList, ["T".toList], [[0, 0], [0, 1]]⟩ ∧
      remap "TTTCGCGCGCGCG".toList
        ⟨4, "CGCGCG".toList, ["CGCGCG".toList, "CGCG".toList], [[0, 1], [1, 2]]⟩ (0 + 1) = 0 :=
  ⟨rfl, by decide,
    (normalize_collapses "TTTCGCGCGCGCG".toList
      ⟨4, "CGCGCG".toList, ["CGCGCG".toList, "CGCG".toList], [[0, 1], [1, 2]]⟩).2.2.2.2.2.1
      0 rfl⟩

end AltNormalizer


/-! ## `MergeSorted`: the selection of the minimum lookahead -/

namespace IntersectFull

theorem recLE_refl (x : Record) : recLE x x :=
  Or.inr ⟨strverscmp_self _, Or.inr ⟨rfl, le_refl _⟩⟩

theorem recLE_total (x y : Record) : recLE x y ∨ recLE y x := by
  have hneg := strverscmp_neg x.chrom y.chrom
  unfold recLE
  rcases lt_trichotomy (strverscmp x.chrom y.chrom) 0 with h | h | h
  · exact Or.inl (Or.inl h)
  · have h' : strverscmp y.chrom x.chrom = 0 := by omega
    rcases lt_trichotomy x.start y.start with hs | hs | hs
    · exact Or.inl (Or.inr ⟨h, Or.inl hs⟩)
    · rcases le_total x.stop y.stop with he | he
      · exact Or.inl (Or.inr ⟨h, Or.inr ⟨hs, he⟩⟩)
      · exact Or.inr (Or.inr ⟨h', Or.inr ⟨hs.symm, he⟩⟩)
    · exact Or.inr (Or.inr ⟨h', Or.inl hs⟩)
  · exact Or.inr (Or.inl (by omega))

end IntersectFull

namespace MergeSorted

open IntersectFull

theorem pick_none (streams : List (List Record)) (h : pick streams = none) (j : Nat) :
    streamAt streams j = [] := by
  induction streams generalizing j with
  | nil => rfl
  | cons s rest ih =>
    cases s with
    | nil =>
      simp only [pick, Option.map_eq_none'] at h
      cases j with
      | zero => rfl
      | succ j => exact ih h j
    | cons x xs =>
      simp only [pick] at h
      split at h
      · cases h
      · split at h <;> cases h

theorem pick_some (streams : List (List Record)) (m : Nat × Record)
    (h : pick streams = some m) :
    (∃ t, streamAt streams m.1 = m.2 :: t) ∧
      ∀ j x t, streamAt streams j = x :: t → recLE m.2 x ∧ (j < m.1 → ¬ recLE x m.2) := by
  induction streams generalizing m with
  | nil => cases h
  | cons s rest ih =>
    cases s with
    | nil =>
      simp only [pick, Option.map_eq_some'] at h
      obtain ⟨m', hm', rfl⟩ := h
      obtain ⟨h1, h2⟩ := ih m' hm'
      refine ⟨h1, ?_⟩
      intro j x t hj
      cases j with
      | zero => cases hj
      | succ j =>
        have := h2 j x t hj
        exact ⟨this.1, fun hlt => this.2 (by simpa using hlt)⟩
    | cons y ys =>
      simp only [pick] at h
      cases hp : pick rest with
      | none =>
        rw [hp] at h
        simp only [Option.some.injEq] at h
        subst h
        refine ⟨⟨ys, rfl⟩, ?_⟩
        intro j x t hj
        cases j with
        | zero =>
          simp only [streamAt, List.cons.injEq] at hj
          rw [← hj.1]
          exact ⟨recLE_refl _, fun hlt => absurd hlt (lt_irrefl _)⟩
        | succ j =>
          rw [streamAt, pick_none rest hp j] at hj
          cases hj
      | some m' =>
        rw [hp] at h
        obtain ⟨h1, h2⟩ := ih m' hp
        simp only at h
        by_cases hle : recLE y m'.2
        · rw [if_pos hle] at h
          simp only [Option.some.injEq] at h
          subst h
          refine ⟨⟨ys, rfl⟩, ?_⟩
          intro j x t hj
          cases j with
          | zero =>
            simp only [streamAt, List.cons.injEq] at hj
            rw [← hj.1]
            exact ⟨recLE_refl _, fun hlt => absurd hlt (lt_irrefl _)⟩
          | succ j =>
            exact ⟨recLE_trans hle (h2 j x t hj).1, fun hlt => absurd hlt (Nat.not_lt_zero _)⟩
        · rw [if_neg hle] at h
          simp only [Option.some.injEq] at h
          subst h
          refine ⟨h1, ?_⟩
          intro j x t hj
          cases j with
          | zero =>
            simp only [streamAt, List.cons.injEq] at hj
            rw [← hj.1]
            exact ⟨(recLE_total y m'.2).resolve_left hle, fun _ => hle⟩
          | succ j =>
            have := h2 j x t hj
            exact ⟨this.1, fun hlt => this.2 (by simpa using hlt)⟩

theorem streamAt_advance (i : Nat) (streams : List (List Record)) (j : Nat) :
    streamAt (advance i streams) j =
      if j = i then (streamAt streams i).tail else streamAt streams j := by
  induction streams generalizing i j with
  | nil => cases i <;> simp [advance, streamAt]
  | cons s rest ih =>
    cases i with
    | zero =>
      cases j with
      | zero => simp [advance, streamAt]
      | succ j => simp [advance, streamAt]
    | succ i =>
      cases j with
      | zero => simp [advance, streamAt]
      | succ j => simp [advance, streamAt, ih]

theorem total_advance (i : Nat) (streams : List (List Record)) (r : Record) (t : List Record)
    (h : streamAt streams i = r :: t) :
    ((advance i streams).map List.length).sum + 1 = (streams.map List.length).sum := by
  induction streams generalizing i with
  | nil => cases h
  | cons s rest ih =>
    cases i with
    | zero =>
      simp only [streamAt] at h
      subst h
      simp [advance]
      omega
    | succ i =>
      simp only [streamAt] at h
      have := ih i h
      simp only [advance, List.map_cons, List.sum_cons]
      omega

theorem perm_advance (i : Nat) (streams : List (List Record)) (r : Record) (t : List Record)
    (h : streamAt streams i = r :: t) :
    streams.flatten.Perm (r :: (advance i streams).flatten) := by
  induction streams generalizing i with
  | nil => cases h
  | cons s rest ih =>
    cases i with
    | zero =>
      simp only [streamAt] at h
      subst h
      simp [advance]
    | succ i =>
      simp only [streamAt] at h
      simp only [advance, List.flatten_cons]
      exact (List.Perm.append_left s (ih i h)).trans List.perm_middle

theorem mem_flatten_streamAt (streams : List (List Record)) (x : Record) :
    x ∈ streams.flatten ↔ ∃ j, x ∈ streamAt streams j := by
  induction streams with
  | nil => simp [streamAt]
  | cons s rest ih =>
    rw [List.flatten_cons, List.mem_append, ih]
    constructor
    · rintro (h | ⟨j, h⟩)
      · exact ⟨0, h⟩
      · exact ⟨j + 1, h⟩
    · rintro ⟨j, h⟩
      cases j with
      | zero => exact Or.inl h
      | succ j => exact Or.inr ⟨j, h⟩

theorem streamAt_mem_or_nil (streams : List (List Record)) (j : Nat) :
    streamAt streams j ∈ streams ∨ streamAt streams j = [] := by
  induction streams generalizing j with
  | nil => exact Or.inr rfl
  | cons s rest ih =>
    cases j with
    | zero => exact Or.inl (by simp [streamAt])
    | succ j =>
      rcases ih j with h | h
      · exact Or.inl (by simp [streamAt, h])
      · exact Or.inr h

end MergeSorted


/-! ## `MergeSorted`: the merged stream -/

namespace IntersectFull

theorem compare_ne_after_of_recLE (adj : Bool) {v p : Record} (hv : WellFormed adj v)
    (hp : WellFormed adj p) (hle : recLE v p) : compare adj v p ≠ Compare.AFTER := by
  rcases hle with hlt | ⟨heq, hco⟩
  · rw [compare_of_lt adj v p hlt]
    simp
  · obtain ⟨w1, i1⟩ := hv
    obtain ⟨w2, i2⟩ := hp
    cases adj
    · rw [compare_false_of_eq v p heq]
      split_ifs <;> first | (simp; done) | (exfalso; omega)
    · rw [compare_true_of_eq v p heq]
      have j1 := i1 rfl
      have j2 := i2 rfl
      simp only [j1, j2]
      split_ifs <;> first | (simp; done) | (exfalso; omega)

end IntersectFull

namespace MergeSorted

open IntersectFull

theorem merge_spec (n : Nat) (streams : List (List Record))
    (hn : (streams.map List.length).sum = n)
    (hs : ∀ j, List.Pairwise recLE (streamAt streams j)) :
    ∃ out, merge n streams = some out ∧
      (out.map Prod.snd).Perm streams.flatten ∧
      (∀ j, (out.filter (fun x => decide (x.1 = j))).map Prod.snd = streamAt streams j) ∧
      List.Pairwise recLE (out.map Prod.snd) ∧
      List.Pairwise (fun x y => recLE y.2 x.2 → x.1 ≤ y.1) out := by
  induction n generalizing streams with
  | zero =>
    have hnil : ∀ j, streamAt streams j = [] := by
      intro j
      rcases streamAt_mem_or_nil streams j with h | h
      · have : (streamAt streams j).length ≤ (streams.map List.length).sum :=
          List.single_le_sum (by simp) _ (List.mem_map_of_mem _ h)
        exact List.length_eq_zero.1 (by omega)
      · exact h
    have hflat : streams.flatten = [] := by
      apply List.eq_nil_iff_forall_not_mem.2
      intro x hx
      obtain ⟨j, hj⟩ := (mem_flatten_streamAt streams x).1 hx
      rw [hnil j] at hj
      cases hj
    refine ⟨[], rfl, by rw [hflat]; exact List.Perm.refl _, ?_, List.Pairwise.nil,
      List.Pairwise.nil⟩
    intro j
    rw [hnil j]
    rfl
  | succ n ih =>
    cases hp : pick streams with
    | none =>
      have hnil := pick_none streams hp
      have hflat : streams.flatten = [] := by
        apply List.eq_nil_iff_forall_not_mem.2
        intro x hx
        obtain ⟨j, hj⟩ := (mem_flatten_streamAt streams x).1 hx
        rw [hnil j] at hj
        cases hj
      refine ⟨[], by simp [merge, hp], by rw [hflat]; exact List.Perm.refl _, ?_,
        List.Pairwise.nil, List.Pairwise.nil⟩
      intro j
      rw [hnil j]
      rfl
    | some m =>
      obtain ⟨⟨t, ht⟩, hmin⟩ := pick_some streams m hp
      have hdis : disorder m.1 streams = false := by
        unfold disorder
        rw [ht]
        cases t with
        | nil => rfl
        | cons x t' =>
          have := hs m.1
          rw [ht] at this
          simp [(List.pairwise_cons.1 this).1 x (by simp)]
      have hsub : ∀ j x, x ∈ streamAt (advance m.1 streams) j → x ∈ streamAt streams j := by
        intro j x hx
        rw [streamAt_advance] at hx
        split at hx
        · next hj => rw [hj]; exact List.mem_of_mem_tail hx
        · exact hx
      have hs' : ∀ j, List.Pairwise recLE (streamAt (advance m.1 streams) j) := by
        intro j
        rw [streamAt_advance]
        split
        · exact (hs m.1).sublist (List.tail_sublist _)
        · exact hs j
      have hn' : ((advance m.1 streams).map List.length).sum = n := by
        have := total_advance m.1 streams m.2 t ht
        omega
      obtain ⟨out, ho, h1, h2, h3, h4⟩ := ih (advance m.1 streams) hn' hs'
      have hlow : ∀ j x, x ∈ streamAt streams j →
          recLE m.2 x ∧ (j < m.1 → recLE x m.2 → False) := by
        intro j x hx
        cases hj : streamAt streams j with
        | nil => rw [hj] at hx; cases hx
        | cons y t' =>
          have hy := hmin j y t' hj
          have hyx : recLE y x := by
            rw [hj] at hx
            rcases List.mem_cons.1 hx with h | h
            · rw [h]; exact recLE_refl _
            · have := hs j
              rw [hj] at this
              exact (List.pairwise_cons.1 this).1 x h
          exact ⟨recLE_trans hy.1 hyx, fun hlt hxm => hy.2 hlt (recLE_trans hyx hxm)⟩
      refine ⟨m :: out, by simp [merge, hp, hdis, ho], ?_, ?_, ?_, ?_⟩
      · rw [List.map_cons]
        exact ((List.Perm.cons m.2 h1)).trans (perm_advance m.1 streams m.2 t ht).symm
      · intro j
        rw [List.filter_cons]
        by_cases hj : m.1 = j
        · simp only [hj, decide_True, if_true, List.map_cons]
          rw [h2 j, streamAt_advance, if_pos hj.symm, ← hj, ht]
          rfl
        · simp only [hj, decide_False, Bool.false_eq_true, if_false]
          rw [h2 j, streamAt_advance, if_neg (fun h => hj h.symm)]
      · rw [List.map_cons, List.pairwise_cons]
        refine ⟨?_, h3⟩
        intro x hx
        obtain ⟨j, hj⟩ := (mem_flatten_streamAt _ x).1 (h1.subset hx)
        exact (hlow j x (hsub j x hj)).1
      · rw [List.pairwise_cons]
        refine ⟨?_, h4⟩
        intro y hy hle
        by_contra hlt
        have hmem : y.2 ∈ (out.filter (fun x => decide (x.1 = y.1))).map Prod.snd :=
          List.mem_map_of_mem _ (List.mem_filter.2 ⟨hy, by simp⟩)
        rw [h2 y.1] at hmem
        exact (hlow y.1 y.2 (hsub y.1 y.2 hmem)).2 (by omega) hle

end MergeSorted


namespace MergeSorted

open IntersectFull

/-- C14. For every finite family of input streams that are each sorted
ascending by (chrom, start, stop), `MergeSorted` delivers an output (no
`UnsortedDataError`) that is a permutation of the union of the inputs, is
ascending (each record is followed by one that is not lower; for records
satisfying the data-model invariants no adjacent pair has
`compare(prev, next) = AFTER`), and is stable: the records tagged with
source `j` are stream `j` in its own order, and of two records that tie the
one emitted first has the lower or the same source-stream index. -/
theorem mergeSorted_stable (streams : List (List Record))
    (h : ∀ s ∈ streams, SortedAsc s) :
    ∃ out, mergeSorted streams = some out ∧
      (out.map Prod.snd).Perm streams.flatten ∧
      SortedAsc (out.map Prod.snd) ∧
      (∀ adj, (∀ s ∈ streams, ∀ r ∈ s, WellFormed adj r) →
        List.Chain' (fun p q => compare adj p q ≠ Compare.AFTER) (out.map Prod.snd)) ∧
      (∀ j, (out.filter (fun x => decide (x.1 = j))).map Prod.snd = streamAt streams j) ∧
      List.Pairwise (fun x y => recLE y.2 x.2 → x.1 ≤ y.1) out := by
  have hs : ∀ j, List.Pairwise recLE (streamAt streams j) := by
    intro j
    rcases streamAt_mem_or_nil streams j with hj | hj
    · exact pairwise_of_chain' _ ((sortedAsc_iff_chain' _).1 (h _ hj))
    · rw [hj]; exact List.Pairwise.nil
  obtain ⟨out, ho, h1, h2, h3, h4⟩ := merge_spec _ streams rfl hs
  refine ⟨out, ho, h1, (sortedAsc_iff_chain' _).2 h3.chain', ?_, h2, h4⟩
  intro adj hw
  have hwf : ∀ r ∈ out.map Prod.snd, WellFormed adj r := by
    intro r hr
    obtain ⟨s, hs1, hs2⟩ := List.mem_flatten.1 (h1.subset hr)
    exact hw s hs1 r hs2
  exact (List.Pairwise.imp_of_mem
    (fun {p q} hp hq hle => compare_ne_after_of_recLE adj (hwf p hp) (hwf q hq) hle) h3).chain'

/-- C14, on the streams `[1,5) [10,12)` and `[1,5) [4,8)`: the two records
`[1,5)` tie and come out in the order of their source index. -/
theorem mergeSorted_stable_witness :
    (∀ s ∈ [[(⟨"1", 1, 5, false, "a"⟩ : Record), ⟨"1", 10, 12, false, "b"⟩],
        [⟨"1", 1, 5, false, "c"⟩, ⟨"1", 4, 8, false, "d"⟩]], SortedAsc s) ∧
      mergeSorted [[(⟨"1", 1, 5, false, "a"⟩ : Record), ⟨"1", 10, 12, false, "b"⟩],
        [⟨"1", 1, 5, false, "c"⟩, ⟨"1", 4, 8, false, "d"⟩]] =
        some [(0, ⟨"1", 1, 5, false, "a"⟩), (1, ⟨"1", 1, 5, false, "c"⟩),
          (1, ⟨"1", 4, 8, false, "d"⟩), (0, ⟨"1", 10, 12, false, "b"⟩)] ∧
      ∃ out, mergeSorted [[(⟨"1", 1, 5, false, "a"⟩ : Record), ⟨"1", 10, 12, false, "b"⟩],
          [⟨"1", 1, 5, false, "c"⟩, ⟨"1", 4, 8, false, "d"⟩]] = some out ∧
        SortedAsc (out.map Prod.snd) :=
  ⟨by decide, by decide,
    (mergeSorted_stable [[(⟨"1", 1, 5, false, "a"⟩ : Record), ⟨"1", 10, 12, false, "b"⟩],
      [⟨"1", 1, 5, false, "c"⟩, ⟨"1", 4, 8, false, "d"⟩]] (by decide)).imp
      (fun _ h => ⟨h.1, h.2.2.1⟩)⟩

end MergeSorted


/-! ## `GroupOverlapping`: groups of a sorted stream -/

namespace GroupOverlapping

open IntersectFull

theorem recLE_same {x y : Record} (h : strverscmp x.chrom y.chrom = 0) (hle : recLE x y) :
    x.start < y.start ∨ (x.start = y.start ∧ x.stop ≤ y.stop) := by
  rcases hle with hlt | ⟨_, hco⟩
  · omega
  · exact hco

theorem foldl_max_le (xs : List Record) (m p : Nat) (hm : m ≤ p)
    (h : ∀ y ∈ xs, y.stop ≤ p) : xs.foldl (fun m y => max m y.stop) m ≤ p := by
  induction xs generalizing m with
  | nil => exact hm
  | cons y ys ih =>
    rw [List.foldl_cons]
    exact ih _ (max_le hm (h y (by simp))) (fun z hz => h z (by simp [hz]))

theorem span_append (x : Record) (xs : List Record) (r : Record) :
    span ((x :: xs) ++ [r]) =
      ⟨(span (x :: xs)).chrom, (span (x :: xs)).start, max (span (x :: xs)).stop r.stop,
        false, ""⟩ := by
  simp [span, List.foldl_append]

theorem span_singleton (r : Record) : span [r] = ⟨r.chrom, r.start, r.stop, false, ""⟩ := rfl

/-- On a sorted stream of one chromosome no record lies before the span of
the records that precede it. -/
theorem compare_span_ne_after (c : String) (x : Record) (xs : List Record) (r : Record)
    (hc : ∀ y ∈ x :: xs, y.chrom = c) (hrc : r.chrom = c) (hrw : r.start ≤ r.stop)
    (hsorted : List.Pairwise recLE (x :: xs)) (hle : ∀ y ∈ x :: xs, recLE y r) :
    compare false (span (x :: xs)) r ≠ Compare.AFTER := by
  have hx := hc x (by simp)
  have h0 : strverscmp (span (x :: xs)).chrom r.chrom = 0 := by
    simp only [span, hx, hrc]
    exact strverscmp_self _
  rw [compare_false_of_eq _ _ h0]
  have hxr := recLE_same (by rw [hx, hrc]; exact strverscmp_self _) (hle x (by simp))
  split_ifs with h1 h2 h3
  · simp
  · simp
  · exfalso
    simp only [span] at h2 h3
    apply h2
    have hp : r.start = x.start ∧ r.stop = r.start := by omega
    apply foldl_max_le
    · omega
    · intro y hy
      have hyr := recLE_same (by rw [hc y (by simp [hy]), hrc]; exact strverscmp_self _)
        (hle y (by simp [hy]))
      have hxy := recLE_same (by rw [hx, hc y (by simp [hy])]; exact strverscmp_self _)
        ((List.pairwise_cons.1 hsorted).1 y hy)
      omega
  · simp

theorem linked_singleton (r : Record) : Linked [r] := by
  intro pre r' post h hpre
  cases pre with
  | nil => exact absurd rfl hpre
  | cons a pre' =>
    have := congrArg List.length h
    simp at this

theorem linked_append (g : List Record) (r : Record) (hg : Linked g)
    (hr : compare false (span g) r = Compare.INTERSECT) : Linked (g ++ [r]) := by
  intro pre r' post h hpre
  rcases List.eq_nil_or_concat post with hp | ⟨post', z, hp⟩
  · subst hp
    have h' := List.append_inj' h rfl
    rw [← h'.1]
    have : r = r' := by simpa using h'.2
    rw [← this]
    exact hr
  · rw [List.concat_eq_append] at hp
    subst hp
    have h2 : g ++ [r] = (pre ++ r' :: post') ++ [z] := by rw [h]; simp
    have h' := List.append_inj' h2 rfl
    exact hg pre r' post' h'.1 hpre

end GroupOverlapping


namespace GroupOverlapping

open IntersectFull

theorem push_before (g : Group) (fl : List (List Record)) (r : Record)
    (h : compare false g.region r = Compare.BEFORE) :
    push ⟨[g], fl⟩ r = ⟨[Group.opened r], fl ++ [g.records]⟩ := by
  simp [push, passed, extendFirst, h]

theorem push_intersect (g : Group) (fl : List (List Record)) (r : Record)
    (h : compare false g.region r = Compare.INTERSECT) :
    push ⟨[g], fl⟩ r = ⟨[g.extend r], fl⟩ := by
  simp [push, passed, overlaps, extendFirst, h]

theorem before_stop_le {a b : Record} (h0 : strverscmp a.chrom b.chrom = 0)
    (h : compare false a b = Compare.BEFORE) : a.stop ≤ b.start := by
  rw [compare_false_of_eq a b h0] at h
  split_ifs at h with h1 h2 h3
  exact h2

theorem foldl_push_spec (c : String) (rest : List Record) (g : Group)
    (fl : List (List Record)) (hne : g.records ≠ []) (hreg : g.region = span g.records)
    (hc : ∀ y ∈ g.records ++ rest, y.chrom = c)
    (hw : ∀ y ∈ g.records ++ rest, y.start ≤ y.stop)
    (hs : List.Pairwise recLE (g.records ++ rest)) :
    ∃ ext tail,
      (rest.foldl push ⟨[g], fl⟩).flushed ++
          (rest.foldl push ⟨[g], fl⟩).pending.map Group.records =
        fl ++ (g.records ++ ext) :: tail ∧
      ext ++ tail.flatten = rest ∧ (∀ t ∈ tail, t ≠ [] ∧ Linked t) ∧
      (Linked g.records → Linked (g.records ++ ext)) ∧
      Separated ((g.records ++ ext) :: tail) := by
  induction rest generalizing g fl with
  | nil =>
    refine ⟨[], [], by simp, rfl, by simp, by simp, ?_⟩
    exact List.chain'_singleton _
  | cons r rest ih =>
    obtain ⟨x, xs, hx⟩ := List.exists_cons_of_ne_nil hne
    have hrc : r.chrom = c := hc r (by simp)
    have hrw : r.start ≤ r.stop := hw r (by simp)
    have hs1 := List.pairwise_append.1 hs
    have hna : compare false g.region r ≠ Compare.AFTER := by
      rw [hreg, hx]
      apply compare_span_ne_after c x xs r _ hrc hrw
      · rw [← hx]; exact hs1.1
      · intro y hy
        exact hs1.2.2 y (by rw [hx]; exact hy) r (by simp)
      · intro y hy
        exact hc y (by rw [hx]; simp only [List.mem_append]; exact Or.inl hy)
    rw [List.foldl_cons]
    rcases Compare.cases3 (compare false g.region r) with hcmp | hcmp | hcmp
    · rw [push_before g fl r hcmp]
      obtain ⟨ext, tail, h1, h2, h3, h4, h5⟩ := ih (Group.opened r) (fl ++ [g.records])
        (by simp [Group.opened]) rfl
        (fun y hy => hc y (by
          simp only [Group.opened, List.mem_append, List.mem_cons, List.mem_singleton,
            List.not_mem_nil, or_false] at hy ⊢
          tauto))
        (fun y hy => hw y (by
          simp only [Group.opened, List.mem_append, List.mem_cons, List.mem_singleton,
            List.not_mem_nil, or_false] at hy ⊢
          tauto))
        (by
          simp only [Group.opened, List.singleton_append]
          exact hs1.2.1)
      have h4 : Linked [r] → Linked ([r] ++ ext) := h4
      have h5 : Separated (([r] ++ ext) :: tail) := h5
      refine ⟨[], ([r] ++ ext) :: tail, ?_, ?_, ?_, ?_, ?_⟩
      · rw [h1]; simp [Group.opened]
      · simp [← h2]
      · intro t ht
        rcases List.mem_cons.1 ht with ht | ht
        · rw [ht]
          exact ⟨by simp, h4 (linked_singleton r)⟩
        · exact h3 t ht
      · intro hl
        simpa using hl
      · unfold Separated
        rw [List.append_nil, List.chain'_cons]
        refine ⟨?_, h5⟩
        intro r' hr'
        have : r = r' := by simpa using hr'
        rw [← this, ← hreg]
        refine ⟨hcmp, ?_⟩
        have h0 : strverscmp g.region.chrom r.chrom = 0 := by
          rw [hreg, hx, hrc]
          simp only [span, hc x (by rw [hx]; simp)]
          exact strverscmp_self _
        exact before_stop_le h0 hcmp
    · exact absurd hcmp hna
    · rw [push_intersect g fl r hcmp]
      have hreg' : (g.extend r).region = span (g.extend r).records := by
        simp only [Group.extend, hx]
        rw [span_append, ← hx, ← hreg]
        rfl
      obtain ⟨ext, tail, h1, h2, h3, h4, h5⟩ := ih (g.extend r) fl
        (by simp [Group.extend]) hreg'
        (fun y hy => hc y (by simpa [Group.extend] using hy))
        (fun y hy => hw y (by simpa [Group.extend] using hy))
        (by simpa [Group.extend] using hs)
      have h4 : Linked (g.records ++ [r]) → Linked (g.records ++ [r] ++ ext) := h4
      have h5 : Separated ((g.records ++ [r] ++ ext) :: tail) := h5
      refine ⟨r :: ext, tail, ?_, ?_, h3, ?_, ?_⟩
      · rw [h1]; simp [Group.extend]
      · simp [← h2]
      · intro hl
        have := h4 (linked_append g.records r hl (by rw [← hreg]; exact hcmp))
        simpa using this
      · simpa using h5

/-- C15. For every sequence of intervals of one chromosome sorted ascending
by (start, stop), the groups flushed by `GroupOverlapping` are a partition
of the sequence into consecutive runs that keeps the arrival order (their
concatenation is the input), no group is empty, inside a group every record
but the first overlaps the span of the records before it, and a group is
closed exactly at a record that lies wholly after the span of the group,
starting at or past its trailing boundary: such a record is the first of
the next group. -/
theorem groupOverlapping_runs (c : String) (rs : List Record) (hs : SortedAsc rs)
    (hc : ∀ r ∈ rs, r.chrom = c) (hw : ∀ r ∈ rs, r.start ≤ r.stop) :
    (groupOverlapping rs).flatten = rs ∧
      (∀ g ∈ groupOverlapping rs, g ≠ [] ∧ Linked g) ∧
      Separated (groupOverlapping rs) := by
  cases rs with
  | nil =>
    refine ⟨rfl, ?_, List.chain'_nil⟩
    intro g hg
    simp [groupOverlapping] at hg
  | cons r rest =>
    have hp : push ⟨[], []⟩ r = ⟨[Group.opened r], []⟩ := by
      simp [push, extendFirst]
    have hpw := pairwise_of_chain' _ ((sortedAsc_iff_chain' _).1 hs)
    obtain ⟨ext, tail, h1, h2, h3, h4, h5⟩ := foldl_push_spec c rest (Group.opened r) []
      (by simp [Group.opened]) rfl (by simpa [Group.opened] using hc)
      (by simpa [Group.opened] using hw) (by simpa [Group.opened] using hpw)
    have h4 : Linked [r] → Linked ([r] ++ ext) := h4
    have h5 : Separated (([r] ++ ext) :: tail) := h5
    unfold groupOverlapping
    rw [List.foldl_cons, hp, h1]
    simp only [Group.opened, List.nil_append]
    refine ⟨by simp [← h2], ?_, h5⟩
    intro g hg
    rcases List.mem_cons.1 hg with hg | hg
    · rw [hg]
      exact ⟨by simp, h4 (linked_singleton r)⟩
    · exact h3 g hg

/-- C15, on the intervals `[1,5)`, `[4,8)`, `[10,12)`: exactly the two
groups `[1,5) [4,8)` and `[10,12)`. -/
theorem groupOverlapping_runs_witness :
    (SortedAsc [(⟨"1", 1, 5, false, "a"⟩ : Record), ⟨"1", 4, 8, false, "b"⟩,
          ⟨"1", 10, 12, false, "c"⟩] ∧
        (∀ r ∈ [(⟨"1", 1, 5, false, "a"⟩ : Record), ⟨"1", 4, 8, false, "b"⟩,
          ⟨"1", 10, 12, false, "c"⟩], r.chrom = "1") ∧
        (∀ r ∈ [(⟨"1", 1, 5, false, "a"⟩ : Record), ⟨"1", 4, 8, false, "b"⟩,
          ⟨"1", 10, 12, false, "c"⟩], r.start ≤ r.stop)) ∧
      groupOverlapping [⟨"1", 1, 5, false, "a"⟩, ⟨"1", 4, 8, false, "b"⟩,
          ⟨"1", 10, 12, false, "c"⟩] =
        [[⟨"1", 1, 5, false, "a"⟩, ⟨"1", 4, 8, false, "b"⟩], [⟨"1", 10, 12, false, "c"⟩]] ∧
      (groupOverlapping [⟨"1", 1, 5, false, "a"⟩, ⟨"1", 4, 8, false, "b"⟩,
          ⟨"1", 10, 12, false, "c"⟩]).flatten =
        [⟨"1", 1, 5, false, "a"⟩, ⟨"1", 4, 8, false, "b"⟩, ⟨"1", 10, 12, false, "c"⟩] :=
  ⟨by decide, by decide,
    (groupOverlapping_runs "1" [⟨"1", 1, 5, false, "a"⟩, ⟨"1", 4, 8, false, "b"⟩,
      ⟨"1", 10, 12, false, "c"⟩] (by decide) (by decide) (by decide)).1⟩

end GroupOverlapping


/-! ## `Tokenizer::extract` on a field that is not a number -/

namespace Tokenizer

theorem scanDigits_of_digits (v : Nat) (f : List Char)
    (h : ∀ c ∈ f, isdigit c.toNat = true) :
    scanDigits v f = (decVal v (f.map Char.toNat), []) := by
  induction f generalizing v with
  | nil => rfl
  | cons c cs ih =>
    rw [scanDigits, if_pos (h c (by simp)), List.map_cons, decVal_cons]
    exact ih _ (fun d hd => h d (by simp [hd]))

theorem digits_of_scanDigits (v : Nat) (f : List Char) (h : (scanDigits v f).2 = []) :
    ∀ c ∈ f, isdigit c.toNat = true := by
  induction f generalizing v with
  | nil => intro c hc; cases hc
  | cons c cs ih =>
    rw [scanDigits] at h
    by_cases hd : isdigit c.toNat = true
    · rw [if_pos hd] at h
      intro d hd'
      rcases List.mem_cons.1 hd' with h1 | h1
      · rw [h1]; exact hd
      · exact ih _ h d h1
    · rw [if_neg hd] at h
      cases h

theorem scanDigits_valid (f : List Char) (bound : Nat) :
    (f.isEmpty = false ∧ (scanDigits 0 f).2.isEmpty = true ∧ (scanDigits 0 f).1 < bound) ↔
      (f ≠ [] ∧ (∀ c ∈ f, isdigit c.toNat = true) ∧ decVal 0 (f.map Char.toNat) < bound) := by
  constructor
  · rintro ⟨h1, h2, h3⟩
    have hd := digits_of_scanDigits 0 f (List.isEmpty_iff.1 h2)
    rw [scanDigits_of_digits 0 f hd] at h3
    exact ⟨fun h => (by rw [h] at h1; cases h1), hd, h3⟩
  · rintro ⟨h1, h2, h3⟩
    rw [scanDigits_of_digits 0 f h2]
    refine ⟨?_, rfl, h3⟩
    cases f with
    | nil => exact absurd rfl h1
    | cons c cs => rfl

theorem parseUnsigned_none (bits : Nat) (f : List Char) (h : ¬ ValidUnsigned bits f) :
    parseUnsigned bits f = none := by
  unfold parseUnsigned
  by_cases he : f.isEmpty = true
  · rw [if_pos he]
  · rw [if_neg he]
    split
    · next hc =>
      exfalso
      apply h
      simp only [Bool.and_eq_true, decide_eq_true_eq] at hc
      exact (scanDigits_valid f (2 ^ bits)).1 ⟨by simpa using he, hc.1, hc.2⟩
    · rfl

theorem parseSigned_none (bits : Nat) (f : List Char) (h : ¬ ValidSigned bits f) :
    parseSigned bits f = none := by
  unfold parseSigned
  split
  · next ds =>
    by_cases he : ds.isEmpty = true
    · rw [if_pos he]
    · rw [if_neg he]
      split
      · next hc =>
        exfalso
        apply h
        simp only [Bool.and_eq_true, decide_eq_true_eq] at hc
        have := (scanDigits_valid ds (2 ^ (bits - 1) + 1)).1
          ⟨by simpa using he, hc.1, by omega⟩
        exact Or.inr ⟨ds, rfl, this.1, this.2.1, by omega⟩
      · rfl
  · next hne =>
    by_cases he : f.isEmpty = true
    · rw [if_pos he]
    · rw [if_neg he]
      split
      · next hc =>
        exfalso
        apply h
        simp only [Bool.and_eq_true, decide_eq_true_eq] at hc
        exact Or.inl ((scanDigits_valid f (2 ^ (bits - 1))).1 ⟨by simpa using he, hc.1, hc.2⟩)
      · rfl

/-- C17. For every tokenizer that has not reached the end of its input, an
`extract` into an unsigned or a signed integer type whose current field is
not a valid number of that type returns false and leaves the tokenizer as it
was: the field is not consumed, so that the next `extract` into a string
returns that same field and goes on to the fields after it. -/
theorem extract_rejects (t : Tokenizer) (l : List Char) (hrest : t.rest = some l) :
    (∀ bits, ¬ ValidUnsigned bits (field t.delim l) → extractUnsigned bits t = (none, t)) ∧
      (∀ bits, ¬ ValidSigned bits (field t.delim l) → extractSigned bits t = (none, t)) ∧
      extractString t = (some (field t.delim l), t.advance) ∧
      t.advance = { t with rest := afterField t.delim l } := by
  refine ⟨?_, ?_, ?_, ?_⟩
  · intro bits h
    simp [extractUnsigned, hrest, parseUnsigned_none bits _ h]
  · intro bits h
    simp [extractSigned, hrest, parseSigned_none bits _ h]
  · simp [extractString, hrest]
  · simp [advance, hrest]

/-- C17, on the input of the test `extract`, `123<TAB>not<TAB>-456`: the
first extract gives 123; at the field `not` the extracts into an unsigned
and into a signed 32 bit integer return false and leave the tokenizer
unchanged; the extract into a string gives `not`, and the last extract
gives -456. -/
theorem extract_rejects_witness :
    ((⟨"123\tnot\t-456".toList, '\t', some "not\t-456".toList⟩ : Tokenizer).rest =
        some "not\t-456".toList ∧
        ¬ ValidUnsigned 32 (field '\t' "not\t-456".toList) ∧
        ¬ ValidSigned 32 (field '\t' "not\t-456".toList)) ∧
      extractUnsigned 32 (make "123\tnot\t-456".toList '\t') =
        (some 123, ⟨"123\tnot\t-456".toList, '\t', some "not\t-456".toList⟩) ∧
      extractUnsigned 32 ⟨"123\tnot\t-456".toList, '\t', some "not\t-456".toList⟩ =
        (none, ⟨"123\tnot\t-456".toList, '\t', some "not\t-456".toList⟩) ∧
      extractSigned 32 ⟨"123\tnot\t-456".toList, '\t', some "not\t-456".toList⟩ =
        (none, ⟨"123\tnot\t-456".toList, '\t', some "not\t-456".toList⟩) ∧
      extractString ⟨"123\tnot\t-456".toList, '\t', some "not\t-456".toList⟩ =
        (some "not".toList, ⟨"123\tnot\t-456".toList, '\t', some "-456".toList⟩) ∧
      extractSigned 32 ⟨"123\tnot\t-456".toList, '\t', some "-456".toList⟩ =
        (some (-456), ⟨"123\tnot\t-456".toList, '\t', none⟩) :=
  ⟨⟨rfl, by unfold ValidUnsigned; decide, by
      unfold ValidSigned
      rintro (h | ⟨ds, h, _⟩)
      · exact absurd (h.2.1 'n' (by decide)) (by decide)
      · exact absurd (congrArg List.head? h)
          (by decide : (field '\t' "not\t-456".toList).head? ≠ some '-')⟩,
    by decide,
    (extract_rejects ⟨"123\tnot\t-456".toList, '\t', some "not\t-456".toList⟩
      "not\t-456".toList rfl).1 32 (by unfold ValidUnsigned; decide),
    (extract_rejects ⟨"123\tnot\t-456".toList, '\t', some "not\t-456".toList⟩
      "not\t-456".toList rfl).2.1 32 (by
        unfold ValidSigned
        rintro (h | ⟨ds, h, _⟩)
        · exact absurd (h.2.1 'n' (by decide)) (by decide)
        · exact absurd (congrArg List.head? h)
            (by decide : (field '\t' "not\t-456".toList).head? ≠ some '-')),
    by decide, by decide⟩

end Tokenizer


/-! ## `GenotypeComparator`: the table of keys -/

namespace GenotypeComparator

theorem keys_record (st : Nat) (T : List ((Nat × Variant) × List Nat)) (k : Nat × Variant) :
    (record st T k).map Prod.fst =
      if k ∈ T.map Prod.fst then T.map Prod.fst else T.map Prod.fst ++ [k] := by
  induction T with
  | nil => simp [record]
  | cons kv rest ih =>
    obtain ⟨k', S⟩ := kv
    simp only [record]
    by_cases h : k' = k
    · simp [h]
    · have h' : k ≠ k' := fun e => h e.symm
      simp only [if_neg h, List.map_cons, ih, List.mem_cons, h', false_or]
      split <;> simp

theorem mem_record (st : Nat) (T : List ((Nat × Variant) × List Nat)) (k : Nat × Variant)
    (hnd : (T.map Prod.fst).Nodup) (k' : Nat × Variant) (S' : List Nat)
    (h : (k', S') ∈ record st T k) :
    (k' ≠ k ∧ (k', S') ∈ T) ∨
      (k' = k ∧ ∀ x, x ∈ S' ↔ (x = st ∨ ∃ S, (k, S) ∈ T ∧ x ∈ S)) := by
  induction T with
  | nil =>
    simp only [record, List.mem_singleton, Prod.mk.injEq] at h
    right
    refine ⟨h.1, ?_⟩
    intro x
    rw [h.2]
    simp
  | cons kv rest ih =>
    obtain ⟨k0, S0⟩ := kv
    rw [List.map_cons, List.nodup_cons] at hnd
    simp only [record] at h
    by_cases h0 : k0 = k
    · rw [if_pos h0] at h
      rcases List.mem_cons.1 h with h1 | h1
      · simp only [Prod.mk.injEq] at h1
        right
        refine ⟨h1.1.trans h0, ?_⟩
        intro x
        have huniq : ∀ S, (k, S) ∈ (k0, S0) :: rest ↔ S = S0 := by
          intro S
          constructor
          · intro hm
            rcases List.mem_cons.1 hm with hm | hm
            · exact (Prod.mk.inj hm).2
            · exact absurd (List.mem_map_of_mem Prod.fst hm) (by rw [← h0]; exact hnd.1)
          · intro hS
            rw [hS, ← h0]
            exact List.mem_cons_self _ _
        rw [h1.2]
        constructor
        · intro hx
          split at hx
          · exact Or.inr ⟨S0, (huniq S0).2 rfl, hx⟩
          · rcases List.mem_append.1 hx with hx | hx
            · exact Or.inr ⟨S0, (huniq S0).2 rfl, hx⟩
            · exact Or.inl (by simpa using hx)
        · rintro (hx | ⟨S, hS, hx⟩)
          · split
            · next hin => rw [hx]; exact hin
            · rw [hx]; simp
          · rw [(huniq S).1 hS] at hx
            split
            · exact hx
            · exact List.mem_append_left _ hx
      · left
        refine ⟨?_, List.mem_cons_of_mem _ h1⟩
        intro hk
        apply hnd.1
        rw [h0, ← hk]
        exact List.mem_map.2 ⟨(k', S'), h1, rfl⟩
    · rw [if_neg h0] at h
      rcases List.mem_cons.1 h with h1 | h1
      · simp only [Prod.mk.injEq] at h1
        left
        refine ⟨by rw [h1.1]; exact h0, ?_⟩
        rw [h1.1, h1.2]
        exact List.mem_cons_self _ _
      · rcases ih hnd.2 h1 with ⟨hne, hm⟩ | ⟨he, hx⟩
        · exact Or.inl ⟨hne, List.mem_cons_of_mem _ hm⟩
        · right
          refine ⟨he, ?_⟩
          intro x
          rw [hx x]
          constructor
          · rintro (hx | ⟨S, hS, hx⟩)
            · exact Or.inl hx
            · exact Or.inr ⟨S, List.mem_cons_of_mem _ hS, hx⟩
          · rintro (hx | ⟨S, hS, hx⟩)
            · exact Or.inl hx
            · rcases List.mem_cons.1 hS with hS | hS
              · exact absurd (Prod.mk.inj hS).1.symm h0
              · exact Or.inr ⟨S, hS, hx⟩

theorem exact_record (T : List ((Nat × Variant) × List Nat))
    (P : List (Nat × (Nat × Variant))) (st : Nat) (k : Nat × Variant) (h : Exact T P) :
    Exact (record st T k) (P ++ [(st, k)]) := by
  obtain ⟨h1, h2, h3⟩ := h
  refine ⟨?_, ?_, ?_⟩
  · rw [keys_record]
    split
    · exact h1
    · next hk =>
      rw [List.nodup_append]
      refine ⟨h1, List.nodup_singleton _, ?_⟩
      intro a ha hb
      rw [List.mem_singleton] at hb
      rw [hb] at ha
      exact hk ha
  · intro k' S' hm st'
    rcases mem_record st T k h1 k' S' hm with ⟨hne, hm'⟩ | ⟨he, hx⟩
    · rw [h2 k' S' hm' st']
      simp [hne]
    · rw [hx st', he]
      simp only [List.mem_append, List.mem_singleton, Prod.mk.injEq, and_true]
      constructor
      · rintro (hs | ⟨S, hS, hs⟩)
        · exact Or.inr hs
        · exact Or.inl ((h2 k S hS st').1 hs)
      · rintro (hp | hs)
        · obtain ⟨⟨k0, S⟩, hS, hk0⟩ := List.mem_map.1 (h3 st' k hp)
          simp only at hk0
          subst hk0
          exact Or.inr ⟨S, hS, (h2 _ S hS st').2 hp⟩
        · exact Or.inl hs
  · intro st' k' hm
    rw [keys_record]
    rcases List.mem_append.1 hm with hm | hm
    · have := h3 st' k' hm
      split
      · exact this
      · exact List.mem_append_left _ this
    · simp only [List.mem_singleton, Prod.mk.injEq] at hm
      rw [hm.2]
      split
      · next hk => exact hk
      · simp

theorem exact_recordAll (evs : List (Nat × (Nat × Variant)))
    (T : List ((Nat × Variant) × List Nat)) (P : List (Nat × (Nat × Variant)))
    (h : Exact T P) : Exact (recordAll T evs) (P ++ evs) := by
  induction evs generalizing T P with
  | nil => simpa [recordAll] using h
  | cons ev rest ih =>
    have := ih (record ev.1 T ev.2) (P ++ [ev]) (exact_record T P ev.1 ev.2 h)
    simpa [recordAll] using this

end GenotypeComparator


/-! ## `GenotypeComparator`: the reports of a run -/

namespace GenotypeComparator

theorem variantOf_pos (e : Entry) (i : Nat) (v : Variant) (h : variantOf e i = some v) :
    v.pos = e.pos := by
  unfold variantOf at h
  split at h
  · cases h
  · simp only [Option.map_eq_some'] at h
    obtain ⟨a, _, ha⟩ := h
    rw [← ha]

theorem callsFrom_pos (e : Entry) (s : Nat) (gs : List (List Nat)) :
    ∀ k ∈ callsFrom e s gs, k.2.pos = e.pos := by
  induction gs generalizing s with
  | nil => intro k hk; cases hk
  | cons g rest ih =>
    intro k hk
    simp only [callsFrom, List.mem_append, List.mem_filterMap, Option.map_eq_some'] at hk
    rcases hk with ⟨i, _, v, hv, hk⟩ | hk
    · rw [← hk]
      exact variantOf_pos e i v hv
    · exact ih (s + 1) k hk

theorem calls_pos (e : Entry) : ∀ k ∈ calls e, k.2.pos = e.pos :=
  callsFrom_pos e 0 e.genotypes

theorem record_append (st : Nat) (R W : List ((Nat × Variant) × List Nat))
    (k : Nat × Variant) (h : k ∉ R.map Prod.fst) :
    record st (R ++ W) k = R ++ record st W k := by
  induction R with
  | nil => rfl
  | cons kv rest ih =>
    obtain ⟨k', S⟩ := kv
    simp only [List.map_cons, List.mem_cons, not_or] at h
    rw [List.cons_append, record, if_neg (fun e => h.1 e.symm), ih h.2]
    rfl

theorem foldl_record_append (st : Nat) (ks : List (Nat × Variant))
    (R W : List ((Nat × Variant) × List Nat)) (h : ∀ k ∈ ks, k ∉ R.map Prod.fst) :
    ks.foldl (record st) (R ++ W) = R ++ ks.foldl (record st) W := by
  induction ks generalizing W with
  | nil => rfl
  | cons k rest ih =>
    rw [List.foldl_cons, List.foldl_cons, record_append st R W k (h k (by simp))]
    exact ih _ (fun k' hk' => h k' (by simp [hk']))

theorem recordAll_append (T : List ((Nat × Variant) × List Nat))
    (e1 e2 : List (Nat × (Nat × Variant))) :
    recordAll T (e1 ++ e2) = recordAll (recordAll T e1) e2 := by
  simp [recordAll, List.foldl_append]

theorem recordAll_map (T : List ((Nat × Variant) × List Nat)) (st : Nat)
    (ks : List (Nat × Variant)) :
    recordAll T (ks.map (fun k => (st, k))) = ks.foldl (record st) T := by
  simp [recordAll, List.foldl_map]

/-- On entries pushed in ascending order of position the windows do not
matter: the reports are the table of all calls. -/
theorem foldl_push_eq (rest : List Entry) (s : State)
    (hs : List.Pairwise (fun a b : Entry => a.pos ≤ b.pos) rest)
    (hB : ∀ kv ∈ s.reports, ∀ e ∈ rest, kv.1.2.pos < e.pos) :
    (rest.foldl push s).reports ++ (rest.foldl push s).window =
      recordAll (s.reports ++ s.window) (events rest) := by
  induction rest generalizing s with
  | nil => rfl
  | cons e rest ih =>
    rw [List.pairwise_cons] at hs
    have hflush : ∃ s1 : State,
        push s e = ⟨(calls e).foldl (record e.stream) s1.window, s1.reports⟩ ∧
        s1.reports ++ s1.window = s.reports ++ s.window ∧
        ∀ kv ∈ s1.reports, kv.1.2.pos < e.pos := by
      by_cases hall : s.window.all (fun kv => decide (kv.1.2.pos < e.pos)) = true
      · refine ⟨⟨[], s.reports ++ s.window⟩, by simp [push, hall], by simp, ?_⟩
        intro kv hkv
        rcases List.mem_append.1 hkv with h | h
        · exact hB kv h e (by simp)
        · have := List.all_eq_true.1 hall kv h
          simpa using this
      · refine ⟨s, by simp [push, hall], rfl, ?_⟩
        intro kv hkv
        exact hB kv hkv e (by simp)
    obtain ⟨s1, hp, hT, hlt⟩ := hflush
    have hfresh : ∀ k ∈ calls e, k ∉ s1.reports.map Prod.fst := by
      intro k hk hmem
      obtain ⟨kv, hkv, hke⟩ := List.mem_map.1 hmem
      have h1 := hlt kv hkv
      have h2 := calls_pos e k hk
      rw [hke] at h1
      omega
    rw [List.foldl_cons, hp]
    rw [ih _ hs.2 (by
      intro kv hkv e' he'
      have h1 := hlt kv hkv
      have h2 := hs.1 e' he'
      omega)]
    simp only
    rw [← foldl_record_append e.stream (calls e) s1.reports s1.window hfresh, hT]
    simp only [events, List.flatMap_cons]
    rw [recordAll_append, recordAll_map]

theorem mem_events (es : List Entry) (st : Nat) (k : Nat × Variant) :
    (st, k) ∈ events es ↔ ∃ e ∈ es, e.stream = st ∧ k ∈ calls e := by
  simp only [events, List.mem_flatMap, List.mem_map, Prod.mk.injEq]
  constructor
  · rintro ⟨e, he, k', hk', h1, h2⟩
    exact ⟨e, he, h1, by rw [← h2]; exact hk'⟩
  · rintro ⟨e, he, h1, h2⟩
    exact ⟨e, he, k, h2, h1, rfl⟩

/-- C16. For every sequence of entries pushed in ascending order of
position (the order in which the merge of the source streams delivers them),
the collector receives one report for each sample and each distinct called
variant (position, ref, alt), no sample and variant twice, and the set of
source-stream indices of a report consists of exactly the streams with an
entry whose genotype call for that sample references that variant: calls of
the identical variant from different streams are merged into one report
that names every such stream, and different alts at one position have
reports of their own. -/
theorem run_reports (es : List Entry)
    (hs : List.Pairwise (fun a b : Entry => a.pos ≤ b.pos) es) :
    ((run es).map Prod.fst).Nodup ∧
      (∀ k S, (k, S) ∈ run es →
        ∀ st, st ∈ S ↔ ∃ e ∈ es, e.stream = st ∧ k ∈ calls e) ∧
      (∀ e ∈ es, ∀ k ∈ calls e, k ∈ (run es).map Prod.fst) := by
  have hrun : run es = recordAll [] (events es) := by
    unfold run
    rw [foldl_push_eq es ⟨[], []⟩ hs (by intro kv hkv; cases hkv)]
    rfl
  have hex : Exact (recordAll [] (events es)) ([] ++ events es) :=
    exact_recordAll (events es) [] [] ⟨List.nodup_nil, by simp, by simp⟩
  rw [List.nil_append] at hex
  rw [hrun]
  refine ⟨hex.1, ?_, ?_⟩
  · intro k S hm st
    rw [hex.2.1 k S hm st, mem_events]
  · intro e he k hk
    exact hex.2.2 e.stream k ((mem_events es e.stream k).2 ⟨e, he, rfl, hk⟩)

/-- C16, on the first five entries of the test `process`: streams 0 and 1
call `A -> G` at position 10 for both samples, stream 2 calls `A -> C` there
for the first sample, and streams 2 and 0 call `A -> G` at position 11. -/
theorem run_reports_witness :
    List.Pairwise (fun a b : Entry => a.pos ≤ b.pos)
        [⟨0, 10, "A".toList, ["G".toList], [[1, 1], [0, 1]]⟩,
          ⟨1, 10, "A".toList, ["G".toList], [[0, 1], [1, 1]]⟩,
          ⟨2, 10, "A".toList, ["C".toList], [[0, 1]]⟩,
          ⟨2, 11, "A".toList, ["G".toList], [[0, 1]]⟩,
          ⟨0, 11, "A".toList, ["G".toList], [[0, 1]]⟩] ∧
      run [⟨0, 10, "A".toList, ["G".toList], [[1, 1], [0, 1]]⟩,
          ⟨1, 10, "A".toList, ["G".toList], [[0, 1], [1, 1]]⟩,
          ⟨2, 10, "A".toList, ["C".toList], [[0, 1]]⟩,
          ⟨2, 11, "A".toList, ["G".toList], [[0, 1]]⟩,
          ⟨0, 11, "A".toList, ["G".toList], [[0, 1]]⟩] =
        [((0, ⟨10, "A".toList, "G".toList⟩), [0, 1]),
          ((1, ⟨10, "A".toList, "G".toList⟩), [0, 1]),
          ((0, ⟨10, "A".toList, "C".toList⟩), [2]),
          ((0, ⟨11, "A".toList, "G".toList⟩), [2, 0])] ∧
      ((run [⟨0, 10, "A".toList, ["G".toList], [[1, 1], [0, 1]]⟩,
          ⟨1, 10, "A".toList, ["G".toList], [[0, 1], [1, 1]]⟩,
          ⟨2, 10, "A".toList, ["C".toList], [[0, 1]]⟩,
          ⟨2, 11, "A".toList, ["G".toList], [[0, 1]]⟩,
          ⟨0, 11, "A".toList, ["G".toList], [[0, 1]]⟩]).map Prod.fst).Nodup :=
  ⟨by decide, by decide,
    (run_reports [⟨0, 10, "A".toList, ["G".toList], [[1, 1], [0, 1]]⟩,
      ⟨1, 10, "A".toList, ["G".toList], [[0, 1], [1, 1]]⟩,
      ⟨2, 10, "A".toList, ["C".toList], [[0, 1]]⟩,
      ⟨2, 11, "A".toList, ["G".toList], [[0, 1]]⟩,
      ⟨0, 11, "A".toList, ["G".toList], [[0, 1]]⟩] (by decide)).1⟩

end GenotypeComparator


/-! ## The models against the expected values of the tests -/

namespace AltNormalizer

/-- The expected values of the tests `insertionWithTrailingRepeatMatch`,
`immovableInsertion`, `deletion`, `deletionWithSubstitution`,
`immovableDeletion` and `testSubstitutionWithPadding` of
`TestVcfAltNormalizer.cpp` (reference `TTTCGCGCGCGCG`). -/
theorem normalize_expected :
    normalize "TTTCGCGCGCGCG".toList ⟨11, "GCG".toList, ["GAGCG".toList], []⟩ =
        ⟨10, "C".toList, ["CGA".toList], []⟩ ∧
      normalize "TTTCGCGCGCGCG".toList ⟨11, "GCG".toList, ["GAATT".toList], []⟩ =
        ⟨12, "CG".toList, ["AATT".toList], []⟩ ∧
      normalize "TTTCGCGCGCGCG".toList ⟨11, "GCG".toList, ["G".toList], []⟩ =
        ⟨3, "TCG".toList, ["T".toList], []⟩ ∧
      normalize "TTTCGCGCGCGCG".toList ⟨9, "GCGCG".toList, ["GAG".toList], []⟩ =
        ⟨10, "CGC".toList, ["A".toList], []⟩ ∧
      normalize "TTTCGCGCGCGCG".toList ⟨9, "GCGCG".toList, ["GAT".toList], []⟩ =
        ⟨10, "CGCG".toList, ["AT".toList], []⟩ ∧
      normalize "TTTCGCGCGCGCG".toList ⟨9, "GCGCG".toList, ["GCGCA".toList], []⟩ =
        ⟨13, "G".toList, ["A".toList], []⟩ := by
  decide

/-- The expected values of the tests `messyInsertionAndDeletion` (two alts
normalized jointly) and `indelAtPos1` (extension blocked by the start of the
sequence). -/
theorem normalize_expected_joint :
    normalize "TTTTTTTTTTTTTCCTCGCTCCC".toList
        ⟨22, "CC".toList, ["C".toList, "CCTCGCTCCC".toList], []⟩ =
        ⟨13, "TCCTCGCTC".toList, ["TCCTCGCT".toList, "TCCTCGCTCCCTCGCTC".toList], []⟩ ∧
      normalize "AGAGAGAAAGAAAG".toList ⟨2, "GAG".toList, ["G".toList], []⟩ =
        ⟨1, "AGA".toList, ["A".toList], []⟩ := by
  decide

end AltNormalizer

namespace Tokenizer

/-- The expected values of the test `nullFields` of `TestTokenizer.cpp`: the
input `,1,,3,` with the delimiter `,` has the five fields "", "1", "", "3",
"", and `eof()` holds after the fifth extract and not before. -/
theorem extractString_null_fields :
    (extractString (make ",1,,3,".toList ',')).1 = some [] ∧
      (extractString (extractString (make ",1,,3,".toList ',')).2).1 = some ['1'] ∧
      (extractString (extractString (extractString (make ",1,,3,".toList ',')).2).2).1 =
        some [] ∧
      (extractString (extractString (extractString (extractString
        (make ",1,,3,".toList ',')).2).2).2).1 = some ['3'] ∧
      (extractString (extractString (extractString (extractString
        (make ",1,,3,".toList ',')).2).2).2).2.eof = false ∧
      (extractString (extractString (extractString (extractString (extractString
        (make ",1,,3,".toList ',')).2).2).2).2).1 = some [] ∧
      (extractString (extractString (extractString (extractString (extractString
        (make ",1,,3,".toList ',')).2).2).2).2).2.eof = true := by
  decide

/-- The expected values of the test `rewind`: after the three extracts of
`1<TAB>2<TAB>3` and `rewind()` the first extract gives 1 again. -/
theorem rewind_expected :
    (extractSigned 32 (extractSigned 32 (extractSigned 32
        (make "1\t2\t3".toList '\t')).2).2).1 = some 3 ∧
      (extractSigned 32 (extractSigned 32 (extractSigned 32 (extractSigned 32
        (make "1\t2\t3".toList '\t')).2).2).2.rewind).1 = some 1 := by
  decide

end Tokenizer


/-! ## The two comparison modes -/

namespace IntersectFull

/-- C21. The two comparison modes differ only on insertions: for records
`a` and `b` neither of which is zero-length or contains insertions,
`compare` with `adjacentInsertions = true` equals `compare` with
`adjacentInsertions = false`; and, when `containsInsertions` holds for every
zero-length record, a pair that is INTERSECT with
`adjacentInsertions = false` is INTERSECT with `adjacentInsertions = true`
as well. -/
theorem compare_modes (a b : Record) :
    (a.start ≠ a.stop → b.start ≠ b.stop → a.containsInsertions = false →
        b.containsInsertions = false → compare true a b = compare false a b) ∧
      ((a.start = a.stop → a.containsInsertions = true) →
        (b.start = b.stop → b.containsInsertions = true) →
        compare false a b = Compare.INTERSECT → compare true a b = Compare.INTERSECT) := by
  rcases lt_trichotomy (strverscmp a.chrom b.chrom) 0 with h | h | h
  · rw [compare_of_lt true a b h, compare_of_lt false a b h]
    exact ⟨fun _ _ _ _ => rfl, fun _ _ hc => hc⟩
  · rw [compare_true_of_eq a b h, compare_false_of_eq a b h]
    constructor
    · intro ha hb ia ib
      have hs : ¬ (a.start = a.stop ∧ b.start = b.stop ∧ a.start = b.start) :=
        fun hc => ha hc.1
      rw [if_neg hs, ia, ib]
      simp only [Bool.false_eq_true, false_and, or_self, if_false]
    · intro ia ib hc
      by_cases hs : (a.containsInsertions = true ∧ (a.stop = b.start ∨ a.start = b.stop)) ∨
          (b.containsInsertions = true ∧ (b.stop = a.start ∨ b.start = a.stop))
      · rw [if_pos hs]
      · rw [if_neg hs]
        by_cases h1 : a.start = a.stop ∧ b.start = b.stop ∧ a.start = b.start
        · exfalso
          apply hs
          exact Or.inl ⟨ia h1.1, Or.inl (by omega)⟩
        · rw [if_neg h1] at hc
          exact hc
  · rw [compare_of_gt true a b h, compare_of_gt false a b h]
    exact ⟨fun _ _ _ _ => rfl, fun _ _ hc => hc⟩

/-- C21, at the intervals `[3,6)` and `[6,9)` without insertions (BEFORE in
both modes) and at two insertions at position 5 (INTERSECT in both
modes). -/
theorem compare_modes_witness :
    ((3 : Nat) ≠ 6 ∧ (6 : Nat) ≠ 9) ∧
      compare true ⟨"1", 3, 6, false, "a"⟩ ⟨"1", 6, 9, false, "b"⟩ =
        compare false ⟨"1", 3, 6, false, "a"⟩ ⟨"1", 6, 9, false, "b"⟩ ∧
      compare false ⟨"1", 5, 5, true, "i"⟩ ⟨"1", 5, 5, true, "j"⟩ = Compare.INTERSECT ∧
      compare true ⟨"1", 5, 5, true, "i"⟩ ⟨"1", 5, 5, true, "j"⟩ = Compare.INTERSECT :=
  ⟨by decide,
    (compare_modes ⟨"1", 3, 6, false, "a"⟩ ⟨"1", 6, 9, false, "b"⟩).1
      (by decide) (by decide) rfl rfl,
    by decide,
    (compare_modes ⟨"1", 5, 5, true, "i"⟩ ⟨"1", 5, 5, true, "j"⟩).2
      (fun _ => rfl) (fun _ => rfl) (by decide)⟩

end IntersectFull


/-! ## The sortedness guard on sorted streams -/

namespace IntersectFull

theorem executeFrom_consumed {σ : Type} (I : Setup σ) (A b : Stream) (valueA valueB : Record)
    (cache : List CacheEntry) (rc : Rc σ)
    (h : (executeFrom I A b valueA valueB cache rc).error = none) :
    (executeFrom I A b valueA valueB cache rc).a = [] := by
  induction A generalizing b valueA valueB cache rc with
  | nil => rfl
  | cons a rest ih =>
    simp only [executeFrom] at h ⊢
    cases hadv : advanceSorted I.adjacentInsertions I.aName a valueA with
    | error err => rw [hadv] at h; cases h
    | ok v =>
      rw [hadv] at h
      simp only at h ⊢
      cases hs : (processA I v b valueB cache rc).error with
      | some err => rw [hs] at h; cases h
      | none =>
        rw [hs] at h
        simp only at h ⊢
        exact ih _ _ _ _ _ h

theorem not_unsorted_of_chain {adj : Bool} {name : String} {v : Record} {l : List Record}
    (h : List.Chain (GuardOk adj) v l) (e : UnsortedDataError) :
    ¬ Unsorted adj name (v :: l) e := by
  rintro ⟨value, peek, _, hc, l1, l2, hl⟩
  exact chain_guard_consecutive h hl hc

/-- C22. With `adjacentInsertions = false`, for streams A and B that are
each sorted ascending by (chromosome, start, stop) with `start <= stop` in
every record, and for every collector, the sortedness guard never fires:
`execute` ends without an `UnsortedDataError` and has consumed every record
of A. -/
theorem execute_guard_silent {σ : Type} (I : Setup σ) (A B : Stream) (rc : σ)
    (hadj : I.adjacentInsertions = false)
    (hA : SortedAsc A) (hB : SortedAsc B)
    (hwA : ∀ r ∈ A, r.start ≤ r.stop) (hwB : ∀ r ∈ B, r.start ≤ r.stop) :
    (execute I A B Record.initial Record.initial rc).error = none ∧
      (execute I A B Record.initial Record.initial rc).a = [] := by
  have hwA' : ∀ r ∈ A, WellFormed I.adjacentInsertions r := fun r hr =>
    ⟨hwA r hr, fun h => by rw [hadj] at h; cases h⟩
  have hwB' : ∀ r ∈ B, WellFormed I.adjacentInsertions r := fun r hr =>
    ⟨hwB r hr, fun h => by rw [hadj] at h; cases h⟩
  rw [sortedAsc_iff_chain'] at hA hB
  have hgA := chain_guard_initial I.adjacentInsertions Record.initial A rfl rfl rfl hwA' hA
  have hgB := chain_guard_initial I.adjacentInsertions Record.initial B rfl rfl rfl hwB' hB
  have hg := (executeFrom_guard I (Record.initial :: A) (Record.initial :: B) A B
    Record.initial Record.initial [] ⟨rc, []⟩ (List.suffix_refl _) (List.suffix_refl _)).1
  have hnone : (execute I A B Record.initial Record.initial rc).error = none := by
    cases he : (execute I A B Record.initial Record.initial rc).error with
    | none => rfl
    | some e =>
      rcases hg e he with h | h
      · exact absurd h (not_unsorted_of_chain hgA e)
      · exact absurd h (not_unsorted_of_chain hgB e)
  exact ⟨hnone, executeFrom_consumed I A B _ _ _ _ hnone⟩

/-- C22, on A = `[3,6)`, `[3,8)`, `[20,30)` and B = `[1,2)`, `[4,5)`,
`[4,5)` with a collector whose `hit` returns false and that wants no miss
reports. -/
theorem execute_guard_silent_witness :
    (SortedAsc [(⟨"1", 3, 6, false, "a1"⟩ : Record), ⟨"1", 3, 8, false, "a2"⟩,
          ⟨"1", 20, 30, false, "a3"⟩] ∧
        SortedAsc [(⟨"1", 1, 2, false, "b1"⟩ : Record), ⟨"1", 4, 5, false, "b2"⟩,
          ⟨"1", 4, 5, false, "b3"⟩] ∧
        (∀ r ∈ [(⟨"1", 3, 6, false, "a1"⟩ : Record), ⟨"1", 3, 8, false, "a2"⟩,
          ⟨"1", 20, 30, false, "a3"⟩], r.start ≤ r.stop) ∧
        (∀ r ∈ [(⟨"1", 1, 2, false, "b1"⟩ : Record), ⟨"1", 4, 5, false, "b2"⟩,
          ⟨"1", 4, 5, false, "b3"⟩], r.start ≤ r.stop)) ∧
      (execute ⟨"A", "B", constCollector false false false, false⟩
        [⟨"1", 3, 6, false, "a1"⟩, ⟨"1", 3, 8, false, "a2"⟩, ⟨"1", 20, 30, false, "a3"⟩]
        [⟨"1", 1, 2, false, "b1"⟩, ⟨"1", 4, 5, false, "b2"⟩, ⟨"1", 4, 5, false, "b3"⟩]
        Record.initial Record.initial ()).error = none ∧
      (execute ⟨"A", "B", constCollector false false false, false⟩
        [⟨"1", 3, 6, false, "a1"⟩, ⟨"1", 3, 8, false, "a2"⟩, ⟨"1", 20, 30, false, "a3"⟩]
        [⟨"1", 1, 2, false, "b1"⟩, ⟨"1", 4, 5, false, "b2"⟩, ⟨"1", 4, 5, false, "b3"⟩]
        Record.initial Record.initial ()).a = [] :=
  ⟨by decide,
    execute_guard_silent ⟨"A", "B", constCollector false false false, false⟩
      [⟨"1", 3, 6, false, "a1"⟩, ⟨"1", 3, 8, false, "a2"⟩, ⟨"1", 20, 30, false, "a3"⟩]
      [⟨"1", 1, 2, false, "b1"⟩, ⟨"1", 4, 5, false, "b2"⟩, ⟨"1", 4, 5, false, "b3"⟩] ()
      rfl (by decide) (by decide) (by decide) (by decide)⟩

end IntersectFull


/-! ## The cache after each record of stream A, for every sorted stream B -/

namespace IntersectFull

/-- A record that follows, in ascending order, a record lying wholly after
`a` is not before `a`. -/
theorem compare_not_after_of_before (adj : Bool) {a y x : Record} (hyx : recLE y x)
    (h : compare adj a y = Compare.BEFORE) : compare adj a x ≠ Compare.AFTER := by
  rcases lt_trichotomy (strverscmp a.chrom y.chrom) 0 with hay | hay | hay
  · rw [compare_of_lt adj a x (strverscmp_lt_of_lt_of_le hay (recLE_chrom hyx))]
    simp
  · rcases hyx with hlt | ⟨heq, hco⟩
    · rw [compare_of_lt adj a x (strverscmp_lt_of_le_of_lt (le_of_eq hay) hlt)]
      simp
    · have hax : strverscmp a.chrom x.chrom = 0 := by
        rw [← strverscmp_congr_right heq a.chrom]
        exact hay
      cases adj
      · rw [compare_false_of_eq a y hay] at h
        rw [compare_false_of_eq a x hax]
        split_ifs at h ⊢ <;> first | (simp; done) | (exfalso; omega)
      · rw [compare_true_of_eq a y hay] at h
        rw [compare_true_of_eq a x hax]
        split_ifs at h ⊢ <;> first | (simp; done) | (exfalso; omega)
  · rw [compare_of_gt adj a y hay] at h
    cases h

theorem scanKeep_not_after_of_sorted (adj : Bool) (a : Record) (U : List CacheEntry)
    (h : List.Pairwise recLE (U.map CacheEntry.value)) :
    ∀ x ∈ scanKeep adj a U, compare adj a x.value ≠ Compare.AFTER := by
  induction U with
  | nil => intro x hx; simp [scanKeep] at hx
  | cons e rest ih =>
    rw [List.map_cons, List.pairwise_cons] at h
    intro x hx
    simp only [scanKeep] at hx
    rcases Compare.cases3 (compare adj a e.value) with hc | hc | hc
    · rw [hc] at hx
      simp only [List.mem_cons] at hx
      rcases hx with hx | hx
      · rw [hx, hc]; simp
      · exact compare_not_after_of_before adj (h.1 x.value (List.mem_map_of_mem _ hx)) hc
    · rw [hc] at hx
      exact ih h.2 x hx
    · rw [hc] at hx
      simp only [List.mem_cons] at hx
      rcases hx with hx | hx
      · rw [hx]; simp only; rw [hc]; simp
      · exact ih h.2 x hx

section CacheAny

variable {σ : Type} (I : Setup σ)

theorem pullB_cache (a : Record) (b : Stream) (valueB : Record) (hitA : Bool)
    (cache : List CacheEntry) (rc : Rc σ) :
    (((pullB I a b valueB hitA cache rc).cache ++
          fresh (pullB I a b valueB hitA cache rc).b).map CacheEntry.value).Sublist
        ((cache ++ fresh b).map CacheEntry.value) ∧
      ∀ x ∈ (pullB I a b valueB hitA cache rc).cache,
        x ∈ cache ∨ compare I.adjacentInsertions a x.value ≠ Compare.AFTER := by
  induction b generalizing valueB hitA cache rc with
  | nil =>
    simp only [pullB]
    exact ⟨List.Sublist.refl _, fun x hx => Or.inl hx⟩
  | cons peek rest ih =>
    cases hadv : advanceSorted I.adjacentInsertions I.bName peek valueB with
    | error err =>
      simp only [pullB, hadv]
      exact ⟨List.Sublist.refl _, fun x hx => Or.inl hx⟩
    | ok v =>
      obtain ⟨rfl, _⟩ := advanceSorted_ok hadv
      simp only [pullB, hadv]
      rcases Compare.cases3 (compare I.adjacentInsertions a v) with hc | hc | hc
      · rw [hc]
        refine ⟨by simp [fresh_cons], ?_⟩
        intro x hx
        simp only [List.mem_append, List.mem_singleton] at hx
        rcases hx with hx | hx
        · exact Or.inl hx
        · right; rw [hx, hc]; simp
      · rw [hc]
        simp only
        have := ih v hitA cache
          (if I.collector.wantMissB rc.state then rc.missB I.collector v else rc)
        refine ⟨this.1.trans ?_, this.2⟩
        rw [fresh_cons, List.map_append, List.map_append, List.map_cons]
        exact List.Sublist.append_left (List.sublist_cons_self _ _) _
      · rw [hc]
        simp only
        have := ih v (hitA || (rc.hit I.collector a v).1)
          (cache ++ [⟨v, (rc.hit I.collector a v).1⟩]) (rc.hit I.collector a v).2
        refine ⟨by simpa [fresh_cons] using this.1, ?_⟩
        intro x hx
        rcases this.2 x hx with h | h
        · simp only [List.mem_append, List.mem_singleton] at h
          rcases h with h | h
          · exact Or.inl h
          · right; rw [h, hc]; simp
        · exact Or.inr h

theorem processA_cache (a : Record) (b : Stream) (valueB : Record) (cache : List CacheEntry)
    (rc : Rc σ) (hP : List.Pairwise recLE (cache.map CacheEntry.value)) :
    (((processA I a b valueB cache rc).cache ++
          fresh (processA I a b valueB cache rc).b).map CacheEntry.value).Sublist
        ((cache ++ fresh b).map CacheEntry.value) ∧
      ∀ x ∈ (processA I a b valueB cache rc).cache,
        compare I.adjacentInsertions a x.value ≠ Compare.AFTER := by
  have hcc := checkCache_values I a cache rc
  have hp := pullB_cache I a b valueB (checkCache I a cache rc).1 (checkCache I a cache rc).2.1
    (checkCache I a cache rc).2.2
  have hmem : ∀ x ∈ (checkCache I a cache rc).2.1,
      compare I.adjacentInsertions a x.value ≠ Compare.AFTER := by
    intro x hx
    have : x.value ∈ (scanKeep I.adjacentInsertions a cache).map CacheEntry.value := by
      rw [← hcc]; exact List.mem_map_of_mem _ hx
    obtain ⟨y, hy, hyx⟩ := List.mem_map.1 this
    rw [← hyx]
    exact scanKeep_not_after_of_sorted I.adjacentInsertions a cache hP y hy
  have hsub0 : (((checkCache I a cache rc).2.1 ++ fresh b).map CacheEntry.value).Sublist
      ((cache ++ fresh b).map CacheEntry.value) := by
    rw [List.map_append, List.map_append, hcc]
    exact List.Sublist.append_right (scanKeep_sublist _ _ _) _
  rw [processA_eq]
  generalize pullB I a b valueB (checkCache I a cache rc).1 (checkCache I a cache rc).2.1
    (checkCache I a cache rc).2.2 = pulled at hp ⊢
  obtain ⟨hp1, hp2⟩ := hp
  have hall : ∀ x ∈ pulled.cache, compare I.adjacentInsertions a x.value ≠ Compare.AFTER := by
    intro x hx
    rcases hp2 x hx with h | h
    · exact hmem x h
    · exact h
  split
  · exact ⟨hp1.trans hsub0, hall⟩
  · split
    · exact ⟨hp1.trans hsub0, hall⟩
    · exact ⟨hp1.trans hsub0, hall⟩

theorem loopA_cache_of_sorted (A b : Stream) (valueA valueB : Record)
    (cache : List CacheEntry) (rc : Rc σ)
    (hP : List.Pairwise recLE ((cache ++ fresh b).map CacheEntry.value))
    (herr : (loopA I A b valueA valueB cache rc).error = none) :
    (((loopA I A b valueA valueB cache rc).cache ++
          fresh (loopA I A b valueA valueB cache rc).b).map CacheEntry.value).Sublist
        ((cache ++ fresh b).map CacheEntry.value) ∧
      ∀ a ∈ A.getLast?, ∀ x ∈ (loopA I A b valueA valueB cache rc).cache,
        compare I.adjacentInsertions a x.value ≠ Compare.AFTER := by
  induction A generalizing b valueA valueB cache rc with
  | nil =>
    refine ⟨List.Sublist.refl _, ?_⟩
    intro a ha
    simp at ha
  | cons a rest ih =>
    simp only [loopA] at herr ⊢
    cases hadv : advanceSorted I.adjacentInsertions I.aName a valueA with
    | error err => rw [hadv] at herr; cases herr
    | ok v =>
      obtain ⟨rfl, _⟩ := advanceSorted_ok hadv
      rw [hadv] at herr
      simp only at herr ⊢
      have hPc : List.Pairwise recLE (cache.map CacheEntry.value) := by
        rw [List.map_append] at hP
        exact (List.pairwise_append.1 hP).1
      have hp := processA_cache I v b valueB cache rc hPc
      generalize processA I v b valueB cache rc = s at hp herr ⊢
      obtain ⟨hp1, hp2⟩ := hp
      cases hs : s.error with
      | some err => rw [hs] at herr; cases herr
      | none =>
        rw [hs] at herr
        simp only at herr ⊢
        have := ih s.b v s.valueB s.cache s.rc (hP.sublist hp1) herr
        refine ⟨this.1.trans hp1, ?_⟩
        intro a' ha'
        cases rest with
        | nil =>
          simp only [List.getLast?_singleton, Option.mem_def, Option.some.injEq] at ha'
          subst ha'
          exact hp2
        | cons r rest' =>
          rw [List.getLast?_cons_cons] at ha'
          exact this.2 a' ha'

end CacheAny

end IntersectFull

namespace IntersectFull

/-- C19, amended. For all sorted streams A and B and every collector (of
the order of A nothing is used: A may be any stream, B is sorted ascending by
(chromosome, start, stop)): whenever the outer loop of `execute` has finished
processing a record `a` of A, no `UnsortedDataError` having been raised, the
run goes on from the state it is then in, and in that state the cache is in
stream-B order (its records are a subsequence of B) and holds only B-records
that compare INTERSECT with `a` or lie wholly after it (BEFORE), any number
of the latter.  No `UnsortedDataError` is raised up to there when A is sorted
as well and all records satisfy `start <= stop` and, with
`adjacentInsertions` set, have `containsInsertions` exactly when they are
zero-length. -/
theorem loopA_cache_window {σ : Type} (I : Setup σ) (A1 : Stream) (a : Record)
    (A2 B : Stream) (rc : σ) (hB : SortedAsc B) :
    ((loopA I (A1 ++ [a]) B Record.initial Record.initial [] ⟨rc, []⟩).error = none →
        loopA I (A1 ++ a :: A2) B Record.initial Record.initial [] ⟨rc, []⟩ =
          loopA I A2 (loopA I (A1 ++ [a]) B Record.initial Record.initial [] ⟨rc, []⟩).b
            (loopA I (A1 ++ [a]) B Record.initial Record.initial [] ⟨rc, []⟩).valueA
            (loopA I (A1 ++ [a]) B Record.initial Record.initial [] ⟨rc, []⟩).valueB
            (loopA I (A1 ++ [a]) B Record.initial Record.initial [] ⟨rc, []⟩).cache
            (loopA I (A1 ++ [a]) B Record.initial Record.initial [] ⟨rc, []⟩).rc ∧
        ((loopA I (A1 ++ [a]) B Record.initial Record.initial [] ⟨rc, []⟩).cache.map
          CacheEntry.value).Sublist B ∧
        ∀ x ∈ (loopA I (A1 ++ [a]) B Record.initial Record.initial [] ⟨rc, []⟩).cache,
          compare I.adjacentInsertions a x.value = Compare.INTERSECT ∨
            compare I.adjacentInsertions a x.value = Compare.BEFORE) ∧
      (SortedAsc (A1 ++ [a]) →
        (∀ r ∈ A1 ++ [a], WellFormed I.adjacentInsertions r) →
        (∀ r ∈ B, WellFormed I.adjacentInsertions r) →
        (loopA I (A1 ++ [a]) B Record.initial Record.initial [] ⟨rc, []⟩).error = none) := by
  have hB' := (sortedAsc_iff_chain' B).1 hB
  constructor
  · intro herr
    have h := loopA_cache_of_sorted I (A1 ++ [a]) B Record.initial Record.initial []
      ⟨rc, []⟩ (by
        rw [List.nil_append, fresh_values]
        exact pairwise_of_chain' B hB') herr
    rw [List.nil_append, fresh_values, List.map_append] at h
    obtain ⟨h2, h3⟩ := h
    refine ⟨?_, (List.sublist_append_left _ _).trans h2, ?_⟩
    · have : A1 ++ a :: A2 = (A1 ++ [a]) ++ A2 := by simp
      rw [this]
      exact loopA_append I _ _ _ _ _ _ _ herr
    · intro x hx
      have := h3 a (by simp) x hx
      rcases Compare.cases3 (compare I.adjacentInsertions a x.value) with hc | hc | hc
      · exact Or.inr hc
      · exact absurd hc this
      · exact Or.inl hc
  · intro hA hwA hwB
    have hA' := (sortedAsc_iff_chain' _).1 hA
    have hord := ordered_of_sorted I.adjacentInsertions (A1 ++ [a]) B hA' hB' hwA hwB
    have hgA := chain_guard_initial I.adjacentInsertions Record.initial (A1 ++ [a])
      rfl rfl rfl hwA hA'
    have hgB := chain_guard_initial I.adjacentInsertions Record.initial B rfl rfl rfl hwB hB'
    exact (loopA_cache I (A1 ++ [a]) B Record.initial Record.initial [] ⟨rc, []⟩ hgA hgB (by
      intro a' ha'
      rw [List.nil_append, fresh_values]
      exact hord.1 a' ha')).1

/-- C19 amended, with adjacent insertions enabled, on A = `[2,6)`, `[2,6)`
and B = `[6,7)`, `[6,8)`, the last record flagged as containing insertions:
after the second A-record the cache holds `[6,7)`, which lies after `[2,6)`,
followed by `[6,8)`, which INTERSECTs it. -/
theorem loopA_cache_window_witness :
    (SortedAsc [(⟨"1", 6, 7, false, "b1"⟩ : Record), ⟨"1", 6, 8, true, "b2"⟩] ∧
        (loopA ⟨"A", "B", constCollector true true true, true⟩
          ([⟨"1", 2, 6, false, "a1"⟩] ++ [⟨"1", 2, 6, false, "a2"⟩])
          [⟨"1", 6, 7, false, "b1"⟩, ⟨"1", 6, 8, true, "b2"⟩]
          Record.initial Record.initial [] ⟨(), []⟩).error = none) ∧
      (loopA ⟨"A", "B", constCollector true true true, true⟩
        ([⟨"1", 2, 6, false, "a1"⟩] ++ [⟨"1", 2, 6, false, "a2"⟩])
        [⟨"1", 6, 7, false, "b1"⟩, ⟨"1", 6, 8, true, "b2"⟩]
        Record.initial Record.initial [] ⟨(), []⟩).cache.map CacheEntry.value =
        [⟨"1", 6, 7, false, "b1"⟩, ⟨"1", 6, 8, true, "b2"⟩] ∧
      ∀ x ∈ (loopA ⟨"A", "B", constCollector true true true, true⟩
        ([⟨"1", 2, 6, false, "a1"⟩] ++ [⟨"1", 2, 6, false, "a2"⟩])
        [⟨"1", 6, 7, false, "b1"⟩, ⟨"1", 6, 8, true, "b2"⟩]
        Record.initial Record.initial [] ⟨(), []⟩).cache,
        compare true ⟨"1", 2, 6, false, "a2"⟩ x.value = Compare.INTERSECT ∨
          compare true ⟨"1", 2, 6, false, "a2"⟩ x.value = Compare.BEFORE :=
  ⟨by decide, by decide,
    ((loopA_cache_window ⟨"A", "B", constCollector true true true, true⟩
      [⟨"1", 2, 6, false, "a1"⟩] ⟨"1", 2, 6, false, "a2"⟩ []
      [⟨"1", 6, 7, false, "b1"⟩, ⟨"1", 6, 8, true, "b2"⟩] ()
      (by decide)).1 (by decide)).2.2⟩

end IntersectFull


/-! ## Runs on sorted streams that miss an intersection -/

namespace IntersectFull

/-- C2, refuted as stated, four runs with `adjacentInsertions` set: both
streams are sorted, every record has `start <= stop`, `hit` returns true,
`wantMissA()` is true and no `UnsortedDataError` is raised, yet a record of A
is reported through `missA` although it compares INTERSECT with a record of
B.
(1) A = `[2,6)`, B = `[6,7)` then `[6,8)`, the latter containing insertions
without being zero-length: the pull loop stops at `[6,7)`, which compares
BEFORE, so `[6,8)` is never compared with the record of A.
(2) The same with B = `[6,6)` twice, only the second containing insertions.
(3) A = `[3,5)` then `[3,9)`, the latter containing insertions without being
zero-length, B = `[1,3)`: the record of B compares AFTER for `[3,5)` and is
skipped, so `[3,9)`, which it touches, finds stream B exhausted.
(4) The same with A = `[3,3)` twice, only the second containing
insertions. -/
theorem execute_missA_counterexample :
    (SortedAsc [(⟨"1", 2, 6, false, "a"⟩ : Record)] ∧
      SortedAsc [(⟨"1", 6, 7, false, "b1"⟩ : Record), ⟨"1", 6, 8, true, "b2"⟩] ∧
      (∀ r ∈ [(⟨"1", 2, 6, false, "a"⟩ : Record), ⟨"1", 6, 7, false, "b1"⟩,
        ⟨"1", 6, 8, true, "b2"⟩], r.start ≤ r.stop) ∧
      compare true ⟨"1", 2, 6, false, "a"⟩ ⟨"1", 6, 8, true, "b2"⟩ = Compare.INTERSECT ∧
      (execute ⟨"A", "B", constCollector true true true, true⟩ [⟨"1", 2, 6, false, "a"⟩]
        [⟨"1", 6, 7, false, "b1"⟩, ⟨"1", 6, 8, true, "b2"⟩] Record.initial Record.initial
        ()).error = none ∧
      missAOf (execute ⟨"A", "B", constCollector true true true, true⟩ [⟨"1", 2, 6, false, "a"⟩]
        [⟨"1", 6, 7, false, "b1"⟩, ⟨"1", 6, 8, true, "b2"⟩] Record.initial Record.initial
        ()).rc.calls = [⟨"1", 2, 6, false, "a"⟩]) ∧
      (SortedAsc [(⟨"1", 2, 6, false, "a"⟩ : Record)] ∧
        SortedAsc [(⟨"1", 6, 6, false, "b1"⟩ : Record), ⟨"1", 6, 6, true, "b2"⟩] ∧
        (∀ r ∈ [(⟨"1", 2, 6, false, "a"⟩ : Record), ⟨"1", 6, 6, false, "b1"⟩,
          ⟨"1", 6, 6, true, "b2"⟩], r.start ≤ r.stop) ∧
        compare true ⟨"1", 2, 6, false, "a"⟩ ⟨"1", 6, 6, true, "b2"⟩ = Compare.INTERSECT ∧
        (execute ⟨"A", "B", constCollector true true true, true⟩ [⟨"1", 2, 6, false, "a"⟩]
          [⟨"1", 6, 6, false, "b1"⟩, ⟨"1", 6, 6, true, "b2"⟩] Record.initial Record.initial
          ()).error = none ∧
        missAOf (execute ⟨"A", "B", constCollector true true true, true⟩ [⟨"1", 2, 6, false, "a"⟩]
          [⟨"1", 6, 6, false, "b1"⟩, ⟨"1", 6, 6, true, "b2"⟩] Record.initial Record.initial
          ()).rc.calls = [⟨"1", 2, 6, false, "a"⟩]) ∧
      (SortedAsc [(⟨"1", 3, 5, false, "a1"⟩ : Record), ⟨"1", 3, 9, true, "a2"⟩] ∧
        SortedAsc [(⟨"1", 1, 3, false, "b"⟩ : Record)] ∧
        (∀ r ∈ [(⟨"1", 3, 5, false, "a1"⟩ : Record), ⟨"1", 3, 9, true, "a2"⟩,
          ⟨"1", 1, 3, false, "b"⟩], r.start ≤ r.stop) ∧
        compare true ⟨"1", 3, 9, true, "a2"⟩ ⟨"1", 1, 3, false, "b"⟩ = Compare.INTERSECT ∧
        (execute ⟨"A", "B", constCollector true true true, true⟩ [⟨"1", 3, 5, false, "a1"⟩,
          ⟨"1", 3, 9, true, "a2"⟩] [⟨"1", 1, 3, false, "b"⟩] Record.initial Record.initial
          ()).error = none ∧
        missAOf (execute ⟨"A", "B", constCollector true true true, true⟩
          [⟨"1", 3, 5, false, "a1"⟩, ⟨"1", 3, 9, true, "a2"⟩] [⟨"1", 1, 3, false, "b"⟩]
          Record.initial Record.initial ()).rc.calls = [⟨"1", 3, 5, false, "a1"⟩,
          ⟨"1", 3, 9, true, "a2"⟩]) ∧
      (SortedAsc [(⟨"1", 3, 3, false, "a1"⟩ : Record), ⟨"1", 3, 3, true, "a2"⟩] ∧
        SortedAsc [(⟨"1", 1, 3, false, "b"⟩ : Record)] ∧
        (∀ r ∈ [(⟨"1", 3, 3, false, "a1"⟩ : Record), ⟨"1", 3, 3, true, "a2"⟩,
          ⟨"1", 1, 3, false, "b"⟩], r.start ≤ r.stop) ∧
        compare true ⟨"1", 3, 3, true, "a2"⟩ ⟨"1", 1, 3, false, "b"⟩ = Compare.INTERSECT ∧
        (execute ⟨"A", "B", constCollector true true true, true⟩ [⟨"1", 3, 3, false, "a1"⟩,
          ⟨"1", 3, 3, true, "a2"⟩] [⟨"1", 1, 3, false, "b"⟩] Record.initial Record.initial
          ()).error = none ∧
        missAOf (execute ⟨"A", "B", constCollector true true true, true⟩
          [⟨"1", 3, 3, false, "a1"⟩, ⟨"1", 3, 3, true, "a2"⟩] [⟨"1", 1, 3, false, "b"⟩]
          Record.initial Record.initial ()).rc.calls = [⟨"1", 3, 3, false, "a1"⟩,
          ⟨"1", 3, 3, true, "a2"⟩]) := by
  decide

/-- C3, refuted as stated, four runs with `adjacentInsertions` set: both
streams are sorted, every record has `start <= stop`, `hit` returns true,
`wantMissB()` is true and no `UnsortedDataError` is raised, yet a record of B
is reported through `missB` although it compares INTERSECT with a record of
A.
(1) A = `[2,6)`, B = `[6,7)` then `[6,8)`, the latter containing insertions
without being zero-length: the pull loop stops at `[6,7)`, which compares
BEFORE, and `[6,8)` is left in stream B and reported by the final drain.
(2) The same with B = `[6,6)` twice, only the second containing insertions.
(3) A = `[3,5)` then `[3,9)`, the latter containing insertions without being
zero-length, B = `[1,3)`: the record of B compares AFTER for `[3,5)` and is
fast-forwarded with a `missB`, although `[3,9)` touches it.
(4) The same with A = `[3,3)` twice, only the second containing
insertions. -/
theorem execute_missB_counterexample :
    (SortedAsc [(⟨"1", 2, 6, false, "a"⟩ : Record)] ∧
      SortedAsc [(⟨"1", 6, 7, false, "b1"⟩ : Record), ⟨"1", 6, 8, true, "b2"⟩] ∧
      (∀ r ∈ [(⟨"1", 2, 6, false, "a"⟩ : Record), ⟨"1", 6, 7, false, "b1"⟩,
        ⟨"1", 6, 8, true, "b2"⟩], r.start ≤ r.stop) ∧
      compare true ⟨"1", 2, 6, false, "a"⟩ ⟨"1", 6, 8, true, "b2"⟩ = Compare.INTERSECT ∧
      (execute ⟨"A", "B", constCollector true true true, true⟩ [⟨"1", 2, 6, false, "a"⟩]
        [⟨"1", 6, 7, false, "b1"⟩, ⟨"1", 6, 8, true, "b2"⟩] Record.initial Record.initial
        ()).error = none ∧
      missBOf (execute ⟨"A", "B", constCollector true true true, true⟩ [⟨"1", 2, 6, false, "a"⟩]
        [⟨"1", 6, 7, false, "b1"⟩, ⟨"1", 6, 8, true, "b2"⟩] Record.initial Record.initial
        ()).rc.calls = [⟨"1", 6, 7, false, "b1"⟩, ⟨"1", 6, 8, true, "b2"⟩]) ∧
      (SortedAsc [(⟨"1", 2, 6, false, "a"⟩ : Record)] ∧
        SortedAsc [(⟨"1", 6, 6, false, "b1"⟩ : Record), ⟨"1", 6, 6, true, "b2"⟩] ∧
        (∀ r ∈ [(⟨"1", 2, 6, false, "a"⟩ : Record), ⟨"1", 6, 6, false, "b1"⟩,
          ⟨"1", 6, 6, true, "b2"⟩], r.start ≤ r.stop) ∧
        compare true ⟨"1", 2, 6, false, "a"⟩ ⟨"1", 6, 6, true, "b2"⟩ = Compare.INTERSECT ∧
        (execute ⟨"A", "B", constCollector true true true, true⟩ [⟨"1", 2, 6, false, "a"⟩]
          [⟨"1", 6, 6, false, "b1"⟩, ⟨"1", 6, 6, true, "b2"⟩] Record.initial Record.initial
          ()).error = none ∧
        missBOf (execute ⟨"A", "B", constCollector true true true, true⟩ [⟨"1", 2, 6, false, "a"⟩]
          [⟨"1", 6, 6, false, "b1"⟩, ⟨"1", 6, 6, true, "b2"⟩] Record.initial Record.initial
          ()).rc.calls = [⟨"1", 6, 6, false, "b1"⟩, ⟨"1", 6, 6, true, "b2"⟩]) ∧
      (SortedAsc [(⟨"1", 3, 5, false, "a1"⟩ : Record), ⟨"1", 3, 9, true, "a2"⟩] ∧
        SortedAsc [(⟨"1", 1, 3, false, "b"⟩ : Record)] ∧
        (∀ r ∈ [(⟨"1", 3, 5, false, "a1"⟩ : Record), ⟨"1", 3, 9, true, "a2"⟩,
          ⟨"1", 1, 3, false, "b"⟩], r.start ≤ r.stop) ∧
        compare true ⟨"1", 3, 9, true, "a2"⟩ ⟨"1", 1, 3, false, "b"⟩ = Compare.INTERSECT ∧
        (execute ⟨"A", "B", constCollector true true true, true⟩ [⟨"1", 3, 5, false, "a1"⟩,
          ⟨"1", 3, 9, true, "a2"⟩] [⟨"1", 1, 3, false, "b"⟩] Record.initial Record.initial
          ()).error = none ∧
        missBOf (execute ⟨"A", "B", constCollector true true true, true⟩
          [⟨"1", 3, 5, false, "a1"⟩, ⟨"1", 3, 9, true, "a2"⟩] [⟨"1", 1, 3, false, "b"⟩]
          Record.initial Record.initial ()).rc.calls = [⟨"1", 1, 3, false, "b"⟩]) ∧
      (SortedAsc [(⟨"1", 3, 3, false, "a1"⟩ : Record), ⟨"1", 3, 3, true, "a2"⟩] ∧
        SortedAsc [(⟨"1", 1, 3, false, "b"⟩ : Record)] ∧
        (∀ r ∈ [(⟨"1", 3, 3, false, "a1"⟩ : Record), ⟨"1", 3, 3, true, "a2"⟩,
          ⟨"1", 1, 3, false, "b"⟩], r.start ≤ r.stop) ∧
        compare true ⟨"1", 3, 3, true, "a2"⟩ ⟨"1", 1, 3, false, "b"⟩ = Compare.INTERSECT ∧
        (execute ⟨"A", "B", constCollector true true true, true⟩ [⟨"1", 3, 3, false, "a1"⟩,
          ⟨"1", 3, 3, true, "a2"⟩] [⟨"1", 1, 3, false, "b"⟩] Record.initial Record.initial
          ()).error = none ∧
        missBOf (execute ⟨"A", "B", constCollector true true true, true⟩
          [⟨"1", 3, 3, false, "a1"⟩, ⟨"1", 3, 3, true, "a2"⟩] [⟨"1", 1, 3, false, "b"⟩]
          Record.initial Record.initial ()).rc.calls = [⟨"1", 1, 3, false, "b"⟩]) := by
  decide

end IntersectFull

end Joinx
